import Mathlib

/-!
Verification development for the disco-dop LCFRS/CFG chart parser core
(`plcfrs` parse / cfgparse, `containers` chart items, `kbest` lazy k-best).

The Python/Cython sources are embedded shallowly:
  * machine words (`ULLong`, 64 bit) become `Nat` with arithmetic taken
    mod `2 ^ 64` exactly where C overflow can occur;
  * the `SLOTS = 2` wide bit arrays become `Nat` values below `2 ^ 128`;
  * `double` probabilities become `ℚ` (only `+` and `<` are used on them);
  * Python dicts keyed by chart items become association lists.

Functions keep their source names (`concat`, `fatconcat`, `process_edge`,
`parse`, `cfgparse`, `lazykthbest`, ...) wherever Lean allows.
-/

set_option maxRecDepth 8000

namespace DiscoDop

/-! ## Bit primitives (bit.pyx interface, macros.h)

The narrow variants work on one 64-bit word, the `a`-prefixed fat variants on
a `SLOTS = 2` word bit array, i.e. 128 bits.  Contracts follow the spec:
`nextset v i` is the least set bit index `≥ i` (or `-1`), `nextunset v i` the
least unset bit index `≥ i`, `bitcount` the population count, `bitlength` one
plus the index of the highest set bit (`0` for the empty vector). -/

def wordBits : Nat := 64

def fatBits : Nat := 128

/-- `2 ^ 64`, the modulus of C `unsigned long long` arithmetic. -/
def W64 : Nat := 2 ^ 64

/-- C bitwise complement `~x` on a 64-bit word. -/
def compl64 (x : Nat) : Nat := W64 - 1 - x

/-- C `x - 1` on a 64-bit word (wraps at zero). -/
def dec64 (x : Nat) : Nat := (x + (W64 - 1)) % W64

/-- C `x + 1` on a 64-bit word (wraps at `2 ^ 64 - 1`). -/
def inc64 (x : Nat) : Nat := (x + 1) % W64

def bitlength (v : Nat) : Nat :=
  (List.range fatBits).foldl (fun acc j => if v.testBit j then j + 1 else acc) 0

def bitcount (v : Nat) : Nat := ((List.range wordBits).filter v.testBit).length

def nextset (v i : Nat) : Int :=
  match (List.range wordBits).find? (fun j => decide (i ≤ j) && v.testBit j) with
  | some j => (j : Int)
  | none => -1

def nextunset (v i : Nat) : Nat :=
  match (List.range (wordBits + 1)).find? (fun j => decide (i ≤ j) && !v.testBit j) with
  | some j => j
  | none => wordBits + 1

def abitcount (v : Nat) : Nat := ((List.range fatBits).filter v.testBit).length

def abitlength (v : Nat) : Nat := bitlength v

def anextset (v i : Nat) : Int :=
  match (List.range fatBits).find? (fun j => decide (i ≤ j) && v.testBit j) with
  | some j => (j : Int)
  | none => -1

def anextunset (v i : Nat) : Nat :=
  match (List.range (fatBits + 1)).find? (fun j => decide (i ≤ j) && !v.testBit j) with
  | some j => j
  | none => fatBits + 1

/-! ## Grammar rules (containers.pyx `Rule`)

`args` and `lengths` hold the binary encoding of the yield function: bit `n`
of `args` says whether atom `n` comes from the right (`1`) or the left (`0`)
child, bit `n` of `lengths` marks the last atom of each argument. -/

structure Rule where
  lhs : Nat := 0
  rhs1 : Nat := 0
  rhs2 : Nat := 0
  args : Nat := 0
  lengths : Nat := 0
  prob : ℚ := 0
  no : Nat := 0
  deriving Repr, DecidableEq

/-! ## `concat` (plcfrs, narrow vectors)

Faithful rendering of the bit-twiddling walk; every place where the C code
can wrap (`x - 1` on zero, `~x - 1` on all-ones, `mask + 1` at the top word)
uses the explicit mod-`2 ^ 64` helpers. -/

/-- One atom step of `concat`'s loop: atom index `n`, state
`(lvec, rvec, mask)`; `none` is the C `return False`. -/
def concatBody (args lengths : Nat) (st : Nat × Nat × Nat) (n : Nat) :
    Option (Nat × Nat × Nat) :=
  let (lvec, rvec, mask) := st
  let sel := if args.testBit n then rvec else lvec
  if sel &&& mask = 0 then none
  else
    -- trailing 0 bits => 1 bits; everything before the first 0 bit => 1 bits
    let filled := sel ||| dec64 sel
    let mask := filled &&& dec64 (compl64 filled)
    -- zero out the consumed component in both vectors
    let lvec := (if args.testBit n then lvec else filled) &&& compl64 mask
    let rvec := (if args.testBit n then filled else rvec) &&& compl64 mask
    if lengths.testBit n then
      -- a gap: check that there is a gap in both vectors
      if (lvec ^^^ rvec) &&& inc64 mask ≠ 0 then none
      else
        let mask := (compl64 lvec &&& dec64 lvec) &&& (compl64 rvec &&& dec64 rvec)
        some (lvec, rvec, inc64 mask)
    else some (lvec, rvec, inc64 mask)

/-- plcfrs `concat(rule, lvec, rvec)`: compatibility of two span bitvectors
with the rule's yield function (narrow, one-word variant). -/
def concat (rule : Rule) (lvec rvec : Nat) : Bool :=
  if lvec &&& rvec ≠ 0 then false
  else
    let mask := if rule.args.testBit 0 then rvec else lvec
    match (List.range (bitlength rule.lengths)).foldl
        (fun st n => st.bind fun s => concatBody rule.args rule.lengths s n)
        (some (lvec, rvec, mask)) with
    | none => false
    | some (lvec, rvec, _) => lvec = 0 && rvec = 0

/-! ## `fatconcat` (plcfrs, wide vectors)

The wide variant walks `(lpos, rpos)` bit-position cursors (`-1` = no set bit
left).  `SLOTS = 2`, so vectors live below `2 ^ 128`; the per-slot overlap
test `lvec[n] & rvec[n]` for `n < SLOTS` is exactly `lvec &&& rvec ≠ 0`. -/

/-- One atom step of `fatconcat`'s loop (adapted from rparse FastYFComposer):
atom index `n`, cursor state `(lpos, rpos)`; `none` is `return False`. -/
def fatconcatBody (args lengths : Nat) (lvec rvec : Nat) (st : Int × Int)
    (n : Nat) : Option (Int × Int) :=
  let (lpos, rpos) := st
  if args.testBit n then
    -- check if there are any bits left, and if any bits on the right
    -- should have gone before ones on this side
    if rpos = -1 || (lpos ≠ -1 && lpos ≤ rpos) then none
    else
      -- jump to next gap
      let rpos' := anextunset rvec rpos.toNat
      if lpos ≠ -1 && lpos < (rpos' : Int) then none
      else
        -- there should be a gap iff this is the last atom of this argument
        if lengths.testBit n then
          if lvec.testBit rpos' then none
          else some (lpos, anextset rvec rpos')
        else
          if !lvec.testBit rpos' then none
          else some (lpos, anextset rvec rpos')
  else
    if lpos = -1 || (rpos ≠ -1 && rpos ≤ lpos) then none
    else
      let lpos' := anextunset lvec lpos.toNat
      if rpos ≠ -1 && rpos < (lpos' : Int) then none
      else
        if lengths.testBit n then
          if rvec.testBit lpos' then none
          else some (anextset lvec lpos', rpos)
        else
          if !rvec.testBit lpos' then none
          else some (anextset lvec lpos', rpos)

/-- plcfrs `fatconcat(rule, lvec, rvec)`, including the fast path for the
2-atom plain concatenation yield function `args = lengths = 0b10`. -/
def fatconcat (rule : Rule) (lvec rvec : Nat) : Bool :=
  if lvec &&& rvec ≠ 0 then false
  else
    let lpos := anextset lvec 0
    let rpos := anextset rvec 0
    if rule.args = 2 && rule.lengths = 2 then
      let n := anextunset lvec lpos.toNat
      rpos = (n : Int) && (-1 : Int) = anextset lvec n
        && anextset lvec n = anextset rvec (anextunset rvec rpos.toNat)
    else
      match (List.range (bitlength rule.lengths)).foldl
          (fun st n => st.bind fun s => fatconcatBody rule.args rule.lengths lvec rvec s n)
          (some (lpos, rpos)) with
      | none => false
      | some (lpos, rpos) => lpos = -1 && rpos = -1

/-! ## Specification semantics of a yield function

The semantics stated by `concat`'s own docstring and the spec: decompose the
two vectors into maximal contiguous runs, consume one run per atom from the
indicated vector, runs of one argument must be adjacent, every run of both
vectors must be consumed, and the resulting argument intervals must be
exactly the contiguous runs of the union, in order. -/

/-- The maximal contiguous runs `[a, b)` of set bits of `v`, ascending
(`v < 2 ^ 128`). -/
def runs (v : Nat) : List (Nat × Nat) :=
  ((List.range (fatBits + 1)).foldl
    (fun (st : List (Nat × Nat) × Option Nat) i =>
      match st.2, v.testBit i with
      | none, true => (st.1, some i)
      | some a, false => (st.1 ++ [(a, i)], none)
      | _, _ => st)
    ([], none)).1

/-- One atom of the specification walk: state = (runs of the left vector
still unconsumed, runs of the right vector, open argument interval,
finished argument intervals). -/
def yfStep (args lengths : Nat) (st : List (Nat × Nat) × List (Nat × Nat) ×
    Option (Nat × Nat) × List (Nat × Nat)) (n : Nat) :
    Option (List (Nat × Nat) × List (Nat × Nat) × Option (Nat × Nat) × List (Nat × Nat)) :=
  let (ls, rs, cur, acc) := st
  let take (src : List (Nat × Nat)) : Option ((Nat × Nat) × List (Nat × Nat)) :=
    match src with
    | [] => none
    | r :: rest => some (r, rest)
  let pick := if args.testBit n then take rs else take ls
  match pick with
  | none => none
  | some (r, rest) =>
    let ls' := if args.testBit n then ls else rest
    let rs' := if args.testBit n then rest else rs
    match cur with
    | none =>
      if lengths.testBit n then some (ls', rs', none, acc ++ [r])
      else some (ls', rs', some r, acc)
    | some (s, e) =>
      if r.1 = e then
        if lengths.testBit n then some (ls', rs', none, acc ++ [(s, r.2)])
        else some (ls', rs', some (s, r.2), acc)
      else none

/-- Applying the yield function encoded by `(args, lengths)` to the runs of
`a` and `b`: `some spans` when every atom consumes the next run of its
vector, runs inside an argument are adjacent, and both vectors are fully
consumed; the result is the list of argument intervals. -/
def yfApply (args lengths a b : Nat) : Option (List (Nat × Nat)) :=
  match (List.range (bitlength lengths)).foldl
      (fun st n => st.bind fun s => yfStep args lengths s n)
      (some (runs a, runs b, none, [])) with
  | none => none
  | some ([], [], none, acc) => some acc
  | some _ => none

/-! ## ChartItem comparison (containers.pyx `ChartItem.__richcmp__`) -/

/-- containers.pyx `ChartItem`: `(label, vec)` value object. -/
structure ChartItem where
  label : Nat
  vec : Nat
  deriving Repr, DecidableEq

/-- `ChartItem.__richcmp__(self, other, op)`; `op` is the CPython rich
comparison opcode (0 `<`, 1 `≤`, 2 `==`, 3 `!=`, 4 `>`, 5 `≥`). -/
def ChartItem.richcmp (a b : ChartItem) (op : Nat) : Bool :=
  if op = 2 then a.label = b.label && a.vec = b.vec
  else if op = 3 then a.label ≠ b.label || a.vec ≠ b.vec
  else if op = 5 then decide (a.label ≥ b.label) || decide (a.vec ≥ b.vec)
  else if op = 1 then decide (a.label ≤ b.label) || decide (a.vec ≤ b.vec)
  else if op = 0 then decide (a.label < b.label) || decide (a.vec < b.vec)
  else if op = 4 then decide (a.label > b.label) || decide (a.vec > b.vec)
  else false

/-! ## Association-list dictionaries

Python dicts keyed by chart items (or labels) become insertion-ordered
association lists; `aset` keeps the original position of an overwritten key,
like CPython dicts do. -/

section Assoc
variable {α β : Type} [DecidableEq α]

def alookup (l : List (α × β)) (k : α) : Option β :=
  (l.find? fun p => decide (p.1 = k)).map (·.2)

def acontains (l : List (α × β)) (k : α) : Bool :=
  l.any fun p => decide (p.1 = k)

def aset (l : List (α × β)) (k : α) (v : β) : List (α × β) :=
  if acontains l k then l.map (fun p => if p.1 = k then (k, v) else p)
  else l ++ [(k, v)]

end Assoc

/-! ## Chart items and edges (containers, narrow variant) -/

/-- containers `SmallChartItem`: label plus one-word span bitvector. -/
structure SmallChartItem where
  label : Nat
  vec : Nat
  deriving Repr, DecidableEq

/-- The sentinel `NONE = new_ChartItem(0, 0)`. -/
def NONE : SmallChartItem := ⟨0, 0⟩

/-- containers `LCFRSEdge`: score (estimate), inside cost, rule probability,
rule number and the two backpointers. -/
structure Edge where
  score : ℚ
  inside : ℚ
  prob : ℚ
  ruleno : Int
  left : SmallChartItem
  right : SmallChartItem
  deriving Repr, DecidableEq

def new_Edge (score inside prob : ℚ) (ruleno : Int) (l r : SmallChartItem) : Edge :=
  ⟨score, inside, prob, ruleno, l, r⟩

/-- plcfrs `iscore`: replace the estimate with the inside probability. -/
def iscore (e : Edge) : Edge := { e with score := e.inside }

/-! ## The edge agenda

`agenda.pyx` is not part of the repository's staged sources.
Modelled from the spec: "a min-heap by `edge.score` with an auxiliary map
`ChartItem → heap-position` enabling O(log n) decrease-key and O(1)
membership", with set-if-better replacing the stored edge exactly when the
new score is lower, `replace` performing decrease-key by replacement and
handing back the previous edge, and pop extracting a minimum-score entry
(first-in-first-out among ties, per the stability note in kbest.pyx).
The heap is modelled as the insertion-ordered association list of its
entries; only pop looks at the ordering. -/

abbrev EdgeAgenda := List (SmallChartItem × Edge)

/-- Modelled from the spec: `EdgeAgenda.setifbetter` (agenda.pyx is absent
from the sources) — replace the edge stored for `k` iff the new edge's
`score` is lower; insert when `k` is absent. -/
def setifbetter (ag : EdgeAgenda) (k : SmallChartItem) (v : Edge) : EdgeAgenda :=
  match alookup ag k with
  | some old => if v.score < old.score then aset ag k v else ag
  | none => aset ag k v

/-- Modelled from the spec: `EdgeAgenda.replace` (agenda.pyx is absent from
the sources) — decrease-key by replacement, returning the edge previously
stored for `k` (`k` is present whenever the parser calls this). -/
def agreplace (ag : EdgeAgenda) (k : SmallChartItem) (v : Edge) :
    Option Edge × EdgeAgenda :=
  (alookup ag k, aset ag k v)

/-- Modelled from the spec: `EdgeAgenda.popentry` (agenda.pyx is absent from
the sources) — extract an entry of minimal `score`; ties resolve to the
earliest-inserted entry. -/
def popentry (ag : EdgeAgenda) : Option ((SmallChartItem × Edge) × EdgeAgenda) :=
  match ag with
  | [] => none
  | e :: _ =>
    let best := ag.foldl (fun b p => if p.2.score < b.2.score then p else b) e
    some (best, ag.eraseP (fun p => decide (p.1 = best.1)))

/-! ## `process_edge` (plcfrs, narrow variant) -/

/-- A per-label whitelist entry: a dict of allowed items (plain and shared
splitprune modes) or, under `markorigin`, a list of per-component dicts. -/
inductive WLE : Type
  | dct (d : List SmallChartItem)
  | lst (ds : List (List SmallChartItem))
  deriving Repr, DecidableEq

/-- The mutable parser state threaded through `process_edge`:
agenda, chart (item → list of edges), per-label viterbi dicts, and the
`blocked` counter. -/
structure LState where
  agenda : EdgeAgenda
  chart : List (SmallChartItem × List Edge)
  viterbi : Nat → List (SmallChartItem × Edge)
  blocked : Nat

/-- The splitprune component walk of `process_edge`: split the span into
maximal contiguous runs `[a, b)`, build the component bitvector
`(1 << b) - (1 << a)` for each, and test it (with label 0) against the
per-component dict (`markorigin`) or the shared dict.  Returns `true` when
some component misses, i.e. when the item is to be blocked.  (A `.lst`
entry without `markorigin`, or a `.dct` entry with it, would be a Python
type error; those shapes block here and are never used by the theorems.) -/
def splitpruneBlocked (wle : WLE) (markorigin : Bool) (vec : Nat) : Bool :=
  (runs vec).enum.any fun (cnt, r) =>
    let comp : SmallChartItem := ⟨0, 2 ^ r.2 - 2 ^ r.1⟩
    let d : List SmallChartItem :=
      match wle, markorigin with
      | .lst ds, true => ds.getD cnt []
      | .dct d, false => d
      | _, _ => []
    !d.contains comp

/-- The plain whitelist test of `process_edge`: set the item's label to 0 and
look it up in the label's dict. -/
def plainBlocked (wle : WLE) (it : SmallChartItem) : Bool :=
  match wle with
  | .dct d => !d.contains ⟨0, it.vec⟩
  | .lst _ => true

/-- The whole pruning decision of `process_edge`'s new-item branch:
`true` iff the new item is to be blocked by the whitelist. -/
def pe_blocked (whitelist : Option (List (Option WLE)))
    (splitprune markorigin : Bool) (it : SmallChartItem) : Bool :=
  match whitelist with
  | none => false
  | some wl =>
    match wl.getD it.label none with
    | none => false
    | some wle =>
      if splitprune then splitpruneBlocked wle markorigin it.vec
      else plainBlocked wle it

/-- plcfrs `process_edge`: decide what to do with a newly derived edge.
Returns the updated state and whether a fresh item object was handed back
(`false` exactly on the whitelist-blocked paths, where the caller's
`newitem is tmp` test sees the same object again). -/
def process_edge (newitem : SmallChartItem) (score inside prob : ℚ)
    (ruleno : Int) (left right : SmallChartItem) (st : LState)
    (exhaustive : Bool) (whitelist : Option (List (Option WLE)))
    (splitprune markorigin : Bool) : LState × Bool :=
  let e := new_Edge score inside prob ruleno left right
  let inagenda := acontains st.agenda newitem
  let inchart := acontains st.chart newitem
  if !inagenda && !inchart then
    if pe_blocked whitelist splitprune markorigin newitem then
      ({ st with blocked := st.blocked + 1 }, false)
    else
      -- haven't seen this item before, won't prune, add to agenda
      ({ st with agenda := aset st.agenda newitem e,
                 chart := aset st.chart newitem [] }, true)
  else if !exhaustive && inagenda then
    ({ st with agenda := setifbetter st.agenda newitem e }, true)
  else if inagenda &&
      decide (inside < ((alookup st.agenda newitem).getD e).inside) then
    -- item has lower score, decrease-key in agenda,
    -- add old edge to the chart
    let (old, ag') := agreplace st.agenda newitem e
    ({ st with agenda := ag',
               chart := aset st.chart newitem
                 (((alookup st.chart newitem).getD []) ++ [iscore (old.getD e)]) },
      true)
  else if !inagenda &&
      decide (inside < ((alookup (st.viterbi newitem.label) newitem).getD e).inside) then
    -- re-add to agenda because we found a better score
    ({ st with agenda := aset st.agenda newitem e }, true)
  else if exhaustive then
    -- suboptimal edge
    ({ st with chart := aset st.chart newitem
                 (((alookup st.chart newitem).getD []) ++ [iscore e]) }, true)
  else (st, true)

/-! ## Theorems: `concat`, `fatconcat`, `ChartItem` -/

-- Sanity: the four `assert`s of plcfrs `main()` hold of the embedding.
example : concat { args := 0b1010, lengths := 0b1010 } 0b100010 0b1000100 = true := by decide
example : concat { args := 0b1010, lengths := 0b1010 } 0b1010 0b10100 = false := by decide
example : concat { args := 0b101, lengths := 0b101 } 0b10000 0b100100 = true := by decide
example : concat { args := 0b101, lengths := 0b101 } 0b1000 0b10100 = false := by decide
-- and the same for the wide variant
example : fatconcat { args := 0b1010, lengths := 0b1010 } 0b100010 0b1000100 = true := by decide
example : fatconcat { args := 0b101, lengths := 0b101 } 0b1000 0b10100 = false := by decide
-- docstring examples: ((0,), (1,)) on 0b0011 / 0b1000
example : concat { args := 0b10, lengths := 0b11 } 0b0011 0b1000 = true := by decide
example : concat { args := 0b01, lengths := 0b11 } 0b0011 0b1000 = false := by decide

/-- C1: `concat` accepts the plain-concatenation yield function
`((0, 1),)` (`args = lengths = 0b10`) on `lvec = 0b0110`, `rvec = 0b1001`,
although the right vector has two runs out of order with the left one; the
vectors are disjoint, yet applying the yield function to the runs of the two
vectors fails (it does not produce the runs `[(0, 4)]` of their union), so
the claimed run-composition property of `concat` is violated: the masking
walk silently zeroes the low run of `rvec` while consuming `lvec`'s run. -/
theorem concat_run_composition_violated :
    concat { args := 0b10, lengths := 0b10 } 0b0110 0b1001 = true ∧
    0b0110 &&& 0b1001 = 0 ∧
    yfApply 0b10 0b10 0b0110 0b1001 = none ∧
    runs (0b0110 ||| 0b1001) = [(0, 4)] := by
  refine ⟨by decide, by decide, by decide, by decide⟩

/-- C2: `concat` and `fatconcat` disagree on a pair of vectors representable
in both widths: with the yield function `args = lengths = 0b10`,
`lvec = 0b0110`, `rvec = 0b1001`, the narrow walk accepts while the wide
cursor walk (whose fast path applies here) rejects. -/
theorem concat_fatconcat_disagree :
    concat { args := 0b10, lengths := 0b10 } 0b0110 0b1001 = true ∧
    fatconcat { args := 0b10, lengths := 0b10 } 0b0110 0b1001 = false := by
  refine ⟨by decide, by decide⟩

/-- C9: `ChartItem.__richcmp__` with `op = 0` (`<`) is the disjunction
`label < label' ∨ vec < vec'`, not a lexicographic comparison; hence there
are distinct items `a ≠ b` with both `a < b` and `b < a`, so `<` is neither
antisymmetric nor a strict order. -/
theorem chartitem_lt_disjunctive_not_strict :
    (∀ a b : ChartItem,
      ChartItem.richcmp a b 0 = true ↔ a.label < b.label ∨ a.vec < b.vec) ∧
    (∃ a b : ChartItem, a ≠ b ∧
      ChartItem.richcmp a b 0 = true ∧ ChartItem.richcmp b a 0 = true) := by
  constructor
  · intro a b
    simp [ChartItem.richcmp]
  · exact ⟨⟨0, 1⟩, ⟨1, 0⟩, by decide, by decide, by decide⟩

/-! ## Association-list lemmas -/

theorem acontains_ex {α β : Type} [DecidableEq α] (l : List (α × β)) (k : α)
    (h : acontains l k = true) : ∃ v, alookup l k = some v := by
  induction l with
  | nil => simp [acontains] at h
  | cons p t ih =>
    by_cases hp : p.1 = k
    · exact ⟨p.2, by simp [alookup, List.find?_cons, hp]⟩
    · have ht : acontains t k = true := by
        simpa [acontains, hp] using h
      obtain ⟨v, hv⟩ := ih ht
      exact ⟨v, by simpa [alookup, List.find?_cons, hp] using hv⟩

theorem alookup_aset_self {α β : Type} [DecidableEq α] (l : List (α × β))
    (k : α) (v : β) : alookup (aset l k v) k = some v := by
  unfold aset
  split
  next h =>
    induction l with
    | nil => simp [acontains] at h
    | cons p t ih =>
      by_cases hp : p.1 = k
      · simp [alookup, List.find?_cons, hp]
      · have ht : acontains t k = true := by
          simpa [acontains, hp] using h
        simpa [alookup, List.find?_cons, hp] using ih ht
  next h =>
    induction l with
    | nil => simp [alookup, List.find?_cons]
    | cons p t ih =>
      have hcons : acontains (p :: t) k = (decide (p.1 = k) || acontains t k) := by
        simp [acontains]
      have hp : ¬(p.1 = k) := by
        intro hk
        exact h (by simp [hcons, hk])
      have ht : ¬(acontains t k = true) := by
        intro hk
        exact h (by simp [hcons, hk])
      simpa [alookup, List.find?_cons, hp] using ih ht

/-! ## Theorems: `process_edge` -/

def pe_inagenda (st : LState) (it : SmallChartItem) : Bool := acontains st.agenda it

def pe_inchart (st : LState) (it : SmallChartItem) : Bool := acontains st.chart it

/-- Case (1) of the claim: item in neither agenda nor chart. -/
def claimG1 (st : LState) (it : SmallChartItem) : Bool :=
  !pe_inagenda st it && !pe_inchart st it

/-- Case (2) of the claim: first-parse mode and item in agenda. -/
def claimG2 (exhaustive : Bool) (st : LState) (it : SmallChartItem) : Bool :=
  !exhaustive && pe_inagenda st it

/-- Case (3) of the claim: in agenda with strictly smaller new inside. -/
def claimG3 (st : LState) (it : SmallChartItem) (inside : ℚ) : Bool :=
  pe_inagenda st it &&
    match alookup st.agenda it with
    | some old => decide (inside < old.inside)
    | none => false

/-- Case (4) of the claim: not in agenda, new inside strictly smaller than
the Viterbi edge's inside. -/
def claimG4 (st : LState) (it : SmallChartItem) (inside : ℚ) : Bool :=
  !pe_inagenda st it &&
    match alookup (st.viterbi it.label) it with
    | some v => decide (inside < v.inside)
    | none => false

/-- Case (5) of the claim, read with "in exhaustive mode" as part of the
guard: exhaustive mode. -/
def claimG5 (exhaustive : Bool) : Bool := exhaustive

/-- C4 counterexample: in first-parse mode, a candidate edge for an item
that is already in the chart but not in the agenda, whose new inside is not
smaller than the Viterbi edge's, satisfies none of the claim's five cases —
`process_edge` silently discards it (state unchanged) — so it is not true
that exactly one of the five cases applies to every candidate edge. -/
theorem process_edge_no_case_applies :
    (claimG1 ⟨[], [(⟨1, 1⟩, [new_Edge 1 1 1 0 NONE NONE])],
        fun _ => [(⟨1, 1⟩, new_Edge 1 1 1 0 NONE NONE)], 0⟩ ⟨1, 1⟩ = false) ∧
    (claimG2 false ⟨[], [(⟨1, 1⟩, [new_Edge 1 1 1 0 NONE NONE])],
        fun _ => [(⟨1, 1⟩, new_Edge 1 1 1 0 NONE NONE)], 0⟩ ⟨1, 1⟩ = false) ∧
    (claimG3 ⟨[], [(⟨1, 1⟩, [new_Edge 1 1 1 0 NONE NONE])],
        fun _ => [(⟨1, 1⟩, new_Edge 1 1 1 0 NONE NONE)], 0⟩ ⟨1, 1⟩ 2 = false) ∧
    (claimG4 ⟨[], [(⟨1, 1⟩, [new_Edge 1 1 1 0 NONE NONE])],
        fun _ => [(⟨1, 1⟩, new_Edge 1 1 1 0 NONE NONE)], 0⟩ ⟨1, 1⟩ 2 = false) ∧
    (claimG5 false = false) ∧
    (process_edge ⟨1, 1⟩ 2 2 1 0 NONE NONE
        ⟨[], [(⟨1, 1⟩, [new_Edge 1 1 1 0 NONE NONE])],
          fun _ => [(⟨1, 1⟩, new_Edge 1 1 1 0 NONE NONE)], 0⟩
        false none false false).1.agenda = [] ∧
    (process_edge ⟨1, 1⟩ 2 2 1 0 NONE NONE
        ⟨[], [(⟨1, 1⟩, [new_Edge 1 1 1 0 NONE NONE])],
          fun _ => [(⟨1, 1⟩, new_Edge 1 1 1 0 NONE NONE)], 0⟩
        false none false false).1.chart = [(⟨1, 1⟩, [new_Edge 1 1 1 0 NONE NONE])] ∧
    (process_edge ⟨1, 1⟩ 2 2 1 0 NONE NONE
        ⟨[], [(⟨1, 1⟩, [new_Edge 1 1 1 0 NONE NONE])],
          fun _ => [(⟨1, 1⟩, new_Edge 1 1 1 0 NONE NONE)], 0⟩
        false none false false).2 = true := by
  refine ⟨by decide, by decide, by decide, by decide, rfl, by decide, by decide, by decide⟩

theorem alookup_some_acontains {α β : Type} [DecidableEq α]
    (l : List (α × β)) (k : α) (v : β) (h : alookup l k = some v) :
    acontains l k = true := by
  cases hf : l.find? (fun p => decide (p.1 = k)) with
  | none => simp [alookup, hf] at h
  | some p =>
    have hmem : p ∈ l := List.mem_of_find?_eq_some hf
    have hpk := List.find?_some hf
    unfold acontains
    exact List.any_eq_true.2 ⟨p, hmem, hpk⟩

/-- The code's third condition equals the claim's case-(3) guard: when the
item is not in the agenda both are false (the default makes the comparison
`inside < inside`). -/
theorem pe_cond3_eq (st : LState) (it : SmallChartItem)
    (score inside prob : ℚ) (ruleno : Int) (l r : SmallChartItem) :
    (acontains st.agenda it &&
      decide (inside <
        ((alookup st.agenda it).getD (new_Edge score inside prob ruleno l r)).inside))
      = claimG3 st it inside := by
  cases h : alookup st.agenda it with
  | none => simp [claimG3, pe_inagenda, h, new_Edge]
  | some old => simp [claimG3, pe_inagenda, h]

/-- The code's fourth condition equals the claim's case-(4) guard. -/
theorem pe_cond4_eq (st : LState) (it : SmallChartItem)
    (score inside prob : ℚ) (ruleno : Int) (l r : SmallChartItem) :
    (!acontains st.agenda it &&
      decide (inside <
        ((alookup (st.viterbi it.label) it).getD
          (new_Edge score inside prob ruleno l r)).inside))
      = claimG4 st it inside := by
  cases h : alookup (st.viterbi it.label) it with
  | none => simp [claimG4, pe_inagenda, h, new_Edge]
  | some v => simp [claimG4, pe_inagenda, h]

/-- C4 amended: the five cases, with case (5) read as the residual case
whose action appends the suboptimal edge only in exhaustive mode and
discards the edge in first-parse mode.  Each conjunct states the case's
guard (in claim order, all earlier guards false) and the action
`process_edge` takes: (1) new item — prune, then insert into the agenda and
initialize `chart[item] = []`, or count it blocked; (2) first-parse mode and
in agenda — replace the agenda edge iff the new score is lower; (3) in
agenda with strictly smaller inside — decrease-key, appending the old
agenda edge (score reset to its inside) to the chart; (4) not in agenda and
better than the Viterbi edge — re-insert into the agenda; (5) otherwise
append the suboptimal edge to the chart iff exhaustive, else drop it. -/
theorem process_edge_case_analysis
    (newitem : SmallChartItem) (score inside prob : ℚ) (ruleno : Int)
    (left right : SmallChartItem) (st : LState) (exh : Bool)
    (wl : Option (List (Option WLE))) (sp mo : Bool) (res : LState × Bool)
    (hres : process_edge newitem score inside prob ruleno left right st exh wl sp mo
      = res) :
    (claimG1 st newitem = true →
      (pe_blocked wl sp mo newitem = true →
        res = ({ st with blocked := st.blocked + 1 }, false)) ∧
      (pe_blocked wl sp mo newitem = false →
        alookup res.1.agenda newitem
            = some (new_Edge score inside prob ruleno left right) ∧
        alookup res.1.chart newitem = some [] ∧
        res.1.blocked = st.blocked ∧ res.2 = true)) ∧
    (claimG1 st newitem = false → claimG2 exh st newitem = true →
      (∀ old, alookup st.agenda newitem = some old →
        alookup res.1.agenda newitem
          = some (if score < old.score
              then new_Edge score inside prob ruleno left right else old)) ∧
      res.1.chart = st.chart ∧ res.1.blocked = st.blocked ∧ res.2 = true) ∧
    (claimG1 st newitem = false → claimG2 exh st newitem = false →
      claimG3 st newitem inside = true →
      alookup res.1.agenda newitem
          = some (new_Edge score inside prob ruleno left right) ∧
      (∀ old cl, alookup st.agenda newitem = some old →
        alookup st.chart newitem = some cl →
        alookup res.1.chart newitem = some (cl ++ [iscore old])) ∧
      res.1.blocked = st.blocked ∧ res.2 = true) ∧
    (claimG1 st newitem = false → claimG2 exh st newitem = false →
      claimG3 st newitem inside = false → claimG4 st newitem inside = true →
      alookup res.1.agenda newitem
          = some (new_Edge score inside prob ruleno left right) ∧
      res.1.chart = st.chart ∧ res.1.blocked = st.blocked ∧ res.2 = true) ∧
    (claimG1 st newitem = false → claimG2 exh st newitem = false →
      claimG3 st newitem inside = false → claimG4 st newitem inside = false →
      exh = true →
      (∀ cl, alookup st.chart newitem = some cl →
        alookup res.1.chart newitem
          = some (cl ++ [iscore (new_Edge score inside prob ruleno left right)])) ∧
      res.1.agenda = st.agenda ∧ res.1.blocked = st.blocked ∧ res.2 = true) ∧
    (claimG1 st newitem = false → claimG2 exh st newitem = false →
      claimG3 st newitem inside = false → claimG4 st newitem inside = false →
      exh = false → res = (st, true)) := by
  subst hres
  unfold process_edge
  simp only [claimG1, claimG2, pe_inagenda, pe_inchart] at *
  refine ⟨?_, ?_, ?_, ?_, ?_, ?_⟩
  · intro hG1
    rw [hG1]
    constructor
    · intro hb
      simp [hb]
    · intro hb
      simp [hb, alookup_aset_self]
  · intro hG1 hG2
    rw [hG1, if_neg (by simp), hG2, if_pos rfl]
    refine ⟨?_, rfl, rfl, rfl⟩
    intro old hold
    simp only [setifbetter, hold]
    split
    next hlt =>
      simp only [new_Edge] at hlt ⊢
      rw [if_pos hlt]
      exact alookup_aset_self _ _ _
    next hlt =>
      simp only [new_Edge] at hlt ⊢
      rw [if_neg hlt]
      exact hold
  · intro hG1 hG2 hG3
    rw [hG1, if_neg (by simp), hG2, if_neg (by simp),
      pe_cond3_eq st newitem score inside prob ruleno left right, hG3, if_pos rfl]
    refine ⟨alookup_aset_self _ _ _, ?_, rfl, rfl⟩
    intro old cl hold hcl
    simp only [agreplace, hold, hcl, Option.getD_some]
    exact alookup_aset_self _ _ _
  · intro hG1 hG2 hG3 hG4
    rw [hG1, if_neg (by simp), hG2, if_neg (by simp),
      pe_cond3_eq st newitem score inside prob ruleno left right, hG3,
      if_neg (by simp),
      pe_cond4_eq st newitem score inside prob ruleno left right, hG4, if_pos rfl]
    exact ⟨alookup_aset_self _ _ _, rfl, rfl, rfl⟩
  · intro hG1 hG2 hG3 hG4 hexh
    rw [hG1, if_neg (by simp), hG2, if_neg (by simp),
      pe_cond3_eq st newitem score inside prob ruleno left right, hG3,
      if_neg (by simp),
      pe_cond4_eq st newitem score inside prob ruleno left right, hG4,
      if_neg (by simp), hexh, if_pos rfl]
    refine ⟨?_, rfl, rfl, rfl⟩
    intro cl hcl
    simp only [hcl, Option.getD_some]
    exact alookup_aset_self _ _ _
  · intro hG1 hG2 hG3 hG4 hexh
    rw [hG1, if_neg (by simp), hG2, if_neg (by simp),
      pe_cond3_eq st newitem score inside prob ruleno left right, hG3,
      if_neg (by simp),
      pe_cond4_eq st newitem score inside prob ruleno left right, hG4,
      if_neg (by simp), hexh, if_neg (by simp)]

/-- Witness for the amended case analysis: a concrete new item passes
case (1) and is admitted with an empty chart entry. -/
theorem process_edge_case_analysis_wit :
    alookup (process_edge ⟨3, 1⟩ 2 2 1 0 NONE NONE ⟨[], [], fun _ => [], 0⟩
        false none false false).1.agenda ⟨3, 1⟩
      = some (new_Edge 2 2 1 0 NONE NONE) := by
  have h := process_edge_case_analysis ⟨3, 1⟩ 2 2 1 0 NONE NONE
    ⟨[], [], fun _ => [], 0⟩ false none false false _ rfl
  exact ((h.1 (by decide)).2 (by decide)).1

/-- C8: whitelist boundary behaviour in `process_edge` for a new item
(in neither agenda nor chart): (i) a `None` entry for the item's label
imposes no restriction — the item is admitted to the agenda with a fresh
empty chart entry and `blocked` unchanged; (ii) in plain (non-splitprune)
mode an empty dict entry blocks every item with that label, incrementing
`blocked`; (iii) on every call, `blocked` grows by exactly one on a
whitelist rejection (signalled by the un-replaced item) and is unchanged
otherwise. -/
theorem process_edge_whitelist_boundary
    (it : SmallChartItem) (score inside prob : ℚ) (ruleno : Int)
    (l r : SmallChartItem) (st : LState) (exh : Bool)
    (wl : List (Option WLE)) (sp mo : Bool) :
    (pe_inagenda st it = false → pe_inchart st it = false →
      wl.getD it.label none = none →
      (process_edge it score inside prob ruleno l r st exh (some wl) sp mo).2
          = true ∧
      alookup (process_edge it score inside prob ruleno l r st exh (some wl)
          sp mo).1.agenda it = some (new_Edge score inside prob ruleno l r) ∧
      alookup (process_edge it score inside prob ruleno l r st exh (some wl)
          sp mo).1.chart it = some [] ∧
      (process_edge it score inside prob ruleno l r st exh (some wl)
          sp mo).1.blocked = st.blocked) ∧
    (pe_inagenda st it = false → pe_inchart st it = false → sp = false →
      wl.getD it.label none = some (WLE.dct []) →
      (process_edge it score inside prob ruleno l r st exh (some wl) sp mo).2
          = false ∧
      (process_edge it score inside prob ruleno l r st exh (some wl)
          sp mo).1.blocked = st.blocked + 1 ∧
      (process_edge it score inside prob ruleno l r st exh (some wl)
          sp mo).1.agenda = st.agenda ∧
      (process_edge it score inside prob ruleno l r st exh (some wl)
          sp mo).1.chart = st.chart) ∧
    ((process_edge it score inside prob ruleno l r st exh (some wl)
        sp mo).1.blocked
      = st.blocked +
        (if (process_edge it score inside prob ruleno l r st exh (some wl)
            sp mo).2 then 0 else 1)) := by
  refine ⟨?_, ?_, ?_⟩
  · intro hna hnc hwl
    have hwl' : wl[it.label]?.getD none = none := by
      simpa using hwl
    have hb : pe_blocked (some wl) sp mo it = false := by
      simp [pe_blocked, hwl']
    simp only [pe_inagenda] at hna
    simp only [pe_inchart] at hnc
    unfold process_edge
    simp [hna, hnc, hb, alookup_aset_self]
  · intro hna hnc hsp hwl
    have hwl' : wl[it.label]?.getD none = some (WLE.dct []) := by
      simpa using hwl
    have hb : pe_blocked (some wl) sp mo it = true := by
      simp [pe_blocked, hwl', hsp, plainBlocked]
    simp only [pe_inagenda] at hna
    simp only [pe_inchart] at hnc
    unfold process_edge
    simp [hna, hnc, hb]
  · unfold process_edge
    by_cases h1 : (!acontains st.agenda it && !acontains st.chart it) = true
    · rw [if_pos h1]
      by_cases hb : pe_blocked (some wl) sp mo it = true
      · rw [if_pos hb]
        simp
      · rw [if_neg hb]
        simp
    · rw [if_neg h1]
      by_cases h2 : (!exh && acontains st.agenda it) = true
      · rw [if_pos h2]
        simp
      · rw [if_neg h2]
        by_cases h3 : (acontains st.agenda it && decide (inside <
            ((alookup st.agenda it).getD
              (new_Edge score inside prob ruleno l r)).inside)) = true
        · rw [if_pos h3]
          simp
        · rw [if_neg h3]
          by_cases h4 : (!acontains st.agenda it && decide (inside <
              ((alookup (st.viterbi it.label) it).getD
                (new_Edge score inside prob ruleno l r)).inside)) = true
          · rw [if_pos h4]
            simp
          · rw [if_neg h4]
            by_cases h5 : exh = true
            · rw [if_pos h5]
              simp
            · rw [if_neg h5]
              simp

/-- Witness for the whitelist boundary theorem: a concrete item whose label
has the empty dict entry is rejected. -/
theorem process_edge_whitelist_boundary_wit :
    (process_edge ⟨2, 1⟩ 1 1 1 0 NONE NONE ⟨[], [], fun _ => [], 0⟩ false
        (some [none, none, some (WLE.dct [])]) false false).2 = false := by
  have h := process_edge_whitelist_boundary ⟨2, 1⟩ 1 1 1 0 NONE NONE
    ⟨[], [], fun _ => [], 0⟩ false [none, none, some (WLE.dct [])] false false
  exact (h.2.1 (by decide) (by decide) rfl (by decide)).1

/-! ## The LCFRS parser (plcfrs `parse`, narrow variant)

The `Grammar` is the opaque interface the spec describes: rule arrays
per label arranged so that iteration stops at the first rule whose
`rhs1`/`rhs2` differs from the queried label (embedded as `takeWhile`),
a lexicon `word → list of lexical rules`, and the label codec. -/

structure LexicalRule where
  lhs : Nat
  prob : ℚ
  deriving Repr, DecidableEq

structure Grammar where
  toid : String → Option Nat
  tolabel : Nat → String
  numsymbols : Nat
  nonterminals : Nat
  lexical : String → List LexicalRule
  unary : Nat → List Rule
  lbinary : Nat → List Rule
  rbinary : Nat → List Rule
  bylhs : List Rule
  fanout : Nat → Nat

inductive EstKind : Type
  | SX
  | SXlrgaps
  deriving Repr, DecidableEq

/-- The outside-estimate tensor `outside[label, a, b, c]`. -/
def Outside : Type := Nat → Nat → Nat → Nat → ℚ

/-- Python truthiness of the optional `tags` argument (an empty list is
falsy). -/
def truthy (tags : Option (List String)) : Bool :=
  match tags with
  | none => false
  | some ts => !ts.isEmpty

def tagAt (tags : Option (List String)) (i : Nat) : String :=
  (tags.getD []).getD i ""

/-- The gold-tag filter of the scan: no tags, the lhs label equals the tag,
or it is the tag plus a DOP address (`tag@...`). -/
def tagMatch (g : Grammar) (tags : Option (List String)) (i : Nat)
    (lhs : Nat) : Bool :=
  !truthy tags || (g.tolabel lhs == tagAt tags i)
    || (g.tolabel lhs).startsWith (tagAt tags i ++ "@")

/-- FOM scoring: add the outside estimate for the given coordinates to
`base`; the second component says whether the candidate is discarded
(`score > 300.0`). -/
def scoreWith (est : Option (EstKind × Outside)) (lhs length left right gaps : Nat)
    (base : ℚ) : ℚ × Bool :=
  match est with
  | none => (base, false)
  | some (.SX, outside) =>
    let s := base + outside lhs left right 0
    (s, decide ((300 : ℚ) < s))
  | some (.SXlrgaps, outside) =>
    let s := base + outside lhs length (left + right) gaps
    (s, decide ((300 : ℚ) < s))

/-- The full parser state: `process_edge`'s state plus the span histogram
for the beam and the maximum agenda size. -/
structure PState where
  ls : LState
  beam : List (Nat × Nat)
  maxA : Nat

def beamCount (beam : List (Nat × Nat)) (v : Nat) : Nat :=
  (alookup beam v).getD 0

/-- One binary-left candidate: `item` is the first child, `sib` a Viterbi
entry of label `rule.rhs2`.  Beam check and count precede the `concat`
test, as in the source. -/
def binCandL (g : Grammar) (est : Option (EstKind × Outside)) (lensent : Nat)
    (exhaustive : Bool) (whitelist : Option (List (Option WLE)))
    (splitprune markorigin : Bool) (beamwidth : Nat)
    (item : SmallChartItem) (x : ℚ) (ru : Rule) (ps : PState)
    (sib : SmallChartItem × Edge) : PState :=
  let v := item.vec ^^^ sib.1.vec
  if beamwidth ≠ 0 && decide (beamwidth < beamCount ps.beam v) then ps
  else
    let ps := if beamwidth ≠ 0 then
        { ps with beam := aset ps.beam v (beamCount ps.beam v + 1) }
      else ps
    if concat ru item.vec sib.1.vec then
      let inside := x + sib.2.inside + ru.prob
      let blength := bitcount v
      let bleft := (nextset v 0).toNat
      let bgaps := bitlength v - blength - bleft
      let bright := lensent - blength - bleft -
        (match est with | some (.SXlrgaps, _) => bgaps | _ => 0)
      let (score, skip) := scoreWith est ru.lhs blength bleft bright bgaps inside
      if skip then ps
      else
        let (ls', _) := process_edge ⟨ru.lhs, v⟩ score inside ru.prob
          (Int.ofNat ru.no) item sib.1 ps.ls exhaustive whitelist
          (splitprune && g.fanout ru.lhs != 1) markorigin
        { ps with ls := ls' }
    else ps

/-- One binary-right candidate: `item` is the second child, `sib` a Viterbi
entry of label `rule.rhs1`.  NB the source computes the estimate
coordinates from `item.vec` here, not from the derived span. -/
def binCandR (g : Grammar) (est : Option (EstKind × Outside)) (lensent : Nat)
    (exhaustive : Bool) (whitelist : Option (List (Option WLE)))
    (splitprune markorigin : Bool) (beamwidth : Nat)
    (item : SmallChartItem) (x : ℚ) (ru : Rule) (ps : PState)
    (sib : SmallChartItem × Edge) : PState :=
  let v := sib.1.vec ^^^ item.vec
  if beamwidth ≠ 0 && decide (beamwidth < beamCount ps.beam v) then ps
  else
    let ps := if beamwidth ≠ 0 then
        { ps with beam := aset ps.beam v (beamCount ps.beam v + 1) }
      else ps
    if concat ru sib.1.vec item.vec then
      let inside := x + sib.2.inside + ru.prob
      let blength := bitcount item.vec
      let bleft := (nextset item.vec 0).toNat
      let bgaps := bitlength item.vec - blength - bleft
      let bright := lensent - blength - bleft -
        (match est with | some (.SXlrgaps, _) => bgaps | _ => 0)
      let (score, skip) := scoreWith est ru.lhs blength bleft bright bgaps inside
      if skip then ps
      else
        let (ls', _) := process_edge ⟨ru.lhs, v⟩ score inside ru.prob
          (Int.ofNat ru.no) sib.1 item ps.ls exhaustive whitelist
          (splitprune && g.fanout ru.lhs != 1) markorigin
        { ps with ls := ls' }
    else ps

/-- The expansion of one popped item (`x` = its edge's inside): the unary,
binary-left and binary-right rule loops of plcfrs `parse`'s main loop,
including the optional beam and FOM checks.  The beam gate placed before
the unary loop `continue`s the main loop, skipping the whole expansion. -/
def expandItem (g : Grammar) (est : Option (EstKind × Outside)) (lensent : Nat)
    (exhaustive : Bool) (whitelist : Option (List (Option WLE)))
    (splitprune markorigin : Bool) (beamwidth : Nat)
    (item : SmallChartItem) (x : ℚ) (ps : PState) : PState :=
  if beamwidth ≠ 0 && decide (beamwidth < beamCount ps.beam item.vec) then ps
  else
    let ps := if beamwidth ≠ 0 then
        { ps with beam := aset ps.beam item.vec (beamCount ps.beam item.vec + 1) }
      else ps
    -- unary: estimate coordinates are computed once from item.vec
    let ulength := bitcount item.vec
    let uleft := (nextset item.vec 0).toNat
    let ugaps := bitlength item.vec - ulength - uleft
    let uright := lensent - ulength - uleft - ugaps
    let ps := ((g.unary item.label).takeWhile (fun ru => ru.rhs1 == item.label)).foldl
      (fun (ps : PState) ru =>
        let inside := x + ru.prob
        let (score, skip) := scoreWith est ru.lhs ulength uleft uright ugaps inside
        if skip then ps
        else
          let (ls', _) := process_edge ⟨ru.lhs, item.vec⟩ score inside ru.prob
            (Int.ofNat ru.no) item NONE ps.ls exhaustive whitelist
            (splitprune && g.fanout ru.lhs != 1) markorigin
          { ps with ls := ls' }) ps
    -- binary left: item is the first child
    let ps := ((g.lbinary item.label).takeWhile (fun ru => ru.rhs1 == item.label)).foldl
      (fun (ps : PState) ru =>
        (ps.ls.viterbi ru.rhs2).foldl
          (binCandL g est lensent exhaustive whitelist splitprune markorigin
            beamwidth item x ru) ps) ps
    -- binary right: item is the second child
    let ps := ((g.rbinary item.label).takeWhile (fun ru => ru.rhs2 == item.label)).foldl
      (fun (ps : PState) ru =>
        (ps.ls.viterbi ru.rhs1).foldl
          (binCandR g est lensent exhaustive whitelist splitprune markorigin
            beamwidth item x ru) ps) ps
    ps

/-- The early-return failure message of the scan. -/
def notCoveredMsg (tok : String) : String := "not covered: '" ++ tok ++ "'. "

/-- One lexical rule of the scan at position `i`: gold-tag filter, optional
FOM cutoff, then `process_edge`; the Bool accumulates `recognized`. -/
def scanLex (g : Grammar) (tags : Option (List String))
    (est : Option (EstKind × Outside)) (lensent : Nat) (exhaustive : Bool)
    (whitelist : Option (List (Option WLE))) (markorigin : Bool) (i : Nat)
    (item : SmallChartItem) (acc : LState × Bool) (ter : LexicalRule) :
    LState × Bool :=
  if tagMatch g tags i ter.lhs then
    let (score, skip) := scoreWith est ter.lhs 1 i (lensent - 1 - i) 0 ter.prob
    if skip then acc
    else
      let (ls', fresh) := process_edge ⟨ter.lhs, 2 ^ i⟩ score ter.prob ter.prob
        (-1) item NONE acc.1 exhaustive whitelist false markorigin
      (ls', acc.2 || fresh)
  else acc

/-- One position of the scan; `Except.error` is the early
"not covered" return (with the state at that point). -/
def scanPos (g : Grammar) (tags : Option (List String))
    (est : Option (EstKind × Outside)) (lensent : Nat) (exhaustive : Bool)
    (whitelist : Option (List (Option WLE))) (markorigin : Bool)
    (st : LState) (i : Nat) (w : String) : Except (LState × String) LState :=
  let epsilon := (g.toid "Epsilon").getD 0
  let scanned := (g.lexical w).foldl
    (scanLex g tags est lensent exhaustive whitelist markorigin i ⟨epsilon, i⟩)
    (st, false)
  if scanned.2 then .ok scanned.1
  else if truthy tags && (g.toid (tagAt tags i)).isSome then
    let lhs := (g.toid (tagAt tags i)).getD 0
    if (scoreWith est lhs 1 i (lensent - 1 - i) 0 0).2 then .ok scanned.1
    else
      .ok { scanned.1 with
        agenda := aset scanned.1.agenda ⟨lhs, 2 ^ i⟩
          (new_Edge (scoreWith est lhs 1 i (lensent - 1 - i) 0 0).1 0 0 (-1)
            ⟨epsilon, i⟩ NONE),
        chart := aset scanned.1.chart ⟨lhs, 2 ^ i⟩ [] }
  else .error (scanned.1, notCoveredMsg (if truthy tags then tagAt tags i else w))

/-- The whole scan, position by position. -/
def scan (g : Grammar) (tags : Option (List String))
    (est : Option (EstKind × Outside)) (lensent : Nat) (exhaustive : Bool)
    (whitelist : Option (List (Option WLE))) (markorigin : Bool)
    (sent : List String) : Except (LState × String) LState :=
  sent.enum.foldlM
    (fun st iw => scanPos g tags est lensent exhaustive whitelist markorigin
      st iw.1 iw.2)
    ⟨[], [], fun _ => [], 0⟩

/-- Recording a popped entry: append its edge (score reset to the inside
probability) to the chart and enter it into the Viterbi index, with the
item removed from the agenda. -/
def parsePop (item : SmallChartItem) (edge : Edge) (ag' : EdgeAgenda)
    (ps : PState) : PState :=
  { ps with ls := { ps.ls with
      agenda := ag',
      chart := aset ps.ls.chart item
        ((alookup ps.ls.chart item).getD [] ++ [iscore edge]),
      viterbi := fun l =>
        if l = item.label then aset (ps.ls.viterbi l) item edge
        else ps.ls.viterbi l } }

/-- `if agenda.length > maxA: maxA = agenda.length`. -/
def parseMax (ps : PState) : PState :=
  { ps with maxA := max ps.maxA ps.ls.agenda.length }

/-- The agenda loop of plcfrs `parse`, with explicit fuel (`none` = fuel
exhausted; the loop itself has no termination guarantee with an
inconsistent FOM). -/
def parseLoop (g : Grammar) (est : Option (EstKind × Outside)) (lensent : Nat)
    (exhaustive : Bool) (whitelist : Option (List (Option WLE)))
    (splitprune markorigin : Bool) (beamwidth : Nat)
    (goal : SmallChartItem) : Nat → PState → Option PState
  | 0, _ => none
  | fuel + 1, ps =>
    match popentry ps.ls.agenda with
    | none => some ps
    | some ((item, edge), ag') =>
      if item = goal && !exhaustive then some (parsePop item edge ag' ps)
      else
        parseLoop g est lensent exhaustive whitelist splitprune markorigin
          beamwidth goal fuel
          (parseMax (if item = goal then parsePop item edge ag' ps
            else expandItem g est lensent exhaustive whitelist splitprune
              markorigin beamwidth item edge.inside
              (parsePop item edge ag' ps)))

/-- The diagnostic counters message
`"agenda max %d, now %d, items %d (%d labels), edges %d, blocked %d"`. -/
def statsMsg (g : Grammar) (ps : PState) : String :=
  "agenda max " ++ toString ps.maxA ++ ", now " ++ toString ps.ls.agenda.length
    ++ ", items " ++ toString ((ps.ls.chart.filter (fun p => !p.2.isEmpty)).length)
    ++ " (" ++ toString (((List.range g.numsymbols).filter
        (fun l => !(ps.ls.viterbi l).isEmpty)).length)
    ++ " labels), edges " ++ toString ((ps.ls.chart.map (fun p => p.2.length)).sum)
    ++ ", blocked " ++ toString ps.ls.blocked

/-- plcfrs `parse` for sentences below the word size (longer sentences
delegate to `parse_longsent`, which is not embedded here); `fuel` bounds the
agenda loop, `none` = the loop was cut short. -/
def parse (sent : List String) (g : Grammar) (tags : Option (List String))
    (start : Nat) (exhaustive : Bool) (whitelist : Option (List (Option WLE)))
    (splitprune markorigin : Bool) (est : Option (EstKind × Outside))
    (beamwidth : Nat) (fuel : Nat) :
    Option (List (SmallChartItem × List Edge) × SmallChartItem × String) :=
  let lensent := sent.length
  if wordBits ≤ lensent then none
  else
    let goal : SmallChartItem := ⟨start, 2 ^ lensent - 1⟩
    match scan g tags est lensent exhaustive whitelist markorigin sent with
    | .error (st, msg) => some (st.chart, NONE, msg)
    | .ok st =>
      match parseLoop g est lensent exhaustive whitelist splitprune markorigin
          beamwidth goal fuel ⟨st, [], 0⟩ with
      | none => none
      | some ps =>
        let msg := statsMsg g ps
        if acontains ps.ls.chart goal then some (ps.ls.chart, goal, msg)
        else some (ps.ls.chart, NONE, "no parse " ++ msg)

/-! ## Theorems: the beam histogram (plcfrs `parse`) -/

theorem acontains_aset_self {α β : Type} [DecidableEq α]
    (l : List (α × β)) (k : α) (v : β) : acontains (aset l k v) k = true :=
  alookup_some_acontains _ _ _ (alookup_aset_self l k v)

/-- A brand-new unblocked item is admitted: the raw code action of
`process_edge`'s first case. -/
theorem process_edge_new (it : SmallChartItem) (score inside prob : ℚ)
    (ruleno : Int) (l r : SmallChartItem) (st : LState) (exh : Bool)
    (wl : Option (List (Option WLE))) (sp mo : Bool)
    (hin : acontains st.agenda it = false)
    (hic : acontains st.chart it = false)
    (hb : pe_blocked wl sp mo it = false) :
    process_edge it score inside prob ruleno l r st exh wl sp mo
      = ({ st with agenda := aset st.agenda it (new_Edge score inside prob ruleno l r),
                   chart := aset st.chart it [] }, true) := by
  unfold process_edge
  simp [hin, hic, hb]

/-- C7 counterexample: with `beamwidth = 1`, a popped item whose own span
count is over the cap has its entire expansion skipped, including a viable
binary candidate (the sibling is in the Viterbi index and `concat` accepts)
whose derived span `0b11` has count `0`, i.e. is under the cap: the derived
item is never admitted and the span is not even counted, so it is false
that exactly the over-the-cap candidates are skipped. -/
theorem parse_beam_skips_under_cap_candidate :
    beamCount [(1, 2)] (1 ^^^ 2) = 0 ∧
    concat ⟨3, 1, 2, 0b10, 0b10, 1, 5⟩ 1 2 = true ∧
    (expandItem
      ⟨fun _ => none, fun _ => "", 4, 4, fun _ => [], fun _ => [],
        fun l => if l = 1 then [⟨3, 1, 2, 0b10, 0b10, 1, 5⟩] else [],
        fun _ => [], [], fun _ => 1⟩
      none 2 false none false false 1 ⟨1, 1⟩ 0
      ⟨⟨[], [], fun l => if l = 2 then [(⟨2, 2⟩, new_Edge 1 1 1 0 NONE NONE)] else [], 0⟩,
        [(1, 2)], 0⟩).ls.agenda = [] ∧
    (expandItem
      ⟨fun _ => none, fun _ => "", 4, 4, fun _ => [], fun _ => [],
        fun l => if l = 1 then [⟨3, 1, 2, 0b10, 0b10, 1, 5⟩] else [],
        fun _ => [], [], fun _ => 1⟩
      none 2 false none false false 1 ⟨1, 1⟩ 0
      ⟨⟨[], [], fun l => if l = 2 then [(⟨2, 2⟩, new_Edge 1 1 1 0 NONE NONE)] else [], 0⟩,
        [(1, 2)], 0⟩).beam = [(1, 2)] := by
  refine ⟨by decide, by decide, ?_, ?_⟩
  · unfold expandItem
    decide
  · unfold expandItem
    decide

/-- C7 amended: the beam bookkeeping `parse` actually performs. (i) When
the popped item's own span count exceeds the beamwidth, the whole expansion
— unary and binary, whatever the derived spans — is skipped. (ii) A binary
candidate whose derived span count exceeds the beamwidth is skipped
(before the `concat` test). (iii) An under-the-cap binary candidate has its
derived span counted exactly once, and a viable (`concat`-accepted), new,
unpruned candidate is admitted to the agenda. -/
theorem parse_beam_histogram_behaviour
    (g : Grammar) (est : Option (EstKind × Outside)) (lensent : Nat)
    (exh : Bool) (wl : Option (List (Option WLE))) (sp mo : Bool)
    (bw : Nat) (item : SmallChartItem) (x : ℚ) (ps : PState)
    (ru : Rule) (sib : SmallChartItem × Edge) :
    (bw ≠ 0 → bw < beamCount ps.beam item.vec →
      expandItem g est lensent exh wl sp mo bw item x ps = ps) ∧
    (bw ≠ 0 → bw < beamCount ps.beam (item.vec ^^^ sib.1.vec) →
      binCandL g est lensent exh wl sp mo bw item x ru ps sib = ps) ∧
    (bw ≠ 0 → bw < beamCount ps.beam (sib.1.vec ^^^ item.vec) →
      binCandR g est lensent exh wl sp mo bw item x ru ps sib = ps) ∧
    (bw ≠ 0 → ¬(bw < beamCount ps.beam (item.vec ^^^ sib.1.vec)) →
      beamCount (binCandL g est lensent exh wl sp mo bw item x ru ps sib).beam
          (item.vec ^^^ sib.1.vec)
        = beamCount ps.beam (item.vec ^^^ sib.1.vec) + 1 ∧
      (concat ru item.vec sib.1.vec = true → est = none → wl = none →
        acontains ps.ls.agenda ⟨ru.lhs, item.vec ^^^ sib.1.vec⟩ = false →
        acontains ps.ls.chart ⟨ru.lhs, item.vec ^^^ sib.1.vec⟩ = false →
        acontains (binCandL g est lensent exh wl sp mo bw item x ru ps
            sib).ls.agenda ⟨ru.lhs, item.vec ^^^ sib.1.vec⟩ = true)) := by
  refine ⟨?_, ?_, ?_, ?_⟩
  · intro h0 hover
    unfold expandItem
    simp [h0, hover]
  · intro h0 hover
    unfold binCandL
    simp [h0, hover]
  · intro h0 hover
    unfold binCandR
    simp [h0, hover]
  · intro h0 hunder
    have hgate : (decide (bw ≠ 0) && decide (bw < beamCount ps.beam
        (item.vec ^^^ sib.1.vec))) = false := by
      simp [hunder]
    constructor
    · unfold binCandL
      simp only [hgate, Bool.false_eq_true, if_false]
      simp only [h0, ne_eq, not_false_eq_true, if_true]
      repeat' split
      all_goals simp [beamCount, alookup_aset_self]
    · intro hcc hest hwl hna hnc
      subst hest hwl
      unfold binCandL
      simp only [hgate, Bool.false_eq_true, if_false]
      simp only [h0, ne_eq, not_false_eq_true, if_true, hcc, scoreWith]
      have hb : pe_blocked none (sp && g.fanout ru.lhs != 1) mo
          ⟨ru.lhs, item.vec ^^^ sib.1.vec⟩ = false := rfl
      rw [process_edge_new _ _ _ _ _ _ _ _ _ _ _ _ hna hnc hb]
      exact acontains_aset_self _ _ _

/-- Witness: a concrete under-the-cap viable candidate is counted and
admitted. -/
theorem parse_beam_histogram_behaviour_wit :
    acontains (binCandL
      ⟨fun _ => none, fun _ => "", 4, 4, fun _ => [], fun _ => [],
        fun l => if l = 1 then [⟨3, 1, 2, 0b10, 0b10, 1, 5⟩] else [],
        fun _ => [], [], fun _ => 1⟩
      none 2 false none false false 1 ⟨1, 1⟩ 0 ⟨3, 1, 2, 0b10, 0b10, 1, 5⟩
      ⟨⟨[], [], fun _ => [], 0⟩, [], 0⟩
      (⟨2, 2⟩, new_Edge 1 1 1 0 NONE NONE)).ls.agenda ⟨3, 3⟩ = true := by
  have h := parse_beam_histogram_behaviour
    ⟨fun _ => none, fun _ => "", 4, 4, fun _ => [], fun _ => [],
      fun l => if l = 1 then [⟨3, 1, 2, 0b10, 0b10, 1, 5⟩] else [],
      fun _ => [], [], fun _ => 1⟩
    none 2 false none false false 1 ⟨1, 1⟩ 0
    ⟨⟨[], [], fun _ => [], 0⟩, [], 0⟩ ⟨3, 1, 2, 0b10, 0b10, 1, 5⟩
    (⟨2, 2⟩, new_Edge 1 1 1 0 NONE NONE)
  exact (h.2.2.2 (by decide) (by decide)).2 (by decide) rfl rfl (by decide) (by decide)

/-! ## Key-set lemmas and state invariants for `parse` -/

theorem foldl_preserve_mem {α σ : Type} (inv : σ → Prop) (f : σ → α → σ)
    (l : List α) (s₀ : σ) (h : ∀ s a, a ∈ l → inv s → inv (f s a))
    (h0 : inv s₀) : inv (l.foldl f s₀) := by
  induction l generalizing s₀ with
  | nil => exact h0
  | cons a t ih =>
    exact ih _ (fun s b hb hs => h s b (List.mem_cons_of_mem a hb) hs)
      (h s₀ a (List.mem_cons_self a t) h0)

theorem acontains_aset_of {α β : Type} [DecidableEq α] (l : List (α × β))
    (k k' : α) (v : β) (h : acontains (aset l k v) k' = true) :
    k' = k ∨ acontains l k' = true := by
  unfold aset at h
  split at h
  · obtain ⟨q, hq, hq'⟩ := List.any_eq_true.1 h
    obtain ⟨q₀, hq₀, rfl⟩ := List.mem_map.1 hq
    by_cases hk : q₀.1 = k
    · exact Or.inl (show (k : α) = k' by simpa [hk] using hq').symm
    · right
      refine List.any_eq_true.2 ⟨q₀, hq₀, ?_⟩
      simpa [hk] using hq'
  · obtain ⟨q, hq, hq'⟩ := List.any_eq_true.1 h
    rcases List.mem_append.1 hq with hmem | hmem
    · exact Or.inr (List.any_eq_true.2 ⟨q, hmem, hq'⟩)
    · left
      simp only [List.mem_singleton] at hmem
      subst hmem
      exact (show (k : α) = k' by simpa using hq').symm

theorem acontains_setifbetter_of (ag : EdgeAgenda) (k k' : SmallChartItem)
    (v : Edge) (h : acontains (setifbetter ag k v) k' = true) :
    k' = k ∨ acontains ag k' = true := by
  unfold setifbetter at h
  split at h
  · split at h
    · exact acontains_aset_of _ _ _ _ h
    · exact Or.inr h
  · exact acontains_aset_of _ _ _ _ h

/-- The per-item invariant on the parser state: every item in the agenda,
the chart or a Viterbi dict has a span satisfying `vp`. -/
def GoodL (vp : Nat → Bool) (ls : LState) : Prop :=
  (∀ k, acontains ls.agenda k = true → vp k.vec = true) ∧
  (∀ k, acontains ls.chart k = true → vp k.vec = true) ∧
  (∀ l k, acontains (ls.viterbi l) k = true → vp k.vec = true)

/-- `process_edge` only ever adds the item it was handed. -/
theorem process_edge_good (vp : Nat → Bool) (newitem : SmallChartItem)
    (score inside prob : ℚ) (ruleno : Int) (left right : SmallChartItem)
    (st : LState) (exh : Bool) (wl : Option (List (Option WLE)))
    (sp mo : Bool) (hst : GoodL vp st) (hnew : vp newitem.vec = true) :
    GoodL vp (process_edge newitem score inside prob ruleno left right st exh
      wl sp mo).1 := by
  obtain ⟨hag, hch, hvit⟩ := hst
  have hag' : ∀ (e : Edge) k, acontains (aset st.agenda newitem e) k = true →
      vp k.vec = true := by
    intro e k hk
    rcases acontains_aset_of _ _ _ _ hk with rfl | hk
    · exact hnew
    · exact hag _ hk
  have hch' : ∀ (el : List Edge) k,
      acontains (aset st.chart newitem el) k = true → vp k.vec = true := by
    intro el k hk
    rcases acontains_aset_of _ _ _ _ hk with rfl | hk
    · exact hnew
    · exact hch _ hk
  have hsif : ∀ (e : Edge) k,
      acontains (setifbetter st.agenda newitem e) k = true → vp k.vec = true := by
    intro e k hk
    rcases acontains_setifbetter_of _ _ _ _ hk with rfl | hk
    · exact hnew
    · exact hag _ hk
  simp only [process_edge]
  split
  · split
    · exact ⟨hag, hch, hvit⟩
    · exact ⟨hag' _, hch' _, hvit⟩
  · split
    · exact ⟨hsif _, hch, hvit⟩
    · split
      · exact ⟨hag' _, hch' _, hvit⟩
      · split
        · exact ⟨hag' _, hch, hvit⟩
        · split
          · exact ⟨hag, hch' _, hvit⟩
          · exact ⟨hag, hch, hvit⟩

theorem mem_acontains {α β : Type} [DecidableEq α] (l : List (α × β))
    (p : α × β) (h : p ∈ l) : acontains l p.1 = true :=
  List.any_eq_true.2 ⟨p, h, by simp⟩

theorem acontains_eraseP_of (ag : EdgeAgenda) (q : SmallChartItem × Edge → Bool)
    (k : SmallChartItem) (h : acontains (ag.eraseP q) k = true) :
    acontains ag k = true := by
  obtain ⟨p, hp, hp'⟩ := List.any_eq_true.1 h
  exact List.any_eq_true.2 ⟨p, List.mem_of_mem_eraseP hp, hp'⟩

theorem foldl_choice_mem {α : Type} (l : List α) (f : α → α → α)
    (hf : ∀ b a, f b a = a ∨ f b a = b) (init : α) :
    l.foldl f init = init ∨ l.foldl f init ∈ l := by
  induction l generalizing init with
  | nil => exact Or.inl rfl
  | cons a t ih =>
    simp only [List.foldl_cons]
    rcases ih (f init a) with h | h
    · rw [h]
      rcases hf init a with h' | h'
      · rw [h']
        exact Or.inr (List.mem_cons_self _ _)
      · rw [h']
        exact Or.inl rfl
    · exact Or.inr (List.mem_cons_of_mem _ h)

theorem popentry_spec (ag : EdgeAgenda) (it : SmallChartItem) (e : Edge)
    (ag' : EdgeAgenda) (h : popentry ag = some ((it, e), ag')) :
    acontains ag it = true ∧
      (∀ k, acontains ag' k = true → acontains ag k = true) := by
  cases ag with
  | nil => simp [popentry] at h
  | cons p rest =>
    unfold popentry at h
    have hpair := Option.some.inj h
    have h1 : (p :: rest).foldl
        (fun b q => if q.2.score < b.2.score then q else b) p = (it, e) :=
      congrArg Prod.fst hpair
    have h2 := congrArg Prod.snd hpair
    constructor
    · have hmem : (p :: rest).foldl
          (fun b q => if q.2.score < b.2.score then q else b) p ∈ p :: rest := by
        rcases foldl_choice_mem (p :: rest)
            (fun b q => if q.2.score < b.2.score then q else b)
            (fun b a => by by_cases hc : a.2.score < b.2.score <;> simp [hc]) p with
            hh | hh
        · rw [hh]
          exact List.mem_cons_self _ _
        · exact hh
      rw [h1] at hmem
      exact mem_acontains _ _ hmem
    · intro k hk
      simp only at h2
      rw [← h2] at hk
      exact acontains_eraseP_of _ _ _ hk

theorem binCandL_good (vp : Nat → Bool) (g : Grammar)
    (est : Option (EstKind × Outside)) (lensent : Nat) (exh : Bool)
    (wl : Option (List (Option WLE))) (sp mo : Bool) (bw : Nat)
    (item : SmallChartItem) (x : ℚ) (ru : Rule) (ps : PState)
    (sib : SmallChartItem × Edge) (hps : GoodL vp ps.ls)
    (hitem : vp item.vec = true) (hsib : vp sib.1.vec = true)
    (hxor : ∀ a b, vp a = true → vp b = true → vp (a ^^^ b) = true) :
    GoodL vp (binCandL g est lensent exh wl sp mo bw item x ru ps sib).ls := by
  simp only [binCandL]
  repeat' split
  all_goals
    first
      | exact hps
      | exact process_edge_good vp _ _ _ _ _ _ _ _ _ _ _ _ hps
          (hxor _ _ hitem hsib)

theorem binCandR_good (vp : Nat → Bool) (g : Grammar)
    (est : Option (EstKind × Outside)) (lensent : Nat) (exh : Bool)
    (wl : Option (List (Option WLE))) (sp mo : Bool) (bw : Nat)
    (item : SmallChartItem) (x : ℚ) (ru : Rule) (ps : PState)
    (sib : SmallChartItem × Edge) (hps : GoodL vp ps.ls)
    (hitem : vp item.vec = true) (hsib : vp sib.1.vec = true)
    (hxor : ∀ a b, vp a = true → vp b = true → vp (a ^^^ b) = true) :
    GoodL vp (binCandR g est lensent exh wl sp mo bw item x ru ps sib).ls := by
  simp only [binCandR]
  repeat' split
  all_goals
    first
      | exact hps
      | exact process_edge_good vp _ _ _ _ _ _ _ _ _ _ _ _ hps
          (hxor _ _ hsib hitem)

theorem expandItem_good (vp : Nat → Bool) (g : Grammar)
    (est : Option (EstKind × Outside)) (lensent : Nat) (exh : Bool)
    (wl : Option (List (Option WLE))) (sp mo : Bool) (bw : Nat)
    (item : SmallChartItem) (x : ℚ) (ps : PState) (hps : GoodL vp ps.ls)
    (hitem : vp item.vec = true)
    (hxor : ∀ a b, vp a = true → vp b = true → vp (a ^^^ b) = true) :
    GoodL vp (expandItem g est lensent exh wl sp mo bw item x ps).ls := by
  have hvit : ∀ (s : PState), GoodL vp s.ls → ∀ (lab : Nat)
      (sib : SmallChartItem × Edge), sib ∈ s.ls.viterbi lab →
      vp sib.1.vec = true := by
    intro s hs lab sib hsib
    exact hs.2.2 lab sib.1 (mem_acontains _ _ hsib)
  simp only [expandItem]
  split
  · exact hps
  · refine foldl_preserve_mem (fun p : PState => GoodL vp p.ls) _ _ _ ?_ ?_
    · intro s ru _ hs
      refine foldl_preserve_mem (fun p : PState => GoodL vp p.ls) _ _ _ ?_ hs
      intro s2 sib hsib hs2
      exact binCandR_good vp g est lensent exh wl sp mo bw item x ru s2 sib
        hs2 hitem (hvit s hs _ sib hsib) hxor
    · refine foldl_preserve_mem (fun p : PState => GoodL vp p.ls) _ _ _ ?_ ?_
      · intro s ru _ hs
        refine foldl_preserve_mem (fun p : PState => GoodL vp p.ls) _ _ _ ?_ hs
        intro s2 sib hsib hs2
        exact binCandL_good vp g est lensent exh wl sp mo bw item x ru s2 sib
          hs2 hitem (hvit s hs _ sib hsib) hxor
      · refine foldl_preserve_mem (fun p : PState => GoodL vp p.ls) _ _ _ ?_ ?_
        · intro s ru _ hs
          split
          · exact hs
          · exact process_edge_good vp _ _ _ _ _ _ _ _ _ _ _ _ hs hitem
        · split <;> exact hps

theorem parsePop_good (vp : Nat → Bool) (item : SmallChartItem) (edge : Edge)
    (ag' : EdgeAgenda) (ps : PState) (hps : GoodL vp ps.ls)
    (hitem : vp item.vec = true)
    (hsub : ∀ k, acontains ag' k = true → acontains ps.ls.agenda k = true) :
    GoodL vp (parsePop item edge ag' ps).ls := by
  refine ⟨?_, ?_, ?_⟩
  · intro k hk
    exact hps.1 k (hsub k hk)
  · intro k hk
    rcases acontains_aset_of _ _ _ _ hk with rfl | hk
    · exact hitem
    · exact hps.2.1 k hk
  · intro l k hk
    simp only [parsePop] at hk
    by_cases hl : l = item.label
    · simp only [if_pos hl] at hk
      rcases acontains_aset_of _ _ _ _ hk with rfl | hk
      · exact hitem
      · exact hps.2.2 l k hk
    · simp only [if_neg hl] at hk
      exact hps.2.2 l k hk

theorem parseLoop_good (vp : Nat → Bool) (g : Grammar)
    (est : Option (EstKind × Outside)) (lensent : Nat) (exh : Bool)
    (wl : Option (List (Option WLE))) (sp mo : Bool) (bw : Nat)
    (goal : SmallChartItem) (fuel : Nat) (ps ps' : PState)
    (hxor : ∀ a b, vp a = true → vp b = true → vp (a ^^^ b) = true)
    (hps : GoodL vp ps.ls)
    (h : parseLoop g est lensent exh wl sp mo bw goal fuel ps = some ps') :
    GoodL vp ps'.ls := by
  induction fuel generalizing ps with
  | zero => simp [parseLoop] at h
  | succ n ih =>
    rw [parseLoop] at h
    cases hpop : popentry ps.ls.agenda with
    | none =>
      rw [hpop] at h
      cases h
      exact hps
    | some pr =>
      obtain ⟨⟨item, edge⟩, ag'⟩ := pr
      rw [hpop] at h
      dsimp only at h
      obtain ⟨hitem, hsub⟩ := popentry_spec _ _ _ _ hpop
      have hvpitem : vp item.vec = true := hps.1 item hitem
      have hls1 : GoodL vp (parsePop item edge ag' ps).ls :=
        parsePop_good vp item edge ag' ps hps hvpitem hsub
      by_cases hgoal : (decide (item = goal) && !exh) = true
      · rw [if_pos hgoal] at h
        rw [← Option.some.inj h]
        exact hls1
      · rw [if_neg hgoal] at h
        refine ih _ ?_ h
        by_cases hg2 : item = goal
        · rw [if_pos hg2]
          exact hls1
        · rw [if_neg hg2]
          exact expandItem_good vp g est lensent exh wl sp mo bw item
            edge.inside _ hls1 hvpitem hxor

/-! ## Scan lemmas -/

/-- A state extractor for the scan result: the state carried by either
outcome. -/
def exState (r : Except (LState × String) LState) : LState :=
  match r with
  | .ok s => s
  | .error (s, _) => s

theorem process_edge_fresh_none (it : SmallChartItem) (score inside prob : ℚ)
    (ruleno : Int) (l r : SmallChartItem) (st : LState) (exh : Bool)
    (sp mo : Bool) :
    (process_edge it score inside prob ruleno l r st exh none sp mo).2 = true := by
  have hb : pe_blocked none sp mo it = false := rfl
  simp only [process_edge, hb, Bool.false_eq_true, if_false]
  repeat' split
  all_goals rfl

theorem scanLex_nomatch_foldl (g : Grammar) (tags : Option (List String))
    (est : Option (EstKind × Outside)) (lensent : Nat) (exh : Bool)
    (wl : Option (List (Option WLE))) (mo : Bool) (i : Nat)
    (item : SmallChartItem) (rules : List LexicalRule) (acc : LState × Bool)
    (h : rules.all (fun ter => !tagMatch g tags i ter.lhs) = true) :
    rules.foldl (scanLex g tags est lensent exh wl mo i item) acc = acc := by
  induction rules generalizing acc with
  | nil => rfl
  | cons a t ih =>
    rw [List.all_cons, Bool.and_eq_true] at h
    have h1 : tagMatch g tags i a.lhs = false := by
      simpa using h.1
    simp only [List.foldl_cons, scanLex, h1, Bool.false_eq_true, if_false]
    exact ih _ h.2

theorem scanLex_snd_mono (g : Grammar) (tags : Option (List String))
    (est : Option (EstKind × Outside)) (lensent : Nat) (exh : Bool)
    (wl : Option (List (Option WLE))) (mo : Bool) (i : Nat)
    (item : SmallChartItem) (acc : LState × Bool) (ter : LexicalRule)
    (h : acc.2 = true) :
    (scanLex g tags est lensent exh wl mo i item acc ter).2 = true := by
  simp only [scanLex]
  repeat' split
  all_goals simp [h]

theorem scanLex_foldl_snd_mono (g : Grammar) (tags : Option (List String))
    (est : Option (EstKind × Outside)) (lensent : Nat) (exh : Bool)
    (wl : Option (List (Option WLE))) (mo : Bool) (i : Nat)
    (item : SmallChartItem) (rules : List LexicalRule) (acc : LState × Bool)
    (h : acc.2 = true) :
    (rules.foldl (scanLex g tags est lensent exh wl mo i item) acc).2 = true :=
  foldl_preserve_mem (fun a => a.2 = true) _ rules acc
    (fun s a _ hs => scanLex_snd_mono g tags est lensent exh wl mo i item s a hs) h

/-- With no whitelist, a position with some matching, un-cutoff lexical rule
ends its lexical loop recognized. -/
theorem scanLex_foldl_any (g : Grammar) (tags : Option (List String))
    (est : Option (EstKind × Outside)) (lensent : Nat) (exh : Bool)
    (mo : Bool) (i : Nat) (item : SmallChartItem) (rules : List LexicalRule)
    (acc : LState × Bool)
    (h : rules.any (fun ter => tagMatch g tags i ter.lhs &&
      !(scoreWith est ter.lhs 1 i (lensent - 1 - i) 0 ter.prob).2) = true) :
    (rules.foldl (scanLex g tags est lensent exh none mo i item) acc).2 = true := by
  induction rules generalizing acc with
  | nil => simp at h
  | cons a t ih =>
    simp only [List.any_cons, Bool.or_eq_true] at h
    rcases h with ha | ht
    · rw [Bool.and_eq_true] at ha
      have hm := ha.1
      have hs : (scoreWith est a.lhs 1 i (lensent - 1 - i) 0 a.prob).2 = false := by
        simpa using ha.2
      simp only [List.foldl_cons]
      refine scanLex_foldl_snd_mono g tags est lensent exh none mo i item t _ ?_
      simp only [scanLex, hm, if_true, hs, Bool.false_eq_true, if_false]
      simp [process_edge_fresh_none]
    · rw [List.foldl_cons]
      exact ih _ (by simpa [List.any_eq_true] using ht)

/-- Every early return of `scanPos` is a "not covered" message about the
position's token or tag. -/
theorem scanPos_error_form (g : Grammar) (tags : Option (List String))
    (est : Option (EstKind × Outside)) (lensent : Nat) (exh : Bool)
    (wl : Option (List (Option WLE))) (mo : Bool) (st : LState) (i : Nat)
    (w : String) (st' : LState) (msg : String)
    (h : scanPos g tags est lensent exh wl mo st i w = .error (st', msg)) :
    msg = notCoveredMsg (if truthy tags then tagAt tags i else w) := by
  unfold scanPos at h
  dsimp only at h
  split at h
  · exact absurd h (by simp)
  · split at h
    · split at h
      · exact absurd h (by simp)
      · exact absurd h (by simp)
    · rw [Except.error.injEq] at h
      exact (congrArg Prod.snd h).symm

/-- A position with no matching lexical rule and no usable gold tag makes
`scanPos` return the "not covered" error with the untouched state. -/
theorem scanPos_bad (g : Grammar) (tags : Option (List String))
    (est : Option (EstKind × Outside)) (lensent : Nat) (exh : Bool)
    (wl : Option (List (Option WLE))) (mo : Bool) (st : LState) (i : Nat)
    (w : String)
    (h1 : (g.lexical w).all (fun ter => !tagMatch g tags i ter.lhs) = true)
    (h2 : (truthy tags && (g.toid (tagAt tags i)).isSome) = false) :
    scanPos g tags est lensent exh wl mo st i w
      = .error (st, notCoveredMsg (if truthy tags then tagAt tags i else w)) := by
  unfold scanPos
  dsimp only
  rw [scanLex_nomatch_foldl g tags est lensent exh wl mo i _ _ _ h1]
  simp [h2]

/-- A position where no lexical rule matches the (known) gold tag and the
bare-tag score is over the cutoff is skipped entirely: state unchanged. -/
theorem scanPos_skip (g : Grammar) (tags : Option (List String))
    (est : Option (EstKind × Outside)) (lensent : Nat) (exh : Bool)
    (wl : Option (List (Option WLE))) (mo : Bool) (st : LState) (i : Nat)
    (w : String)
    (h1 : (g.lexical w).all (fun ter => !tagMatch g tags i ter.lhs) = true)
    (h2 : (truthy tags && (g.toid (tagAt tags i)).isSome) = true)
    (h3 : (scoreWith est ((g.toid (tagAt tags i)).getD 0) 1 i
      (lensent - 1 - i) 0 0).2 = true) :
    scanPos g tags est lensent exh wl mo st i w = .ok st := by
  unfold scanPos
  dsimp only
  rw [scanLex_nomatch_foldl g tags est lensent exh wl mo i _ _ _ h1]
  simp [h2, h3]

/-- `scanPos` creates only items whose span is the position's bit. -/
theorem scanPos_good (vp : Nat → Bool) (g : Grammar)
    (tags : Option (List String)) (est : Option (EstKind × Outside))
    (lensent : Nat) (exh : Bool) (wl : Option (List (Option WLE))) (mo : Bool)
    (st : LState) (i : Nat) (w : String) (hst : GoodL vp st)
    (hvp : vp (2 ^ i) = true) :
    GoodL vp (exState (scanPos g tags est lensent exh wl mo st i w)) := by
  have hfold : GoodL vp ((g.lexical w).foldl
      (scanLex g tags est lensent exh wl mo i ⟨(g.toid "Epsilon").getD 0, i⟩)
      (st, false)).1 := by
    refine foldl_preserve_mem (fun a : LState × Bool => GoodL vp a.1) _ _ _ ?_ hst
    intro s ter _ hs
    simp only [scanLex]
    repeat' split
    all_goals first
      | exact hs
      | exact process_edge_good vp _ _ _ _ _ _ _ _ _ _ _ _ hs hvp
  unfold scanPos
  dsimp only
  split
  · exact hfold
  · split
    · split
      · exact hfold
      · refine ⟨?_, ?_, hfold.2.2⟩
        · intro k hk
          rcases acontains_aset_of _ _ _ _ hk with rfl | hk
          · exact hvp
          · exact hfold.1 k hk
        · intro k hk
          rcases acontains_aset_of _ _ _ _ hk with rfl | hk
          · exact hvp
          · exact hfold.2.1 k hk
    · exact hfold

/-! ## Theorems: `parse` failure contract (C5) -/

/-- If some position of the list is "bad" (no matching lexical rule, no
usable gold tag), the scan fold ends in a "not covered" error. -/
theorem scan_error_of_bad (g : Grammar) (tags : Option (List String))
    (est : Option (EstKind × Outside)) (lensent : Nat) (exh : Bool)
    (wl : Option (List (Option WLE))) (mo : Bool) (L : List (Nat × String))
    (st : LState)
    (hbad : ∃ e ∈ L,
      (g.lexical e.2).all (fun ter => !tagMatch g tags e.1 ter.lhs) = true ∧
      (truthy tags && (g.toid (tagAt tags e.1)).isSome) = false) :
    ∃ st' tok, L.foldlM
        (fun s iw => scanPos g tags est lensent exh wl mo s iw.1 iw.2) st
      = .error (st', notCoveredMsg tok) := by
  induction L generalizing st with
  | nil => simp at hbad
  | cons a t ih =>
    rw [List.foldlM_cons]
    cases hstep : scanPos g tags est lensent exh wl mo st a.1 a.2 with
    | error x =>
      obtain ⟨xs, xm⟩ := x
      refine ⟨xs, if truthy tags then tagAt tags a.1 else a.2, ?_⟩
      have := scanPos_error_form g tags est lensent exh wl mo st a.1 a.2 xs xm hstep
      show Except.error (xs, xm) = _
      rw [this]
    | ok s2 =>
      obtain ⟨e, he, he1, he2⟩ := hbad
      rcases List.mem_cons.1 he with rfl | het
      · rw [scanPos_bad g tags est lensent exh wl mo st e.1 e.2 he1 he2] at hstep
        exact absurd hstep (by simp)
      · exact ih s2 ⟨e, het, he1, he2⟩

/-- C5: the `parse` failure contract. (a) A position with no matching
lexical rule and no usable gold tag makes `parse` return the chart so far,
the `NONE` sentinel and a "not covered" message. (b) When the scan
succeeds and the agenda loop finishes without the goal item in the chart,
`parse` returns `(chart, NONE, "no parse " + stats)`. (c) A non-`NONE`
goal is returned only when that goal item is in the returned chart. -/
theorem parse_failure_contract (sent : List String) (g : Grammar)
    (tags : Option (List String)) (start : Nat) (exh : Bool)
    (wl : Option (List (Option WLE))) (sp mo : Bool)
    (est : Option (EstKind × Outside)) (bw fuel : Nat) :
    (∀ i w, (i, w) ∈ sent.enum →
      (g.lexical w).all (fun ter => !tagMatch g tags i ter.lhs) = true →
      (truthy tags && (g.toid (tagAt tags i)).isSome) = false →
      sent.length < wordBits →
      ∃ ch tok, parse sent g tags start exh wl sp mo est bw fuel
        = some (ch, NONE, notCoveredMsg tok)) ∧
    (∀ st ps, sent.length < wordBits →
      scan g tags est sent.length exh wl mo sent = .ok st →
      parseLoop g est sent.length exh wl sp mo bw ⟨start, 2 ^ sent.length - 1⟩
        fuel ⟨st, [], 0⟩ = some ps →
      acontains ps.ls.chart ⟨start, 2 ^ sent.length - 1⟩ = false →
      parse sent g tags start exh wl sp mo est bw fuel
        = some (ps.ls.chart, NONE, "no parse " ++ statsMsg g ps)) ∧
    (∀ ch gl msg, parse sent g tags start exh wl sp mo est bw fuel
        = some (ch, gl, msg) → gl ≠ NONE → acontains ch gl = true) := by
  refine ⟨?_, ?_, ?_⟩
  · intro i w hmem hall htag hlen
    obtain ⟨st', tok, herr⟩ := scan_error_of_bad g tags est sent.length exh wl
      mo sent.enum ⟨[], [], fun _ => [], 0⟩ ⟨(i, w), hmem, hall, htag⟩
    refine ⟨st'.chart, tok, ?_⟩
    unfold parse
    rw [if_neg (by omega)]
    dsimp only
    unfold scan
    rw [herr]
  · intro st ps hlen hscan hloop hgoal
    unfold parse
    rw [if_neg (by omega)]
    dsimp only
    rw [hscan]
    dsimp only
    rw [hloop]
    dsimp only
    simp [hgoal]
  · intro ch gl msg h hne
    unfold parse at h
    dsimp only at h
    split at h
    · exact absurd h (by simp)
    · cases hscan : scan g tags est sent.length exh wl mo sent with
      | error x =>
        obtain ⟨xs, xm⟩ := x
        rw [hscan] at h
        dsimp only at h
        rw [Option.some.injEq] at h
        exact absurd (congrArg (fun t => t.2.1) h).symm
          (by simpa using hne)
      | ok st =>
        rw [hscan] at h
        dsimp only at h
        cases hloop : parseLoop g est sent.length exh wl sp mo bw
            ⟨start, 2 ^ sent.length - 1⟩ fuel ⟨st, [], 0⟩ with
        | none =>
          rw [hloop] at h
          exact absurd h (by simp)
        | some ps =>
          rw [hloop] at h
          dsimp only at h
          split at h
          next hin =>
            rw [Option.some.injEq] at h
            have hch : ch = ps.ls.chart := (congrArg (fun t => t.1) h).symm
            have hgl : gl = ⟨start, 2 ^ sent.length - 1⟩ :=
              (congrArg (fun t => t.2.1) h).symm
            rw [hch, hgl]
            exact hin
          next =>
            rw [Option.some.injEq] at h
            exact absurd (congrArg (fun t => t.2.1) h).symm
              (by simpa using hne)

/-- The demonstration grammar of plcfrs `main()` (the discontinuous German
example), with `-log` probabilities replaced by representative positive
rationals. -/
def exampleGrammar : Grammar where
  toid s :=
    if s = "Epsilon" then some 0 else if s = "S" then some 1
    else if s = "VP2" then some 2 else if s = "VMFIN" then some 3
    else if s = "VAINF" then some 4 else if s = "PROAV" then some 5
    else if s = "VVPP" then some 6 else none
  tolabel n := ["Epsilon", "S", "VP2", "VMFIN", "VAINF", "PROAV", "VVPP"].getD n ""
  numsymbols := 7
  nonterminals := 7
  lexical w :=
    if w = "Daruber" then [⟨5, 0⟩] else if w = "werden" then [⟨4, 0⟩]
    else if w = "muss" then [⟨3, 0⟩]
    else if w = "nachgedacht" then [⟨6, 0⟩] else []
  unary _ := []
  lbinary l :=
    if l = 2 then [⟨1, 2, 3, 0b010, 0b100, 0, 0⟩, ⟨2, 2, 4, 0b100, 0b101, 7/10, 1⟩]
    else if l = 5 then [⟨2, 5, 6, 0b10, 0b11, 7/10, 2⟩] else []
  rbinary l :=
    if l = 3 then [⟨1, 2, 3, 0b010, 0b100, 0, 0⟩]
    else if l = 4 then [⟨2, 2, 4, 0b100, 0b101, 7/10, 1⟩]
    else if l = 6 then [⟨2, 5, 6, 0b10, 0b11, 7/10, 2⟩] else []
  bylhs := [⟨1, 2, 3, 0b010, 0b100, 0, 0⟩, ⟨2, 2, 4, 0b100, 0b101, 7/10, 1⟩,
    ⟨2, 5, 6, 0b10, 0b11, 7/10, 2⟩]
  fanout l := if l = 2 then 2 else 1

/-- Witness: the unknown word "xyz" produces the "not covered" failure on
the example grammar. -/
theorem parse_failure_contract_wit :
    ∃ ch tok, parse ["Daruber", "muss", "xyz", "werden"] exampleGrammar none 1
        false none false false none 0 1000
      = some (ch, NONE, notCoveredMsg tok) := by
  have h := parse_failure_contract ["Daruber", "muss", "xyz", "werden"]
    exampleGrammar none 1 false none false false none 0 1000
  exact h.1 2 "xyz" (by decide) (by decide) (by decide) (by decide)

/-! ## Theorems: FOM-estimate tag skip (C10) -/

theorem scanPos_ok_any (g : Grammar) (tags : Option (List String))
    (est : Option (EstKind × Outside)) (lensent : Nat) (exh : Bool)
    (mo : Bool) (st : LState) (i : Nat) (w : String)
    (hany : (g.lexical w).any (fun ter => tagMatch g tags i ter.lhs &&
      !(scoreWith est ter.lhs 1 i (lensent - 1 - i) 0 ter.prob).2) = true) :
    ∃ st₂, scanPos g tags est lensent exh none mo st i w = .ok st₂ := by
  have hc := scanLex_foldl_any g tags est lensent exh mo i
    ⟨(g.toid "Epsilon").getD 0, i⟩ (g.lexical w) (st, false) hany
  refine ⟨((g.lexical w).foldl (scanLex g tags est lensent exh none mo i
    ⟨(g.toid "Epsilon").getD 0, i⟩) (st, false)).1, ?_⟩
  unfold scanPos
  dsimp only
  rw [if_pos hc]

/-- The scan under the C10 hypotheses: every position is either the
skipped one or recognized, so the scan completes and the resulting state
satisfies the span invariant. -/
theorem scan_fold_c10 (vp : Nat → Bool) (g : Grammar)
    (tags : Option (List String)) (est : Option (EstKind × Outside))
    (lensent : Nat) (exh : Bool) (mo : Bool) (L : List (Nat × String))
    (st : LState) (hst : GoodL vp st)
    (hL : ∀ e ∈ L,
      ((g.lexical e.2).all (fun ter => !tagMatch g tags e.1 ter.lhs) = true ∧
        (truthy tags && (g.toid (tagAt tags e.1)).isSome) = true ∧
        (scoreWith est ((g.toid (tagAt tags e.1)).getD 0) 1 e.1
          (lensent - 1 - e.1) 0 0).2 = true) ∨
      (vp (2 ^ e.1) = true ∧
        (g.lexical e.2).any (fun ter => tagMatch g tags e.1 ter.lhs &&
          !(scoreWith est ter.lhs 1 e.1 (lensent - 1 - e.1) 0 ter.prob).2) = true)) :
    ∃ st', L.foldlM
        (fun s iw => scanPos g tags est lensent exh none mo s iw.1 iw.2) st
      = .ok st' ∧ GoodL vp st' := by
  induction L generalizing st with
  | nil => exact ⟨st, rfl, hst⟩
  | cons a t ih =>
    rw [List.foldlM_cons]
    rcases hL a (List.mem_cons_self a t) with ⟨ha1, ha2, ha3⟩ | ⟨hvp, hany⟩
    · rw [scanPos_skip g tags est lensent exh none mo st a.1 a.2 ha1 ha2 ha3]
      exact ih st hst fun e he => hL e (List.mem_cons_of_mem a he)
    · obtain ⟨st₂, hok⟩ := scanPos_ok_any g tags est lensent exh mo st a.1 a.2 hany
      rw [hok]
      have hg : GoodL vp st₂ := by
        have := scanPos_good vp g tags est lensent exh none mo st a.1 a.2 hst hvp
        rw [hok] at this
        exact this
      exact ih st₂ hg fun e he => hL e (List.mem_cons_of_mem a he)

/-- C10: with gold tags and a FOM estimate, a position where no lexical
rule matches the (known) tag and the bare-tag score exceeds 300.0 is
skipped entirely by the scan: no "not covered" error is raised, no item
covering that position is ever created, and (when the other positions are
recognized) `parse` ends with the "no parse" message and the `NONE`
sentinel. -/
theorem parse_estimate_tag_skip (sent : List String) (g : Grammar)
    (ts : List String) (estk : EstKind × Outside) (start p : Nat)
    (exh sp mo : Bool) (bw fuel : Nat)
    (ch : List (SmallChartItem × List Edge)) (gl : SmallChartItem)
    (msg : String)
    (hlen : sent.length < wordBits) (hp : p < sent.length)
    (h1 : (g.lexical (sent.getD p "")).all
      (fun ter => !tagMatch g (some ts) p ter.lhs) = true)
    (h2 : (truthy (some ts) && (g.toid (tagAt (some ts) p)).isSome) = true)
    (h3 : (scoreWith (some estk) ((g.toid (tagAt (some ts) p)).getD 0) 1 p
      (sent.length - 1 - p) 0 0).2 = true)
    (h4 : ∀ j w, (j, w) ∈ sent.enum → j ≠ p →
      (g.lexical w).any (fun ter => tagMatch g (some ts) j ter.lhs &&
        !(scoreWith (some estk) ter.lhs 1 j
          (sent.length - 1 - j) 0 ter.prob).2) = true)
    (hres : parse sent g (some ts) start exh none sp mo (some estk) bw fuel
      = some (ch, gl, msg)) :
    gl = NONE ∧ (∃ stats, msg = "no parse " ++ stats) ∧
    (∀ it, acontains ch it = true → it.vec.testBit p = false) := by
  -- the span invariant: no item ever covers position p
  have hxor : ∀ a b, (!Nat.testBit a p) = true → (!Nat.testBit b p) = true →
      (!Nat.testBit (a ^^^ b) p) = true := by
    intro a b ha hb
    simp only [Bool.not_eq_true'] at ha hb ⊢
    simp [Nat.testBit_xor, ha, hb]
  have hscan : ∃ st', scan g (some ts) (some estk) sent.length exh none mo sent
      = .ok st' ∧ GoodL (fun v => !Nat.testBit v p) st' := by
    refine scan_fold_c10 (fun v => !Nat.testBit v p) g (some ts) (some estk)
      sent.length exh mo sent.enum ⟨[], [], fun _ => [], 0⟩
      ⟨by intro k hk; simp [acontains] at hk,
        by intro k hk; simp [acontains] at hk,
        by intro l k hk; simp [acontains] at hk⟩ ?_
    intro e he
    by_cases hep : e.1 = p
    · left
      have hw : sent.getD e.1 "" = e.2 := by
        have h' := List.mem_enum_iff_getElem?.mp he
        simp [List.getD_eq_getElem?_getD, h']
      rw [hep] at hw ⊢
      rw [← hw]
      exact ⟨h1, h2, h3⟩
    · right
      refine ⟨?_, h4 e.1 e.2 (by simpa using he) hep⟩
      simp [Nat.testBit_two_pow, hep]
  obtain ⟨st', hok, hgood⟩ := hscan
  unfold parse at hres
  rw [if_neg (by omega)] at hres
  dsimp only at hres
  rw [hok] at hres
  dsimp only at hres
  cases hloop : parseLoop g (some estk) sent.length exh none sp mo bw
      ⟨start, 2 ^ sent.length - 1⟩ fuel ⟨st', [], 0⟩ with
  | none =>
    rw [hloop] at hres
    exact absurd hres (by simp)
  | some ps =>
    rw [hloop] at hres
    dsimp only at hres
    have hpsgood : GoodL (fun v => !Nat.testBit v p) ps.ls :=
      parseLoop_good _ g (some estk) sent.length exh none sp mo bw
        ⟨start, 2 ^ sent.length - 1⟩ fuel ⟨st', [], 0⟩ ps hxor hgood hloop
    have hgoal : acontains ps.ls.chart ⟨start, 2 ^ sent.length - 1⟩ = false := by
      by_contra hc
      have hc' : acontains ps.ls.chart ⟨start, 2 ^ sent.length - 1⟩ = true := by
        simpa using hc
      have := hpsgood.2.1 _ hc'
      simp only [Bool.not_eq_true'] at this
      rw [Nat.testBit_two_pow_sub_one] at this
      simp [hp] at this
    rw [if_neg (by simp [hgoal])] at hres
    rw [Option.some.injEq] at hres
    have hch : ch = ps.ls.chart := (congrArg (fun t => t.1) hres).symm
    have hgl : gl = NONE := (congrArg (fun t => t.2.1) hres).symm
    have hmsg : msg = "no parse " ++ statsMsg g ps :=
      (congrArg (fun t => t.2.2) hres).symm
    refine ⟨hgl, ⟨statsMsg g ps, hmsg⟩, ?_⟩
    intro it hit
    rw [hch] at hit
    have := hpsgood.2.1 it hit
    simpa using this

/- Batteries marks the rational operations irreducible; evaluation of the
embedded parser on concrete inputs needs them unfolded. -/
attribute [local semireducible] Rat.add Rat.mul Rat.sub Rat.inv

/-- Witness: on the example grammar with gold tags and an SX estimate that
pushes the unknown-word tag "VVPP" over 300.0, the scan skips position 2
and `parse` ends with "no parse", no item covering that position. -/
theorem parse_estimate_tag_skip_wit :
    ∃ ch gl msg,
      parse ["Daruber", "muss", "xyz", "werden"] exampleGrammar
        (some ["PROAV", "VMFIN", "VVPP", "VAINF"]) 1 false none false false
        (some (EstKind.SX, fun lhs _ _ _ => if lhs = 6 then 1000 else 0)) 0 100
      = some (ch, gl, msg) ∧
      gl = NONE ∧ (∃ stats, msg = "no parse " ++ stats) ∧
      (∀ it, acontains ch it = true → it.vec.testBit 2 = false) := by
  cases hres : parse ["Daruber", "muss", "xyz", "werden"] exampleGrammar
      (some ["PROAV", "VMFIN", "VVPP", "VAINF"]) 1 false none false false
      (some (EstKind.SX, fun lhs _ _ _ => if lhs = 6 then 1000 else 0)) 0 100 with
  | none => exact absurd hres (by decide)
  | some r =>
    obtain ⟨ch, gl, msg⟩ := r
    refine ⟨ch, gl, msg, rfl, ?_⟩
    refine parse_estimate_tag_skip _ _ _ _ 1 2 false false false 0 100 ch gl msg
      (by decide) (by decide) (by decide) (by decide) (by decide) ?_ hres
    intro j w hmem hne
    fin_cases hmem
    · decide
    · decide
    · exact absurd rfl hne
    · decide


/-! ## `cfgparse` (lines 711-897): CKY with split-filter matrices (C3) -/

/-- containers `CFGEdge`: `new_CFGEdge(prob, rule, mid)`; `rule = none`
models the NULL rule pointer of terminal edges.  Span positions are `Int`
throughout, mirroring the C `short` indices. -/
structure CFGEdge where
  prob : ℚ
  rule : Option Rule
  mid : Int
  deriving Repr, DecidableEq

/-- Instrumentation: one consult of the four split-filter matrices by the
binary-rule loop (lines 831-838), together with the sets of derived
boundary positions (cells with a finite Viterbi score) at that moment. -/
structure ConsultRec where
  rhs1 : Nat
  rhs2 : Nat
  lhs : Nat
  left : Int
  right : Int
  narrowr : Int
  wider : Int
  narrowl : Int
  widel : Int
  derivedRights : List Nat
  derivedLefts : List Nat
  deriving Repr, DecidableEq

/-- The mutable state of `cfgparse`: the Viterbi scores (`none` = the
initial infinity), the chart (lists of edges per `[left, right)` and
label), the four filter matrices, and the consult trace. -/
structure CFGState where
  viterbi : Nat → Int → Int → Option ℚ
  chart : Int → Int → Nat → List CFGEdge
  minsplitleft : Nat → Int → Int
  maxsplitleft : Nat → Int → Int
  minsplitright : Nat → Int → Int
  maxsplitright : Nat → Int → Int
  trace : List ConsultRec

/-- Lines 728-741: empty chart, infinite Viterbi scores, and the filter
matrices filled with `-1` / `lensent + 1`. -/
def initCFG (n : Nat) : CFGState where
  viterbi := fun _ _ _ => none
  chart := fun _ _ _ => []
  minsplitleft := fun _ _ => -1
  maxsplitleft := fun _ _ => (n : Int) + 1
  minsplitright := fun _ _ => (n : Int) + 1
  maxsplitright := fun _ _ => -1
  trace := []

def setVit (st : CFGState) (L : Nat) (l r : Int) (p : ℚ) : CFGState :=
  { st with viterbi := fun X x y =>
      if X = L ∧ x = l ∧ y = r then some p else st.viterbi X x y }

def setChart (st : CFGState) (l r : Int) (L : Nat) (es : List CFGEdge) :
    CFGState :=
  { st with chart := fun x y X =>
      if x = l ∧ y = r ∧ X = L then es else st.chart x y X }

def appendEdge (st : CFGState) (l r : Int) (L : Nat) (e : CFGEdge) :
    CFGState :=
  setChart st l r L (st.chart l r L ++ [e])

/-- The four conditional filter updates (lines 756-763, repeated at
770-777, 806-813, 856-863 and 887-894) for a derivation of `L` over
`[l, r)`. -/
def updFilter (st : CFGState) (L : Nat) (l r : Int) : CFGState :=
  { st with
    minsplitleft := fun X y => if X = L ∧ y = r then
        (if l > st.minsplitleft L r then l else st.minsplitleft L r)
      else st.minsplitleft X y
    maxsplitleft := fun X y => if X = L ∧ y = r then
        (if l < st.maxsplitleft L r then l else st.maxsplitleft L r)
      else st.maxsplitleft X y
    minsplitright := fun X x => if X = L ∧ x = l then
        (if r < st.minsplitright L l then r else st.minsplitright L l)
      else st.minsplitright X x
    maxsplitright := fun X x => if X = L ∧ x = l then
        (if r > st.maxsplitright L l then r else st.maxsplitright L l)
      else st.maxsplitright X x }

/-- Comparison `prob < viterbi[...]` with infinity encoded as `none`. -/
def probLt (p : ℚ) (o : Option ℚ) : Bool :=
  match o with
  | none => true
  | some q => decide (p < q)

def intRange (a b : Int) : List Int :=
  (List.range (b - a).toNat).map (fun k => a + (k : Int))

/-- Modelled from the spec: the unary `Agenda` (agenda.pyx is absent from
the sources) pops a first-minimal entry by edge probability. -/
def upop (ag : List (Nat × ℚ)) : Option ((Nat × ℚ) × List (Nat × ℚ)) :=
  match ag with
  | [] => none
  | e :: _ =>
    some (ag.foldl (fun b p => if p.2 < b.2 then p else b) e,
      ag.eraseP (fun p =>
        decide (p.1 = (ag.foldl (fun b q => if q.2 < b.2 then q else b) e).1)))

/-- Modelled from the spec: `Agenda.setifbetter` — insert the key or lower
its priority. -/
def usetifbetter (ag : List (Nat × ℚ)) (k : Nat) (v : ℚ) : List (Nat × ℚ) :=
  match alookup ag k with
  | some old => if v < old then aset ag k v else ag
  | none => aset ag k v

/-- Line 789 / 870: `grammar.unary[rhs1].rhs1 == rhs1` — whether the label
has unary rules (the first rule of its block is its own). -/
def unaryHead (g : Grammar) (r1 : Nat) : Bool :=
  match g.unary r1 with
  | [] => false
  | ru :: _ => ru.rhs1 == r1

/-- Lines 785-789 / 866-870: the agenda entries for the cell — every label
with a finite Viterbi score that heads unary rules (`Agenda.update` on an
empty agenda, keys in ascending order). -/
def unaryInit (g : Grammar) (st : CFGState) (left right : Int) :
    List (Nat × ℚ) :=
  (List.range g.nonterminals).filterMap (fun r1 =>
    match st.viterbi r1 left right with
    | some q => if unaryHead g r1 then some (r1, q) else none
    | none => none)

/-- Lines 792-813 / 873-894, one rule of the popped label's unary block:
append the edge; on improvement, `setifbetter` the agenda, lower the
Viterbi score and update the filter.  The Viterbi read of the premise is
finite whenever the agenda holds the key; `getD 0` stands for that finite
value. -/
def unaryRuleStep (left right : Int) (rhs1 : Nat)
    (p : CFGState × List (Nat × ℚ)) (rule : Rule) :
    CFGState × List (Nat × ℚ) :=
  if probLt (rule.prob + (p.1.viterbi rhs1 left right).getD 0)
      ((appendEdge p.1 left right rule.lhs
        ⟨rule.prob + (p.1.viterbi rhs1 left right).getD 0, some rule,
          right⟩).viterbi rule.lhs left right) = true then
    (updFilter (setVit (appendEdge p.1 left right rule.lhs
        ⟨rule.prob + (p.1.viterbi rhs1 left right).getD 0, some rule, right⟩)
        rule.lhs left right
        (rule.prob + (p.1.viterbi rhs1 left right).getD 0))
      rule.lhs left right,
     usetifbetter p.2 rule.lhs
       (rule.prob + (p.1.viterbi rhs1 left right).getD 0))
  else
    (appendEdge p.1 left right rule.lhs
      ⟨rule.prob + (p.1.viterbi rhs1 left right).getD 0, some rule, right⟩,
     p.2)

/-- The rules applied to one popped agenda key (lines 792-794 / 873-875:
the contiguous block with `rhs1` equal to the key). -/
def unaryPopStep (g : Grammar) (left right : Int) (rhs1 : Nat)
    (st : CFGState) (ag : List (Nat × ℚ)) : CFGState × List (Nat × ℚ) :=
  ((g.unary rhs1).takeWhile (fun ru => ru.rhs1 == rhs1)).foldl
    (unaryRuleStep left right rhs1) (st, ag)

/-- The `while unaryagenda.length` loop (lines 790-813 / 871-894), fueled;
exhausted fuel stops the closure early. -/
def unaryClose (g : Grammar) (left right : Int) :
    Nat → CFGState → List (Nat × ℚ) → CFGState
  | 0, st, _ => st
  | Nat.succ fuel, st, ag =>
    match upop ag with
    | none => st
    | some (e, ag1) =>
      unaryClose g left right fuel
        (unaryPopStep g left right e.1 st ag1).1
        (unaryPopStep g left right e.1 st ag1).2


/-- The consult of the four filter matrices for a binary rule at a cell
(lines 831-838), instrumented with the derived boundary sets of the two
consulted rows at that moment. -/
def consultRec (st : CFGState) (n : Nat) (left right : Int) (rule : Rule) :
    ConsultRec where
  rhs1 := rule.rhs1
  rhs2 := rule.rhs2
  lhs := rule.lhs
  left := left
  right := right
  narrowr := st.minsplitright rule.rhs1 left
  wider := st.maxsplitright rule.rhs1 left
  narrowl := st.minsplitleft rule.rhs2 right
  widel := st.maxsplitleft rule.rhs2 right
  derivedRights := (List.range (n + 1)).filter
    (fun r => (st.viterbi rule.rhs1 left (r : Int)).isSome)
  derivedLefts := (List.range (n + 1)).filter
    (fun l => (st.viterbi rule.rhs2 (l : Int) right).isSome)

def addRec (st : CFGState) (rec : ConsultRec) : CFGState :=
  { st with trace := st.trace ++ [rec] }

/-- Lines 842-853, one split point `mid`: when both premises are finite,
append the edge and, on improvement, lower the Viterbi score and set
`foundbetter`.  The filter update is deferred (line 854). -/
def midStep (rule : Rule) (left right : Int) (p : CFGState × Bool)
    (mid : Int) : CFGState × Bool :=
  match p.1.viterbi rule.rhs1 left mid, p.1.viterbi rule.rhs2 mid right with
  | some q1, some q2 =>
    if probLt (rule.prob + q1 + q2)
        ((appendEdge p.1 left right rule.lhs
          ⟨rule.prob + q1 + q2, some rule, mid⟩).viterbi
            rule.lhs left right) = true then
      (setVit (appendEdge p.1 left right rule.lhs
          ⟨rule.prob + q1 + q2, some rule, mid⟩) rule.lhs left right
        (rule.prob + q1 + q2), true)
    else
      (appendEdge p.1 left right rule.lhs
        ⟨rule.prob + q1 + q2, some rule, mid⟩, p.2)
  | _, _ => p

/-- Line 855: `if foundbetter and isinf(oldscore)`, the deferred filter
update of the binary loop. -/
def binDefer (rule : Rule) (left right : Int) (oldscore : Option ℚ)
    (res : CFGState × Bool) : CFGState :=
  if res.2 = true ∧ oldscore = none then updFilter res.1 rule.lhs left right
  else res.1

/-- The split-point loop and deferred update (lines 839-863):
`minmid = max(narrowr, widel)`, `maxmid = 1 + min(wider, narrowl)`. -/
def binSplits (st : CFGState) (left right : Int) (rule : Rule) : CFGState :=
  binDefer rule left right (st.viterbi rule.lhs left right)
    ((intRange
        (max (st.minsplitright rule.rhs1 left)
          (st.maxsplitleft rule.rhs2 right))
        (1 + min (st.maxsplitright rule.rhs1 left)
          (st.minsplitleft rule.rhs2 right))).foldl
      (midStep rule left right) (st, false))

/-- The two `continue` filters of lines 832 and 834, after the consult. -/
def binFiltered (st : CFGState) (left right : Int) (rule : Rule) : CFGState :=
  if st.minsplitright rule.rhs1 left ≥ right then st
  else if st.minsplitleft rule.rhs2 right < st.minsplitright rule.rhs1 left
    then st
  else binSplits st left right rule

/-- One binary rule at a cell (lines 823-863): unary rules are skipped
(line 826), then the filter consult is recorded and acted on. -/
def binRule (n : Nat) (left right : Int) (st : CFGState)
    (rule : Rule) : CFGState :=
  if rule.rhs2 = 0 then st
  else binFiltered (addRec st (consultRec st n left right rule)) left right
    rule

/-- The binary-rule loop of a cell: `grammar.bylhs` up to the sentinel
rule whose lhs is the symbol count (lines 823-825). -/
def binPhase (g : Grammar) (n : Nat) (left right : Int) (st : CFGState) :
    CFGState :=
  (g.bylhs.takeWhile (fun ru => !(ru.lhs == g.nonterminals))).foldl
    (binRule n left right) st

/-- One chart cell of the span loop: binary rules, then the unary closure
on the cell (lines 822-894). -/
def cellStep (g : Grammar) (n fuel : Nat) (st : CFGState) (left right : Int) :
    CFGState :=
  unaryClose g left right fuel (binPhase g n left right st)
    (unaryInit g (binPhase g n left right st) left right)

/-- Lines 815-894: all spans from 2 to `lensent`, cells left to right. -/
def spanPhase (g : Grammar) (n fuel : Nat) (st : CFGState) : CFGState :=
  (List.range' 2 (n - 1)).foldl (fun st1 (span : Nat) =>
    (List.range (n - span + 1)).foldl (fun st2 (left : Nat) =>
      cellStep g n fuel st2 (left : Int) ((left : Int) + (span : Int))) st1)
    st

/-- One matching lexical rule at a position (lines 748-764): the gold-tag
filter, then Viterbi assignment, the singleton chart cell and the filter
update. -/
def posTerm (g : Grammar) (tags : Option (List String)) (i : Nat)
    (p : CFGState × Bool) (ter : LexicalRule) : CFGState × Bool :=
  if tagMatch g tags i ter.lhs then
    (updFilter (setChart (setVit p.1 ter.lhs (i : Int) ((i : Int) + 1)
        ter.prob) (i : Int) ((i : Int) + 1) ter.lhs
        [⟨ter.prob, none, (i : Int) + 1⟩])
      ter.lhs (i : Int) ((i : Int) + 1), true)
  else p

/-- Lines 765-778: the gold-tag fallback cell with probability 0.0. -/
def tagFallback (g : Grammar) (tags : Option (List String)) (i : Nat)
    (st : CFGState) : CFGState :=
  updFilter (setChart (setVit st ((g.toid (tagAt tags i)).getD 0) (i : Int)
      ((i : Int) + 1) 0) (i : Int) ((i : Int) + 1)
      ((g.toid (tagAt tags i)).getD 0) [⟨0, none, (i : Int) + 1⟩])
    ((g.toid (tagAt tags i)).getD 0) (i : Int) ((i : Int) + 1)

/-- The unary closure on a POS cell (lines 783-813). -/
def posUnary (g : Grammar) (fuel : Nat) (st : CFGState) (i : Nat) :
    CFGState :=
  unaryClose g (i : Int) ((i : Int) + 1) fuel st
    (unaryInit g st (i : Int) ((i : Int) + 1))

/-- Lines 765-781 after the lexical loop: recognized, gold-tag fallback,
or the "not covered" early return (modelled as `Except.error`). -/
def posFinish (g : Grammar) (tags : Option (List String)) (fuel i : Nat)
    (p : CFGState × Bool) : Except CFGState CFGState :=
  if p.2 = true then .ok (posUnary g fuel p.1 i)
  else if (truthy tags && (g.toid (tagAt tags i)).isSome) = true then
    .ok (posUnary g fuel (tagFallback g tags i p.1) i)
  else .error p.1

/-- One position of the POS-assignment loop (lines 745-813). -/
def posStep (g : Grammar) (tags : Option (List String)) (fuel : Nat)
    (st : CFGState) (iw : Nat × String) : Except CFGState CFGState :=
  posFinish g tags fuel iw.1 ((g.lexical iw.2).foldl (posTerm g tags iw.1)
    (st, false))

/-- Lines 896-897: the goal item `(start, 0, lensent)` is returned iff its
label is a key of the top cell (a key holds a nonempty edge list). -/
def cfgFinish (n start : Nat) (st : CFGState) :
    CFGState × Option (Nat × Nat × Nat) :=
  if st.chart 0 (n : Int) start = [] then (st, none)
  else (st, some (start, 0, n))

/-- cfgparse (lines 711-897): the POS loop with its early "not covered"
return, the span loop, and the goal test. -/
def cfgparse (sent : List String) (g : Grammar) (start : Nat)
    (tags : Option (List String)) (fuel : Nat) :
    CFGState × Option (Nat × Nat × Nat) :=
  match sent.enum.foldlM (posStep g tags fuel) (initCFG sent.length) with
  | .error st => (st, none)
  | .ok st => cfgFinish sent.length start (spanPhase g sent.length fuel st)


/-- A three-word CFG: C covers [0,1), B covers [1,2), A covers [2,3);
`A -> B A` also derives A over [1,3), so label A has two derived left
boundaries for right boundary 3; `S -> C A` then consults
`minsplitleft[A, 3]` / `maxsplitleft[A, 3]`. -/
def cfgExampleGrammar : Grammar where
  toid s :=
    if s = "Epsilon" then some 0 else if s = "S" then some 1
    else if s = "A" then some 2 else if s = "B" then some 3
    else if s = "C" then some 4 else none
  tolabel n := ["Epsilon", "S", "A", "B", "C"].getD n ""
  numsymbols := 5
  nonterminals := 5
  lexical w :=
    if w = "a" then [⟨4, 1⟩] else if w = "b" then [⟨3, 1⟩]
    else if w = "c" then [⟨2, 1⟩] else []
  unary _ := []
  lbinary _ := []
  rbinary _ := []
  bylhs := [⟨1, 4, 2, 0, 0, 1, 0⟩, ⟨2, 3, 2, 0, 0, 1, 1⟩]
  fanout _ := 1

/-- Counterexample to the claim's reading of the filter matrices: when the
binary loop consults the filter for `S -> C A` over [0,3), label A has
been derived over [1,3) and [2,3) (derived lefts 1 and 2), yet
`minsplitleft[A, 3] = 2` — the largest left, not the smallest — and
`maxsplitleft[A, 3] = 1` — the smallest left, not the largest.  The code
maintains the Stanford-style narrow/wide extents under swapped min/max
names. -/
theorem cfg_splitleft_not_extrema :
    ∃ rec ∈ (cfgparse ["a", "b", "c"] cfgExampleGrammar 1 none 10).1.trace,
      rec.rhs2 = 2 ∧ rec.right = 3 ∧ rec.derivedLefts = [1, 2] ∧
      rec.narrowl = 2 ∧ rec.widel = 1 := by
  decide


/-! ### The split-filter invariant -/

/-- Maximum of a list of positions with a default, as the filter matrices
hold it. -/
def intMaxD (d : Int) (xs : List Nat) : Int :=
  xs.foldl (fun (a : Int) (x : Nat) => max a (x : Int)) d

/-- Minimum of a list of positions with a default. -/
def intMinD (d : Int) (xs : List Nat) : Int :=
  xs.foldl (fun (a : Int) (x : Nat) => min a (x : Int)) d

theorem foldl_natmax_eq (xs : List Nat) (d v : Int)
    (hub : ∀ x ∈ xs, (x : Int) ≤ v) (hd : d ≤ v)
    (hat : v = d ∨ ∃ x ∈ xs, v = (x : Int)) :
    xs.foldl (fun (a : Int) (x : Nat) => max a (x : Int)) d = v := by
  induction xs generalizing d with
  | nil =>
    rcases hat with h | ⟨x, hx, _⟩
    · exact h.symm
    · exact absurd hx (List.not_mem_nil x)
  | cons x xs ih =>
    have hxv : (x : Int) ≤ v := hub x (List.mem_cons_self x xs)
    rw [List.foldl_cons]
    rcases hat with h | ⟨y, hy, hyv⟩
    · subst h
      exact ih (max v (x : Int)) (fun z hz => hub z (List.mem_cons_of_mem x hz))
        (by omega) (Or.inl (by omega))
    · rcases List.mem_cons.mp hy with h | h
      · subst h
        exact ih _ (fun z hz => hub z (List.mem_cons_of_mem y hz))
          (by omega) (Or.inl (by omega))
      · exact ih _ (fun z hz => hub z (List.mem_cons_of_mem x hz))
          (by omega) (Or.inr ⟨y, h, hyv⟩)

theorem foldl_natmin_eq (xs : List Nat) (d v : Int)
    (hlb : ∀ x ∈ xs, v ≤ (x : Int)) (hd : v ≤ d)
    (hat : v = d ∨ ∃ x ∈ xs, v = (x : Int)) :
    xs.foldl (fun (a : Int) (x : Nat) => min a (x : Int)) d = v := by
  induction xs generalizing d with
  | nil =>
    rcases hat with h | ⟨x, hx, _⟩
    · exact h.symm
    · exact absurd hx (List.not_mem_nil x)
  | cons x xs ih =>
    have hxv : v ≤ (x : Int) := hlb x (List.mem_cons_self x xs)
    rw [List.foldl_cons]
    rcases hat with h | ⟨y, hy, hyv⟩
    · subst h
      exact ih (min v (x : Int)) (fun z hz => hlb z (List.mem_cons_of_mem x hz))
        (by omega) (Or.inl (by omega))
    · rcases List.mem_cons.mp hy with h | h
      · subst h
        exact ih _ (fun z hz => hlb z (List.mem_cons_of_mem y hz))
          (by omega) (Or.inl (by omega))
      · exact ih _ (fun z hz => hlb z (List.mem_cons_of_mem x hz))
          (by omega) (Or.inr ⟨y, h, hyv⟩)

/-- What a consult record must satisfy under the corrected reading:
`minsplitleft` = largest derived left (narrow extent), `maxsplitleft` =
smallest derived left (wide extent), `minsplitright` = smallest derived
right, `maxsplitright` = largest derived right, with the matrices' fill
values as defaults for underived rows. -/
def GoodRec (n : Nat) (rec : ConsultRec) : Prop :=
  rec.narrowl = intMaxD (-1) rec.derivedLefts ∧
  rec.widel = intMinD ((n : Int) + 1) rec.derivedLefts ∧
  rec.narrowr = intMinD ((n : Int) + 1) rec.derivedRights ∧
  rec.wider = intMaxD (-1) rec.derivedRights

/-- The left matrices agree with the derived left boundaries of every row:
each is a bound, and each is attained or still the fill value. -/
def InvL (n : Nat) (vit : Nat → Int → Int → Option ℚ)
    (msl mxsl : Nat → Int → Int) : Prop :=
  ∀ (L : Nat) (r : Int),
    (∀ l : Nat, l ≤ n → (vit L (l : Int) r).isSome = true →
      (l : Int) ≤ msl L r ∧ mxsl L r ≤ (l : Int)) ∧
    (msl L r = -1 ∨ ∃ l : Nat, l ≤ n ∧ (vit L (l : Int) r).isSome = true ∧
      msl L r = (l : Int)) ∧
    (mxsl L r = (n : Int) + 1 ∨ ∃ l : Nat, l ≤ n ∧
      (vit L (l : Int) r).isSome = true ∧ mxsl L r = (l : Int))

/-- The right matrices agree with the derived right boundaries. -/
def InvR (n : Nat) (vit : Nat → Int → Int → Option ℚ)
    (msr mxsr : Nat → Int → Int) : Prop :=
  ∀ (L : Nat) (l : Int),
    (∀ r : Nat, r ≤ n → (vit L l (r : Int)).isSome = true →
      msr L l ≤ (r : Int) ∧ (r : Int) ≤ mxsr L l) ∧
    (msr L l = (n : Int) + 1 ∨ ∃ r : Nat, r ≤ n ∧
      (vit L l (r : Int)).isSome = true ∧ msr L l = (r : Int)) ∧
    (mxsr L l = -1 ∨ ∃ r : Nat, r ≤ n ∧ (vit L l (r : Int)).isSome = true ∧
      mxsr L l = (r : Int))

/-- The run invariant: both matrix invariants plus goodness of every
recorded consult. -/
def CInv (n : Nat) (st : CFGState) : Prop :=
  InvL n st.viterbi st.minsplitleft st.maxsplitleft ∧
  InvR n st.viterbi st.minsplitright st.maxsplitright ∧
  ∀ rec ∈ st.trace, GoodRec n rec

/-- A consult taken in a state satisfying the matrix invariants yields a
good record. -/
theorem consult_good (n : Nat) (st : CFGState) (left right : Int)
    (rule : Rule) (hL : InvL n st.viterbi st.minsplitleft st.maxsplitleft)
    (hR : InvR n st.viterbi st.minsplitright st.maxsplitright) :
    GoodRec n (consultRec st n left right rule) := by
  obtain ⟨hbL, haL1, haL2⟩ := hL rule.rhs2 right
  obtain ⟨hbR, haR1, haR2⟩ := hR rule.rhs1 left
  dsimp only [GoodRec, consultRec, intMaxD, intMinD]
  refine ⟨?_, ?_, ?_, ?_⟩
  · refine (foldl_natmax_eq _ _ _ (fun x hx => ?_) ?_ ?_).symm
    · obtain ⟨hx1, hx2⟩ := List.mem_filter.mp hx
      exact (hbL x (Nat.lt_succ_iff.mp (List.mem_range.mp hx1))
        (by simpa using hx2)).1
    · rcases haL1 with h | ⟨l, _, _, h⟩ <;> omega
    · rcases haL1 with h | ⟨l, hln, hs, h⟩
      · exact Or.inl h
      · exact Or.inr ⟨l, List.mem_filter.mpr
          ⟨List.mem_range.mpr (Nat.lt_succ_of_le hln), by simpa using hs⟩, h⟩
  · refine (foldl_natmin_eq _ _ _ (fun x hx => ?_) ?_ ?_).symm
    · obtain ⟨hx1, hx2⟩ := List.mem_filter.mp hx
      exact (hbL x (Nat.lt_succ_iff.mp (List.mem_range.mp hx1))
        (by simpa using hx2)).2
    · rcases haL2 with h | ⟨l, hln, _, h⟩ <;> omega
    · rcases haL2 with h | ⟨l, hln, hs, h⟩
      · exact Or.inl h
      · exact Or.inr ⟨l, List.mem_filter.mpr
          ⟨List.mem_range.mpr (Nat.lt_succ_of_le hln), by simpa using hs⟩, h⟩
  · refine (foldl_natmin_eq _ _ _ (fun x hx => ?_) ?_ ?_).symm
    · obtain ⟨hx1, hx2⟩ := List.mem_filter.mp hx
      exact (hbR x (Nat.lt_succ_iff.mp (List.mem_range.mp hx1))
        (by simpa using hx2)).1
    · rcases haR1 with h | ⟨r, hrn, _, h⟩ <;> omega
    · rcases haR1 with h | ⟨r, hrn, hs, h⟩
      · exact Or.inl h
      · exact Or.inr ⟨r, List.mem_filter.mpr
          ⟨List.mem_range.mpr (Nat.lt_succ_of_le hrn), by simpa using hs⟩, h⟩
  · refine (foldl_natmax_eq _ _ _ (fun x hx => ?_) ?_ ?_).symm
    · obtain ⟨hx1, hx2⟩ := List.mem_filter.mp hx
      exact (hbR x (Nat.lt_succ_iff.mp (List.mem_range.mp hx1))
        (by simpa using hx2)).2
    · rcases haR2 with h | ⟨r, _, _, h⟩ <;> omega
    · rcases haR2 with h | ⟨r, hrn, hs, h⟩
      · exact Or.inl h
      · exact Or.inr ⟨r, List.mem_filter.mpr
          ⟨List.mem_range.mpr (Nat.lt_succ_of_le hrn), by simpa using hs⟩, h⟩


/-- A single-cell Viterbi change together with the four conditional matrix
updates preserves the left invariant. -/
theorem invL_upd (n : Nat) (vit vit1 : Nat → Int → Int → Option ℚ)
    (msl mxsl : Nat → Int → Int) (L0 : Nat) (l0 r0 : Int)
    (hagree : ∀ (L : Nat) (l r : Int), ¬(L = L0 ∧ l = l0 ∧ r = r0) →
      vit1 L l r = vit L l r)
    (hsome : (vit1 L0 l0 r0).isSome = true)
    (hl0 : 0 ≤ l0) (hl1 : l0 ≤ (n : Int))
    (hI : InvL n vit msl mxsl) :
    InvL n vit1
      (fun X y => if X = L0 ∧ y = r0 then
        (if l0 > msl L0 r0 then l0 else msl L0 r0) else msl X y)
      (fun X y => if X = L0 ∧ y = r0 then
        (if l0 < mxsl L0 r0 then l0 else mxsl L0 r0) else mxsl X y) := by
  intro L r
  obtain ⟨hb, ha1, ha2⟩ := hI L r
  by_cases hc : L = L0 ∧ r = r0
  · obtain ⟨hc1, hc2⟩ := hc
    subst hc1; subst hc2
    simp only [eq_self_iff_true, and_self, if_true]
    refine ⟨?_, ?_, ?_⟩
    · intro l hln hs
      by_cases hll : (l : Int) = l0
      · constructor <;> (split <;> omega)
      · have := hb l hln (by
          rw [hagree L (l : Int) r (by simp [hll])] at hs; exact hs)
        constructor <;> (split <;> omega)
    · by_cases hgt : l0 > msl L r
      · rw [if_pos hgt]
        refine Or.inr ⟨l0.toNat, by omega, ?_, by omega⟩
        have : ((l0.toNat : Nat) : Int) = l0 := by omega
        rw [this]; exact hsome
      · rw [if_neg hgt]
        rcases ha1 with h | ⟨l, hln, hs, h⟩
        · exact Or.inl h
        · by_cases hll : (l : Int) = l0
          · exact Or.inr ⟨l, hln, by rw [hll]; exact hsome, h⟩
          · exact Or.inr ⟨l, hln,
              by rw [hagree L (l : Int) r (by simp [hll])]; exact hs, h⟩
    · by_cases hlt : l0 < mxsl L r
      · rw [if_pos hlt]
        refine Or.inr ⟨l0.toNat, by omega, ?_, by omega⟩
        have : ((l0.toNat : Nat) : Int) = l0 := by omega
        rw [this]; exact hsome
      · rw [if_neg hlt]
        rcases ha2 with h | ⟨l, hln, hs, h⟩
        · exact Or.inl h
        · by_cases hll : (l : Int) = l0
          · exact Or.inr ⟨l, hln, by rw [hll]; exact hsome, h⟩
          · exact Or.inr ⟨l, hln,
              by rw [hagree L (l : Int) r (by simp [hll])]; exact hs, h⟩
  · simp only [if_neg hc]
    have hnot : ∀ l : Int, ¬(L = L0 ∧ l = l0 ∧ r = r0) := by
      intro l h1
      exact hc ⟨h1.1, h1.2.2⟩
    refine ⟨?_, ?_, ?_⟩
    · intro l hln hs
      exact hb l hln (by rw [hagree L (l : Int) r (hnot _)] at hs; exact hs)
    · rcases ha1 with h | ⟨l, hln, hs, h⟩
      · exact Or.inl h
      · exact Or.inr ⟨l, hln, by rw [hagree L (l : Int) r (hnot _)]; exact hs, h⟩
    · rcases ha2 with h | ⟨l, hln, hs, h⟩
      · exact Or.inl h
      · exact Or.inr ⟨l, hln, by rw [hagree L (l : Int) r (hnot _)]; exact hs, h⟩

/-- A single-cell Viterbi change together with the matrix updates
preserves the right invariant. -/
theorem invR_upd (n : Nat) (vit vit1 : Nat → Int → Int → Option ℚ)
    (msr mxsr : Nat → Int → Int) (L0 : Nat) (l0 r0 : Int)
    (hagree : ∀ (L : Nat) (l r : Int), ¬(L = L0 ∧ l = l0 ∧ r = r0) →
      vit1 L l r = vit L l r)
    (hsome : (vit1 L0 l0 r0).isSome = true)
    (hr0 : 0 ≤ r0) (hr1 : r0 ≤ (n : Int))
    (hI : InvR n vit msr mxsr) :
    InvR n vit1
      (fun X x => if X = L0 ∧ x = l0 then
        (if r0 < msr L0 l0 then r0 else msr L0 l0) else msr X x)
      (fun X x => if X = L0 ∧ x = l0 then
        (if r0 > mxsr L0 l0 then r0 else mxsr L0 l0) else mxsr X x) := by
  intro L l
  obtain ⟨hb, ha1, ha2⟩ := hI L l
  by_cases hc : L = L0 ∧ l = l0
  · obtain ⟨hc1, hc2⟩ := hc
    subst hc1; subst hc2
    simp only [eq_self_iff_true, and_self, if_true]
    refine ⟨?_, ?_, ?_⟩
    · intro r hrn hs
      by_cases hrr : (r : Int) = r0
      · constructor <;> (split <;> omega)
      · have := hb r hrn (by
          rw [hagree L l (r : Int) (by simp [hrr])] at hs; exact hs)
        constructor <;> (split <;> omega)
    · by_cases hlt : r0 < msr L l
      · rw [if_pos hlt]
        refine Or.inr ⟨r0.toNat, by omega, ?_, by omega⟩
        have : ((r0.toNat : Nat) : Int) = r0 := by omega
        rw [this]; exact hsome
      · rw [if_neg hlt]
        rcases ha1 with h | ⟨r, hrn, hs, h⟩
        · exact Or.inl h
        · by_cases hrr : (r : Int) = r0
          · exact Or.inr ⟨r, hrn, by rw [hrr]; exact hsome, h⟩
          · exact Or.inr ⟨r, hrn,
              by rw [hagree L l (r : Int) (by simp [hrr])]; exact hs, h⟩
    · by_cases hgt : r0 > mxsr L l
      · rw [if_pos hgt]
        refine Or.inr ⟨r0.toNat, by omega, ?_, by omega⟩
        have : ((r0.toNat : Nat) : Int) = r0 := by omega
        rw [this]; exact hsome
      · rw [if_neg hgt]
        rcases ha2 with h | ⟨r, hrn, hs, h⟩
        · exact Or.inl h
        · by_cases hrr : (r : Int) = r0
          · exact Or.inr ⟨r, hrn, by rw [hrr]; exact hsome, h⟩
          · exact Or.inr ⟨r, hrn,
              by rw [hagree L l (r : Int) (by simp [hrr])]; exact hs, h⟩
  · simp only [if_neg hc]
    have hnot : ∀ r : Int, ¬(L = L0 ∧ l = l0 ∧ r = r0) := by
      intro r h1
      exact hc ⟨h1.1, h1.2.1⟩
    refine ⟨?_, ?_, ?_⟩
    · intro r hrn hs
      exact hb r hrn (by rw [hagree L l (r : Int) (hnot _)] at hs; exact hs)
    · rcases ha1 with h | ⟨r, hrn, hs, h⟩
      · exact Or.inl h
      · exact Or.inr ⟨r, hrn, by rw [hagree L l (r : Int) (hnot _)]; exact hs, h⟩
    · rcases ha2 with h | ⟨r, hrn, hs, h⟩
      · exact Or.inl h
      · exact Or.inr ⟨r, hrn, by rw [hagree L l (r : Int) (hnot _)]; exact hs, h⟩


theorem invL_congr (n : Nat) (vit vit1 : Nat → Int → Int → Option ℚ)
    (msl mxsl : Nat → Int → Int)
    (hvit : ∀ (L : Nat) (l r : Int),
      (vit1 L l r).isSome = (vit L l r).isSome)
    (h : InvL n vit msl mxsl) : InvL n vit1 msl mxsl := by
  intro L r
  obtain ⟨hb, ha1, ha2⟩ := h L r
  refine ⟨fun l hln hs => hb l hln (by rw [← hvit]; exact hs), ?_, ?_⟩
  · rcases ha1 with h | ⟨l, hln, hs, h⟩
    · exact Or.inl h
    · exact Or.inr ⟨l, hln, by rw [hvit]; exact hs, h⟩
  · rcases ha2 with h | ⟨l, hln, hs, h⟩
    · exact Or.inl h
    · exact Or.inr ⟨l, hln, by rw [hvit]; exact hs, h⟩

theorem invR_congr (n : Nat) (vit vit1 : Nat → Int → Int → Option ℚ)
    (msr mxsr : Nat → Int → Int)
    (hvit : ∀ (L : Nat) (l r : Int),
      (vit1 L l r).isSome = (vit L l r).isSome)
    (h : InvR n vit msr mxsr) : InvR n vit1 msr mxsr := by
  intro L l
  obtain ⟨hb, ha1, ha2⟩ := h L l
  refine ⟨fun r hrn hs => hb r hrn (by rw [← hvit]; exact hs), ?_, ?_⟩
  · rcases ha1 with h | ⟨r, hrn, hs, h⟩
    · exact Or.inl h
    · exact Or.inr ⟨r, hrn, by rw [hvit]; exact hs, h⟩
  · rcases ha2 with h | ⟨r, hrn, hs, h⟩
    · exact Or.inl h
    · exact Or.inr ⟨r, hrn, by rw [hvit]; exact hs, h⟩

/-- Invariance transfers between states with the same Viterbi someness,
filter matrices and trace. -/
theorem cinv_of_eqs (n : Nat) (st st1 : CFGState)
    (hvit : ∀ (L : Nat) (l r : Int),
      (st1.viterbi L l r).isSome = (st.viterbi L l r).isSome)
    (h1 : st1.minsplitleft = st.minsplitleft)
    (h2 : st1.maxsplitleft = st.maxsplitleft)
    (h3 : st1.minsplitright = st.minsplitright)
    (h4 : st1.maxsplitright = st.maxsplitright)
    (h5 : st1.trace = st.trace)
    (h : CInv n st) : CInv n st1 := by
  obtain ⟨hL, hR, hT⟩ := h
  refine ⟨?_, ?_, ?_⟩
  · rw [h1, h2]
    exact invL_congr n st.viterbi st1.viterbi _ _ hvit hL
  · rw [h3, h4]
    exact invR_congr n st.viterbi st1.viterbi _ _ hvit hR
  · rw [h5]
    exact hT

/-- Recording a good consult preserves the invariant. -/
theorem cinv_addRec (n : Nat) (st : CFGState) (rec : ConsultRec)
    (h : CInv n st) (hg : GoodRec n rec) : CInv n (addRec st rec) := by
  obtain ⟨hL, hR, hT⟩ := h
  refine ⟨hL, hR, ?_⟩
  intro r hr
  have hr1 : r ∈ st.trace ++ [rec] := hr
  rcases List.mem_append.mp hr1 with hm | hm
  · exact hT r hm
  · rw [List.mem_singleton.mp hm]
    exact hg

/-- The generic derivation step: a state differing from `st` in the chart
and one Viterbi cell, followed by the filter update at that cell,
preserves the invariant. -/
theorem cinv_upd (n : Nat) (st st1 : CFGState) (L0 : Nat) (l0 r0 : Int)
    (hvit : ∀ (L : Nat) (l r : Int), ¬(L = L0 ∧ l = l0 ∧ r = r0) →
      st1.viterbi L l r = st.viterbi L l r)
    (hsome : (st1.viterbi L0 l0 r0).isSome = true)
    (h1 : st1.minsplitleft = st.minsplitleft)
    (h2 : st1.maxsplitleft = st.maxsplitleft)
    (h3 : st1.minsplitright = st.minsplitright)
    (h4 : st1.maxsplitright = st.maxsplitright)
    (h5 : st1.trace = st.trace)
    (hl0 : 0 ≤ l0) (hl1 : l0 ≤ (n : Int))
    (hr0 : 0 ≤ r0) (hr1 : r0 ≤ (n : Int))
    (h : CInv n st) : CInv n (updFilter st1 L0 l0 r0) := by
  obtain ⟨hL, hR, hT⟩ := h
  refine ⟨?_, ?_, ?_⟩
  · show InvL n st1.viterbi _ _
    dsimp only [updFilter]
    rw [h1, h2]
    exact invL_upd n st.viterbi st1.viterbi _ _ L0 l0 r0 hvit hsome hl0 hl1 hL
  · show InvR n st1.viterbi _ _
    dsimp only [updFilter]
    rw [h3, h4]
    exact invR_upd n st.viterbi st1.viterbi _ _ L0 l0 r0 hvit hsome hr0 hr1 hR
  · show ∀ rec ∈ st1.trace, GoodRec n rec
    rw [h5]
    exact hT

/-- What one split-point step (and hence the whole split loop) does to the
state: only the chart and the single cell `(lhs, left, right)` change, the
`foundbetter` flag is monotone, and a freshly set flag means the cell is
now derived. -/
def MidOk (rule : Rule) (left right : Int) (st : CFGState) (b : Bool)
    (st1 : CFGState) (b1 : Bool) : Prop :=
  (∀ (L : Nat) (l r : Int), ¬(L = rule.lhs ∧ l = left ∧ r = right) →
    st1.viterbi L l r = st.viterbi L l r) ∧
  st1.minsplitleft = st.minsplitleft ∧
  st1.maxsplitleft = st.maxsplitleft ∧
  st1.minsplitright = st.minsplitright ∧
  st1.maxsplitright = st.maxsplitright ∧
  st1.trace = st.trace ∧
  (b = true → b1 = true) ∧
  (b1 = false →
    st1.viterbi rule.lhs left right = st.viterbi rule.lhs left right) ∧
  ((st.viterbi rule.lhs left right).isSome = true →
    (st1.viterbi rule.lhs left right).isSome = true) ∧
  (b1 = true → b = true ∨ (st1.viterbi rule.lhs left right).isSome = true)

theorem midok_refl (rule : Rule) (left right : Int) (st : CFGState)
    (b : Bool) : MidOk rule left right st b st b :=
  ⟨fun _ _ _ _ => rfl, rfl, rfl, rfl, rfl, rfl, fun h => h, fun _ => rfl,
    fun h => h, fun h => Or.inl h⟩

theorem midok_trans (rule : Rule) (left right : Int) (st : CFGState)
    (b : Bool) (st1 : CFGState) (b1 : Bool) (st2 : CFGState) (b2 : Bool)
    (ha : MidOk rule left right st b st1 b1)
    (hb : MidOk rule left right st1 b1 st2 b2) :
    MidOk rule left right st b st2 b2 := by
  obtain ⟨a1, a2, a3, a4, a5, a6, a7, a8, a9, a10⟩ := ha
  obtain ⟨b1', b2', b3', b4', b5', b6', b7', b8', b9', b10'⟩ := hb
  refine ⟨fun L l r hn => (b1' L l r hn).trans (a1 L l r hn),
    b2'.trans a2, b3'.trans a3, b4'.trans a4, b5'.trans a5, b6'.trans a6,
    fun h => b7' (a7 h), ?_, fun h => b9' (a9 h), ?_⟩
  · intro h
    have hb1 : b1 = false := by
      cases hb1 : b1
      · rfl
      · exact absurd (b7' hb1) (by rw [h]; exact Bool.false_ne_true)
    exact (b8' h).trans (a8 hb1)
  · intro h
    rcases b10' h with h1 | h1
    · rcases a10 h1 with h2 | h2
      · exact Or.inl h2
      · exact Or.inr (b9' h2)
    · exact Or.inr h1


theorem midok_step (rule : Rule) (left right : Int) (st : CFGState)
    (b : Bool) (mid : Int) :
    MidOk rule left right st b (midStep rule left right (st, b) mid).1
      (midStep rule left right (st, b) mid).2 := by
  dsimp only [midStep]
  cases hv1 : st.viterbi rule.rhs1 left mid with
  | none =>
    exact midok_refl rule left right st b
  | some q1 =>
    cases hv2 : st.viterbi rule.rhs2 mid right with
    | none =>
      exact midok_refl rule left right st b
    | some q2 =>
      dsimp only
      split
      · refine ⟨?_, rfl, rfl, rfl, rfl, rfl, fun _ => rfl, ?_, ?_, ?_⟩
        · intro L l r hn
          dsimp only [setVit, appendEdge, setChart]
          rw [if_neg hn]
        · intro hf
          exact Bool.noConfusion hf
        · intro _
          dsimp only [setVit, appendEdge, setChart]
          rw [if_pos ⟨rfl, rfl, rfl⟩]
          rfl
        · intro _
          refine Or.inr ?_
          dsimp only [setVit, appendEdge, setChart]
          rw [if_pos ⟨rfl, rfl, rfl⟩]
          rfl
      · exact ⟨fun L l r _ => rfl, rfl, rfl, rfl, rfl, rfl,
          fun hf => hf, fun _ => rfl, fun hs => hs, fun hf => Or.inl hf⟩

theorem midFold_ok (rule : Rule) (left right : Int) (mids : List Int)
    (st : CFGState) (b : Bool) :
    MidOk rule left right st b
      (mids.foldl (midStep rule left right) (st, b)).1
      (mids.foldl (midStep rule left right) (st, b)).2 := by
  induction mids generalizing st b with
  | nil => exact midok_refl rule left right st b
  | cons m ms ih =>
    rw [List.foldl_cons]
    exact midok_trans rule left right st b
      (midStep rule left right (st, b) m).1
      (midStep rule left right (st, b) m).2 _ _
      (midok_step rule left right st b m)
      (ih (midStep rule left right (st, b) m).1
        (midStep rule left right (st, b) m).2)

/-- The split loop plus the deferred filter update preserve the invariant:
either nothing was newly derived, or the cell just turned finite and the
update records it. -/
theorem cinv_binDefer (n : Nat) (st : CFGState) (left right : Int)
    (rule : Rule) (mids : List Int)
    (hl0 : 0 ≤ left) (hl1 : left ≤ (n : Int))
    (hr0 : 0 ≤ right) (hr1 : right ≤ (n : Int)) (h : CInv n st) :
    CInv n (binDefer rule left right (st.viterbi rule.lhs left right)
      (mids.foldl (midStep rule left right) (st, false))) := by
  obtain ⟨m1, m2, m3, m4, m5, m6, m7, m8, m9, m10⟩ :=
    midFold_ok rule left right mids st false
  unfold binDefer
  split
  · next hcond =>
    refine cinv_upd n st _ rule.lhs left right m1 ?_ m2 m3 m4 m5 m6
      hl0 hl1 hr0 hr1 h
    rcases m10 hcond.1 with h1 | h1
    · exact Bool.noConfusion h1
    · exact h1
  · next hcond =>
    refine cinv_of_eqs n st _ ?_ m2 m3 m4 m5 m6 h
    intro L l r
    by_cases hcc : L = rule.lhs ∧ l = left ∧ r = right
    · obtain ⟨e1, e2, e3⟩ := hcc
      rw [e1, e2, e3]
      cases hb2 : (mids.foldl (midStep rule left right) (st, false)).2 with
      | false => rw [m8 hb2]
      | true =>
        have hold : ¬ st.viterbi rule.lhs left right = none :=
          fun he => hcond ⟨hb2, he⟩
        have hs1 : (st.viterbi rule.lhs left right).isSome = true := by
          cases hx : st.viterbi rule.lhs left right with
          | none => exact absurd hx hold
          | some q => rfl
        rw [m9 hs1, hs1]
    · rw [m1 L l r hcc]

theorem cinv_binSplits (n : Nat) (st : CFGState) (left right : Int)
    (rule : Rule) (hl0 : 0 ≤ left) (hl1 : left ≤ (n : Int))
    (hr0 : 0 ≤ right) (hr1 : right ≤ (n : Int)) (h : CInv n st) :
    CInv n (binSplits st left right rule) := by
  unfold binSplits
  exact cinv_binDefer n st left right rule _ hl0 hl1 hr0 hr1 h

theorem cinv_binRule (n : Nat) (st : CFGState) (left right : Int)
    (rule : Rule) (hl0 : 0 ≤ left) (hl1 : left ≤ (n : Int))
    (hr0 : 0 ≤ right) (hr1 : right ≤ (n : Int)) (h : CInv n st) :
    CInv n (binRule n left right st rule) := by
  unfold binRule
  split
  · exact h
  · have h2 : CInv n (addRec st (consultRec st n left right rule)) :=
      cinv_addRec n st _ h
        (consult_good n st left right rule h.1 h.2.1)
    unfold binFiltered
    split
    · exact h2
    · split
      · exact h2
      · exact cinv_binSplits n _ left right rule hl0 hl1 hr0 hr1 h2

theorem cinv_binPhase (n : Nat) (g : Grammar) (st : CFGState)
    (left right : Int) (hl0 : 0 ≤ left) (hl1 : left ≤ (n : Int))
    (hr0 : 0 ≤ right) (hr1 : right ≤ (n : Int)) (h : CInv n st) :
    CInv n (binPhase g n left right st) := by
  unfold binPhase
  exact foldl_preserve_mem (CInv n) _ _ st
    (fun s a _ hs => cinv_binRule n s left right a hl0 hl1 hr0 hr1 hs) h

theorem cinv_unaryRuleStep (n : Nat) (left right : Int) (rhs1 : Nat)
    (p : CFGState × List (Nat × ℚ)) (rule : Rule)
    (hl0 : 0 ≤ left) (hl1 : left ≤ (n : Int))
    (hr0 : 0 ≤ right) (hr1 : right ≤ (n : Int)) (h : CInv n p.1) :
    CInv n (unaryRuleStep left right rhs1 p rule).1 := by
  unfold unaryRuleStep
  split
  · refine cinv_upd n p.1 _ rule.lhs left right ?_ ?_ rfl rfl rfl rfl rfl
      hl0 hl1 hr0 hr1 h
    · intro L l r hn
      dsimp only [setVit, appendEdge, setChart]
      rw [if_neg hn]
    · dsimp only [setVit, appendEdge, setChart]
      rw [if_pos ⟨rfl, rfl, rfl⟩]
      rfl
  · exact cinv_of_eqs n p.1 _ (fun L l r => rfl) rfl rfl rfl rfl rfl h

theorem cinv_unaryPopStep (n : Nat) (g : Grammar) (left right : Int)
    (rhs1 : Nat) (st : CFGState) (ag : List (Nat × ℚ))
    (hl0 : 0 ≤ left) (hl1 : left ≤ (n : Int))
    (hr0 : 0 ≤ right) (hr1 : right ≤ (n : Int)) (h : CInv n st) :
    CInv n (unaryPopStep g left right rhs1 st ag).1 := by
  unfold unaryPopStep
  exact foldl_preserve_mem (fun q => CInv n q.1) _ _ (st, ag)
    (fun s a _ hs => cinv_unaryRuleStep n left right rhs1 s a
      hl0 hl1 hr0 hr1 hs) h

theorem cinv_unaryClose (n : Nat) (g : Grammar) (left right : Int)
    (fuel : Nat) (st : CFGState) (ag : List (Nat × ℚ))
    (hl0 : 0 ≤ left) (hl1 : left ≤ (n : Int))
    (hr0 : 0 ≤ right) (hr1 : right ≤ (n : Int)) (h : CInv n st) :
    CInv n (unaryClose g left right fuel st ag) := by
  induction fuel generalizing st ag with
  | zero => exact h
  | succ fuel ih =>
    rw [unaryClose]
    cases hpop : upop ag with
    | none => exact h
    | some e =>
      dsimp only
      exact ih _ _ (cinv_unaryPopStep n g left right e.1.1 st e.2
        hl0 hl1 hr0 hr1 h)


theorem cinv_cellStep (n : Nat) (g : Grammar) (fuel : Nat) (st : CFGState)
    (left right : Int) (hl0 : 0 ≤ left) (hl1 : left ≤ (n : Int))
    (hr0 : 0 ≤ right) (hr1 : right ≤ (n : Int)) (h : CInv n st) :
    CInv n (cellStep g n fuel st left right) := by
  unfold cellStep
  exact cinv_unaryClose n g left right fuel _ _ hl0 hl1 hr0 hr1
    (cinv_binPhase n g st left right hl0 hl1 hr0 hr1 h)

theorem cinv_spanPhase (n : Nat) (g : Grammar) (fuel : Nat) (st : CFGState)
    (h : CInv n st) : CInv n (spanPhase g n fuel st) := by
  unfold spanPhase
  refine foldl_preserve_mem (CInv n) _ _ st ?_ h
  intro s span hspan hs
  refine foldl_preserve_mem (CInv n) _ _ s ?_ hs
  intro s2 left hleft hs2
  have hspan1 := List.mem_range'_1.mp hspan
  have hleft1 := List.mem_range.mp hleft
  refine cinv_cellStep n g fuel s2 (left : Int) ((left : Int) + (span : Int))
    (by omega) (by omega) (by omega) (by omega) hs2

theorem cinv_posTerm (n : Nat) (g : Grammar) (tags : Option (List String))
    (i : Nat) (p : CFGState × Bool) (ter : LexicalRule)
    (hi : i + 1 ≤ n) (h : CInv n p.1) :
    CInv n (posTerm g tags i p ter).1 := by
  unfold posTerm
  split
  · refine cinv_upd n p.1 _ ter.lhs (i : Int) ((i : Int) + 1) ?_ ?_
      rfl rfl rfl rfl rfl (by omega) (by omega) (by omega) (by omega) h
    · intro L l r hn
      dsimp only [setVit, setChart]
      rw [if_neg hn]
    · dsimp only [setVit, setChart]
      rw [if_pos ⟨rfl, rfl, rfl⟩]
      rfl
  · exact h

theorem cinv_tagFallback (n : Nat) (g : Grammar)
    (tags : Option (List String)) (i : Nat) (st : CFGState)
    (hi : i + 1 ≤ n) (h : CInv n st) :
    CInv n (tagFallback g tags i st) := by
  unfold tagFallback
  refine cinv_upd n st _ ((g.toid (tagAt tags i)).getD 0) (i : Int)
    ((i : Int) + 1) ?_ ?_ rfl rfl rfl rfl rfl
    (by omega) (by omega) (by omega) (by omega) h
  · intro L l r hn
    dsimp only [setVit, setChart]
    rw [if_neg hn]
  · dsimp only [setVit, setChart]
    rw [if_pos ⟨rfl, rfl, rfl⟩]
    rfl

theorem cinv_posFinish (n : Nat) (g : Grammar) (tags : Option (List String))
    (fuel i : Nat) (p : CFGState × Bool) (hi : i + 1 ≤ n)
    (h : CInv n p.1) :
    (∀ st', posFinish g tags fuel i p = .error st' → CInv n st') ∧
    (∀ st', posFinish g tags fuel i p = .ok st' → CInv n st') := by
  unfold posFinish
  split
  · constructor
    · intro st' he
      exact Except.noConfusion he
    · intro st' he
      rw [← Except.ok.inj he]
      unfold posUnary
      exact cinv_unaryClose n g (i : Int) ((i : Int) + 1) fuel _ _
        (by omega) (by omega) (by omega) (by omega) h
  · split
    · constructor
      · intro st' he
        exact Except.noConfusion he
      · intro st' he
        rw [← Except.ok.inj he]
        unfold posUnary
        exact cinv_unaryClose n g (i : Int) ((i : Int) + 1) fuel _ _
          (by omega) (by omega) (by omega) (by omega)
          (cinv_tagFallback n g tags i p.1 hi h)
    · constructor
      · intro st' he
        rw [← Except.error.inj he]
        exact h
      · intro st' he
        exact Except.noConfusion he

theorem cinv_posStep (n : Nat) (g : Grammar) (tags : Option (List String))
    (fuel : Nat) (st : CFGState) (e : Nat × String)
    (hi : e.1 + 1 ≤ n) (h : CInv n st) :
    (∀ st', posStep g tags fuel st e = .error st' → CInv n st') ∧
    (∀ st', posStep g tags fuel st e = .ok st' → CInv n st') := by
  unfold posStep
  have hfold : CInv n ((g.lexical e.2).foldl (posTerm g tags e.1)
      (st, false)).1 :=
    foldl_preserve_mem (fun q => CInv n q.1) _ _ (st, false)
      (fun s a _ hs => cinv_posTerm n g tags e.1 s a hi hs) h
  exact cinv_posFinish n g tags fuel e.1 _ hi hfold

theorem cinv_posFold (n : Nat) (g : Grammar) (tags : Option (List String))
    (fuel : Nat) (es : List (Nat × String)) (st : CFGState)
    (hb : ∀ p ∈ es, p.1 + 1 ≤ n) (h : CInv n st) :
    (∀ st', es.foldlM (posStep g tags fuel) st = .error st' → CInv n st') ∧
    (∀ st', es.foldlM (posStep g tags fuel) st = .ok st' → CInv n st') := by
  induction es generalizing st with
  | nil =>
    constructor
    · intro st' he
      rw [List.foldlM_nil] at he
      exact Except.noConfusion he
    · intro st' he
      rw [List.foldlM_nil] at he
      have he2 : Except.ok (ε := CFGState) st = Except.ok st' := he
      rw [← Except.ok.inj he2]
      exact h
  | cons e es ih =>
    have hps := cinv_posStep n g tags fuel st e
      (hb e (List.mem_cons_self e es)) h
    constructor
    · intro st' he
      rw [List.foldlM_cons] at he
      cases hstep : posStep g tags fuel st e with
      | error st1 =>
        rw [hstep] at he
        have he2 : Except.error (α := CFGState) st1 = Except.error st' := he
        rw [← Except.error.inj he2]
        exact hps.1 st1 hstep
      | ok st1 =>
        rw [hstep] at he
        have he2 : es.foldlM (posStep g tags fuel) st1 = .error st' := he
        exact (ih st1 (fun q hq => hb q (List.mem_cons_of_mem e hq))
          (hps.2 st1 hstep)).1 st' he2
    · intro st' he
      rw [List.foldlM_cons] at he
      cases hstep : posStep g tags fuel st e with
      | error st1 =>
        rw [hstep] at he
        have he2 : Except.error (α := CFGState) st1 = Except.ok st' := he
        exact Except.noConfusion he2
      | ok st1 =>
        rw [hstep] at he
        have he2 : es.foldlM (posStep g tags fuel) st1 = .ok st' := he
        exact (ih st1 (fun q hq => hb q (List.mem_cons_of_mem e hq))
          (hps.2 st1 hstep)).2 st' he2

theorem cinv_init (n : Nat) : CInv n (initCFG n) := by
  refine ⟨?_, ?_, ?_⟩
  · intro L r
    refine ⟨fun l hln hs => Bool.noConfusion hs, Or.inl rfl, Or.inl rfl⟩
  · intro L l
    refine ⟨fun r hrn hs => Bool.noConfusion hs, Or.inl rfl, Or.inl rfl⟩
  · intro rec hr
    exact absurd hr (List.not_mem_nil rec)

/-- Corrected split-filter invariant of `cfgparse`: at every consult of
the filter matrices by the binary-rule loop, `minsplitleft[L, r]` is the
LARGEST left boundary over which `L` has been derived ending at `r` (its
fill value -1 when none), `maxsplitleft[L, r]` the smallest such left
(fill `lensent + 1`), `minsplitright[L, l]` the smallest derived right
boundary starting at `l` (fill `lensent + 1`) and `maxsplitright[L, l]`
the largest (fill -1) — the min/max roles of the left matrices are the
opposite of their names. -/
theorem cfgparse_filter_invariant (sent : List String) (g : Grammar)
    (start : Nat) (tags : Option (List String)) (fuel : Nat)
    (rec : ConsultRec)
    (hrec : rec ∈ (cfgparse sent g start tags fuel).1.trace) :
    GoodRec sent.length rec := by
  have hb : ∀ p ∈ sent.enum, p.1 + 1 ≤ sent.length := by
    intro p hp
    have h1 := List.mem_enum_iff_getElem?.mp hp
    have h2 : p.1 < sent.length := by
      cases hx : sent[p.1]? with
      | none => rw [hx] at h1; exact Option.noConfusion h1
      | some w => exact (List.getElem?_eq_some.mp hx).1
    omega
  unfold cfgparse at hrec
  cases hfold : sent.enum.foldlM (posStep g tags fuel)
      (initCFG sent.length) with
  | error st' =>
    rw [hfold] at hrec
    dsimp only at hrec
    exact ((cinv_posFold sent.length g tags fuel sent.enum
      (initCFG sent.length) hb (cinv_init sent.length)).1 st' hfold).2.2
      rec hrec
  | ok st' =>
    rw [hfold] at hrec
    dsimp only at hrec
    have hcv := (cinv_posFold sent.length g tags fuel sent.enum
      (initCFG sent.length) hb (cinv_init sent.length)).2 st' hfold
    have hsp := cinv_spanPhase sent.length g fuel st' hcv
    unfold cfgFinish at hrec
    split at hrec
    · exact hsp.2.2 rec hrec
    · exact hsp.2.2 rec hrec


/-- Witness: the consult of `S -> C A` at cell [0,3) in the example run
satisfies the corrected invariant (narrow = largest derived left,
wide = smallest). -/
theorem cfgparse_filter_invariant_wit :
    GoodRec 3 ⟨4, 2, 1, 0, 3, 1, 1, 2, 1, [1], [1, 2]⟩ :=
  cfgparse_filter_invariant ["a", "b", "c"] cfgExampleGrammar 1 none 10
    ⟨4, 2, 1, 0, 3, 1, 1, 2, 1, [1], [1, 2]⟩ (by decide)


/-! ## kbest.pyx: Huang & Chiang lazy k-best enumeration (C6) -/

/-- containers `RankedEdge`: a derivation of `head` built from `edge` with
the `left`-th best subderivation of the left child and the `right`-th best
of the right child (`right = -1` when the edge has no right child). -/
structure RankedEdge where
  head : SmallChartItem
  edge : Edge
  left : Nat
  right : Int
  deriving Repr, DecidableEq

def defaultEdge : Edge := ⟨0, 0, 0, 0, NONE, NONE⟩

def dummyRE : RankedEdge × ℚ := (⟨NONE, defaultEdge, 0, -1⟩, 0)

/-- The k-best chart: items to their edge lists (the values of the Python
per-item edge dict, in insertion order). -/
abbrev KChart := List (SmallChartItem × List Edge)

abbrev DMap := List (SmallChartItem × List (RankedEdge × ℚ))

/-- The edge list of a chart cell (empty for a missing item). -/
def chartEdges (chart : KChart) (v : SmallChartItem) : List Edge :=
  (alookup chart v).getD []

/-- The entry list a ranked map holds for an item (empty when absent). -/
def entsOf (D : DMap) (v : SmallChartItem) : List (RankedEdge × ℚ) :=
  (alookup D v).getD []

/-- The inside score of `min(chart[ei])` under the `Edge` comparison
(by score, first-minimal); totalized to 0 where the Python would raise
(missing or empty cell). -/
def minInside (chart : KChart) (c : SmallChartItem) : ℚ :=
  match alookup chart c with
  | some (e :: es) =>
    ((e :: es).foldl (fun b x => if x.score < b.score then x else b) e).inside
  | _ => 0

/-- Modelled from the spec: one extraction step of `nsmallest`
(agenda.pyx is absent from the sources) — remove a first-minimal edge. -/
def eminExtract (es : List Edge) : Option (Edge × List Edge) :=
  match es with
  | [] => none
  | e :: _ =>
    some (es.foldl (fun b x => if x.score < b.score then x else b) e,
      es.eraseP (fun x =>
        decide (x = es.foldl (fun b y => if y.score < b.score then y else b) e)))

/-- Modelled from the spec: `nsmallest k` — the k smallest edges, stable
(insertion order resolves ties). -/
def nsmallest : Nat → List Edge → List Edge
  | 0, _ => []
  | Nat.succ k, es =>
    match eminExtract es with
    | none => []
    | some (e, rest) => e :: nsmallest k rest

/-- kbest lines 14-27: the seed candidates of a vertex — up to `k` best
edges, ranked (0, 0) (or (0, -1) without a right child), priority the
edge's inside score. -/
def getcandidates (chart : KChart) (v : SmallChartItem) (k : Nat) :
    List (RankedEdge × ℚ) :=
  match alookup chart v with
  | none => []
  | some es => (nsmallest k es).map (fun el =>
      (⟨v, el, 0, if el.right.label ≠ 0 then 0 else -1⟩, el.inside))

/-- Modelled from the spec: `Agenda.popentry` for the candidate heaps —
extract a first-minimal entry by priority (FIFO tie-breaking). -/
def kpop (ag : List (RankedEdge × ℚ)) :
    Option ((RankedEdge × ℚ) × List (RankedEdge × ℚ)) :=
  match ag with
  | [] => none
  | e :: _ =>
    some (ag.foldl (fun b p => if p.2 < b.2 then p else b) e,
      ag.eraseP (fun p =>
        decide (p.1 = (ag.foldl (fun b q => if q.2 < b.2 then q else b) e).1)))

/-- The mutable state of lazykthbest: the ranked chart `D`, the candidate
heaps `cand` and the `explored` set (as an insertion-ordered list). -/
structure KState where
  D : DMap
  cand : DMap
  explored : List RankedEdge
  deriving Repr

/-- The pending call of the interpreter: lazykthbest entry, one iteration
of its while loop, the candidate pop, and the two neighbor chunks of
lazynext. -/
inductive KCall : Type
  | kth (v : SmallChartItem) (k : Nat)
  | loop (v : SmallChartItem) (k : Nat)
  | pop (v : SmallChartItem) (k : Nat)
  | next (ej : RankedEdge)
  | next2 (ej : RankedEdge)

def lenD (st : KState) (v : SmallChartItem) : Nat :=
  (entsOf st.D v).length

/-- Lines 35-37: `if v not in cand: cand[v] = getcandidates(chart, v, k1)`. -/
def seedIfAbsent (chart : KChart) (k1 : Nat) (st : KState)
    (v : SmallChartItem) : KState :=
  if acontains st.cand v then st
  else { st with cand := aset st.cand v (getcandidates chart v k1) }

/-- Lines 46-48: `if cand[v]: D.setdefault(v, []).append(cand[v].popentry())
else: break`. -/
def popAppend (st : KState) (v : SmallChartItem) : Option KState :=
  match kpop (entsOf st.cand v) with
  | none => none
  | some (e, rest) =>
    some { st with
      D := aset st.D v (entsOf st.D v ++ [e]),
      cand := aset st.cand v rest }

/-- kbest lines 76-94 (`getprob`): the candidate's priority — the rule
probability plus the referenced ranked subderivation values (rank 0 of an
unvisited item reads the best inside score from the chart).  Accesses the
Python would fail on (an out-of-range rank, a missing chart cell) are
totalized to 0. -/
def getprob (chart : KChart) (D : DMap) (ej : RankedEdge) : ℚ :=
  (ej.edge.prob +
    (match alookup D ej.edge.left with
     | some es => (es.getD ej.left dummyRE).2
     | none => if ej.left = 0 then minInside chart ej.edge.left else 0)) +
  (if 0 ≤ ej.right then
    (match alookup D ej.edge.right with
     | some es => (es.getD ej.right.toNat dummyRE).2
     | none => if ej.right = 0 then minInside chart ej.edge.right else 0)
   else 0)

/-- Lines 71-74: queue the accepted candidate with its `getprob` priority
and mark it explored. -/
def insertCand (chart : KChart) (st : KState) (ej1 : RankedEdge) : KState :=
  { st with
    cand := aset st.cand ej1.head
      (aset (entsOf st.cand ej1.head) ej1 (getprob chart st.D ej1)),
    explored := st.explored ++ [ej1] }

/-- Lines 69-74: the candidate is accepted iff the incremented child has
that many ranked derivations and the candidate was never queued before. -/
def insStep (chart : KChart) (st : KState) (ej1 : RankedEdge)
    (ei : SmallChartItem) (rank : Nat) : KState :=
  if acontains st.D ei = true ∧ rank < lenD st ei ∧ ej1 ∉ st.explored then
    insertCand chart st ej1
  else st

def mkSucc0 (ej : RankedEdge) : RankedEdge := { ej with left := ej.left + 1 }

def mkSucc1 (ej : RankedEdge) : RankedEdge := { ej with right := ej.right + 1 }

/-- kbest lines 29-74: `lazykthbest` and `lazynext` as one fueled
interpreter.  `.kth` seeds the heap and enters the while loop; `.loop`
tests `v not in D or len(D[v]) < k` and expands the successors of the last
derivation; `.pop` appends the next-best candidate and iterates; `.next` /
`.next2` are the left and right neighbor chunks of lazynext (the right
chunk only when the rank vector has a right component).  Exhausted fuel
leaves the state unchanged. -/
def kstep (chart : KChart) (k1 : Nat) : Nat → KCall → KState → KState
  | 0, _, st => st
  | Nat.succ fuel, .kth v k, st =>
    kstep chart k1 fuel (.loop v k) (seedIfAbsent chart k1 st v)
  | Nat.succ fuel, .loop v k, st =>
    if ¬ acontains st.D v = true ∨ lenD st v < k then
      kstep chart k1 fuel (.pop v k)
        (match alookup st.D v with
         | some es =>
           match es.getLast? with
           | some e => kstep chart k1 fuel (.next e.1) st
           | none => st
         | none => st)
    else st
  | Nat.succ fuel, .pop v k, st =>
    match popAppend st v with
    | some st2 => kstep chart k1 fuel (.loop v k) st2
    | none => st
  | Nat.succ fuel, .next ej, st =>
    kstep chart k1 fuel (.next2 ej)
      (insStep chart
        (kstep chart k1 fuel (.kth ej.edge.left (ej.left + 2)) st)
        (mkSucc0 ej) ej.edge.left (ej.left + 1))
  | Nat.succ fuel, .next2 ej, st =>
    if 0 ≤ ej.right then
      insStep chart
        (kstep chart k1 fuel (.kth ej.edge.right (ej.right.toNat + 2)) st)
        (mkSucc1 ej) ej.edge.right (ej.right.toNat + 1)
    else st

/-- Modelled from the spec: `SmallChartItem.lexidx` — the word index a
terminal item stores in its span slot. -/
def lexidx (it : SmallChartItem) : Nat := it.vec

def natStrAux : Nat → Nat → String
  | 0, _ => ""
  | Nat.succ f, n =>
    if n < 10 then ["0", "1", "2", "3", "4", "5", "6", "7", "8", "9"].getD n "0"
    else natStrAux f (n / 10) ++
      ["0", "1", "2", "3", "4", "5", "6", "7", "8", "9"].getD (n % 10) "0"

/-- Decimal rendering of `"%d" % i`. -/
def natStr (n : Nat) : String := natStrAux (n + 1) n

/-- Lines 352-354: wrap the children in a bracketed node, unless on-the-fly
debinarization drops the label. -/
def gdWrap (tolabel : Nat → String) (debin : Option String)
    (ej : RankedEdge) (s : String) : String :=
  match debin with
  | some d =>
    if ((tolabel ej.head.label).splitOn d).length > 1 then s
    else "(" ++ tolabel ej.head.label ++ " " ++ s ++ ")"
  | none => "(" ++ tolabel ej.head.label ++ " " ++ s ++ ")"

/-- kbest lines 319-354 (`getderivation`): render the ranked derivation as
a bracketed tree string; the child walk visits the left child (a terminal
prints its word index and ends the walk) and then the right child if the
rank vector has one; a failing child propagates the empty string; the
depth guard `n > 100` is the fuel. -/
def getderivation (chart : KChart) (D : DMap) (tolabel : Nat → String)
    (debin : Option String) : Nat → RankedEdge → String
  | 0, _ => ""
  | Nat.succ m, ej =>
    if ¬ acontains chart ej.edge.left = true then
      gdWrap tolabel debin ej (natStr (lexidx ej.edge.left))
    else
      match getderivation chart D tolabel debin m
          (((alookup D ej.edge.left).getD []).getD ej.left dummyRE).1 with
      | "" => ""
      | c1 =>
        if ej.right < 0 then gdWrap tolabel debin ej c1
        else if ¬ acontains chart ej.edge.right = true then
          gdWrap tolabel debin ej (natStr (lexidx ej.edge.right))
        else
          match getderivation chart D tolabel debin m
              (((alookup D ej.edge.right).getD []).getD ej.right.toNat
                dummyRE).1 with
          | "" => ""
          | c2 => gdWrap tolabel debin ej (c1 ++ " " ++ c2)

/-- kbest lines 295-317 (`explorederivation`): walk a ranked derivation,
seeding rank-0 entries for items not yet in `D`; returns False past the
depth guard; the walk mirrors getderivation (left child, then the right
child if present; a terminal child ends the walk successfully). -/
def explorederivation (chart : KChart) : Nat → RankedEdge → DMap →
    Bool × DMap
  | 0, _, D => (false, D)
  | Nat.succ m, ej, D =>
    if ¬ acontains chart ej.edge.left = true then (true, D)
    else
      match (if acontains D ej.edge.left = true then some D
        else match kpop (getcandidates chart ej.edge.left 1) with
          | some (e, _) => some (aset D ej.edge.left [e])
          | none => none) with
      | none => (false, D)
      | some D1 =>
        match explorederivation chart m
            (((alookup D1 ej.edge.left).getD []).getD ej.left dummyRE).1
            D1 with
        | (false, D2) => (false, D2)
        | (true, D2) =>
          if ej.right < 0 then (true, D2)
          else if ¬ acontains chart ej.edge.right = true then (true, D2)
          else
            match (if acontains D2 ej.edge.right = true then some D2
              else match kpop (getcandidates chart ej.edge.right 1) with
                | some (e, _) => some (aset D2 ej.edge.right [e])
                | none => none) with
            | none => (false, D2)
            | some D3 =>
              match explorederivation chart m
                  (((alookup D3 ej.edge.right).getD []).getD
                    ej.right.toNat dummyRE).1 D3 with
              | (false, D4) => (false, D4)
              | (true, D4) => (true, D4)

/-- Lines 389-390: filter `D[goal]` by explorederivation, which may seed
missing best entries into `D` as it walks. -/
def filterExplore (chart : KChart) :
    List (RankedEdge × ℚ) → DMap → List (RankedEdge × ℚ) × DMap
  | [], D => ([], D)
  | e :: es, D =>
    match explorederivation chart 101 e.1 D with
    | (true, D1) =>
      ((filterExplore chart es D1).1.cons e, (filterExplore chart es D1).2)
    | (false, D1) => filterExplore chart es D1

def lazykbestFinish (chart : KChart) (goal : SmallChartItem)
    (tolabel : Nat → String) (debin : Option String)
    (p : List (RankedEdge × ℚ) × DMap) : List (String × ℚ) × DMap :=
  (p.1.map (fun e =>
     (getderivation chart (aset p.2 goal p.1) tolabel debin 101 e.1, e.2)),
   aset p.2 goal p.1)

/-- kbest lines 356-395 (`lazykbest`, LCFRS branch, derivs=True): run
lazykthbest from the goal, filter `D[goal]` through explorederivation and
render the surviving entries; `none` models the KeyError when the goal
never enters `D`. -/
def lazykbest (chart : KChart) (goal : SmallChartItem) (k : Nat)
    (tolabel : Nat → String) (debin : Option String) (fuel : Nat) :
    Option (List (String × ℚ) × DMap) :=
  match alookup (kstep chart k fuel (.kth goal k) ⟨[], [], []⟩).D goal with
  | none => none
  | some entries =>
    some (lazykbestFinish chart goal tolabel debin
      (filterExplore chart entries
        (kstep chart k fuel (.kth goal k) ⟨[], [], []⟩).D))


/-- A finished chart where item V (label 1, span 1) has two distinct edges
— different rule numbers, as a DOP reduction produces — with equal
probability, equal inside score and the same terminal yield. -/
def kbexChart : KChart :=
  [(⟨1, 1⟩, [⟨1, 1, 1, 1, ⟨0, 0⟩, ⟨0, 0⟩⟩, ⟨1, 1, 1, 2, ⟨0, 0⟩, ⟨0, 0⟩⟩])]

/-- Counterexample to the no-duplicates half of the claim: both ranked
derivations of the goal render to the same tree string with the same
weight, so the returned derivations list holds the entry ("(V 0)", 1)
twice (the ranked edges themselves differ only in their rule). -/
theorem lazykbest_duplicate_derivations :
    ((lazykbest kbexChart ⟨1, 1⟩ 5 (fun n => ["Epsilon", "V"].getD n "")
        none 30).map Prod.fst = some [("(V 0)", 1), ("(V 0)", 1)]) ∧
    ¬ (((lazykbest kbexChart ⟨1, 1⟩ 5 (fun n => ["Epsilon", "V"].getD n "")
        none 30).map Prod.fst).getD []).Nodup := by
  constructor
  · decide
  · decide

theorem find_map_aset_ne {α β : Type} [DecidableEq α] (l : List (α × β))
    (k k' : α) (v : β) (h : k' ≠ k) :
    (l.map (fun p => if p.1 = k then (k, v) else p)).find?
      (fun p => decide (p.1 = k')) = l.find? (fun p => decide (p.1 = k')) := by
  induction l with
  | nil => rfl
  | cons p t ih =>
    simp only [List.map_cons, List.find?_cons]
    by_cases hp : p.1 = k
    · have h1 : (decide ((if p.1 = k then (k, v) else p).1 = k')) = false := by
        rw [if_pos hp]
        exact decide_eq_false (fun he => h he.symm)
      have h2 : (decide (p.1 = k')) = false :=
        decide_eq_false (fun he => h (he ▸ hp))
      rw [h1, h2]
      exact ih
    · rw [if_neg hp]
      by_cases hk' : p.1 = k'
      · rw [decide_eq_true hk']
      · rw [decide_eq_false hk']
        exact ih

theorem alookup_aset_ne {α β : Type} [DecidableEq α] (l : List (α × β))
    (k k' : α) (v : β) (h : k' ≠ k) :
    alookup (aset l k v) k' = alookup l k' := by
  unfold aset
  split
  · unfold alookup
    rw [find_map_aset_ne l k k' v h]
  · unfold alookup
    rw [List.find?_append]
    have h1 : ([(k, v)].find? (fun p => decide (p.1 = k'))) = none := by
      simp only [List.find?_cons, List.find?_nil]
      rw [decide_eq_false (fun he : (k, v).1 = k' => h he.symm)]
    rw [h1]
    cases hf : l.find? (fun p => decide (p.1 = k')) <;> rfl

theorem acontains_aset_mono {α β : Type} [DecidableEq α] (l : List (α × β))
    (k k' : α) (v : β) (h : acontains l k' = true) :
    acontains (aset l k v) k' = true := by
  by_cases hk : k' = k
  · rw [hk]
    exact acontains_aset_self l k v
  · obtain ⟨w, hw⟩ := acontains_ex l k' h
    exact alookup_some_acontains _ _ w (by rw [alookup_aset_ne l k k' v hk]; exact hw)

theorem aset_of_not_contains {α β : Type} [DecidableEq α] (l : List (α × β))
    (k : α) (v : β) (h : acontains l k = false) :
    aset l k v = l ++ [(k, v)] := by
  unfold aset
  rw [if_neg (by rw [h]; exact Bool.false_ne_true)]

theorem foldl_vmin_le {γ : Type} (l : List (γ × ℚ)) (init : γ × ℚ) :
    (l.foldl (fun b p => if p.2 < b.2 then p else b) init).2 ≤ init.2 ∧
    ∀ x ∈ l, (l.foldl (fun b p => if p.2 < b.2 then p else b) init).2 ≤ x.2 := by
  induction l generalizing init with
  | nil => exact ⟨le_refl _, fun x hx => absurd hx (List.not_mem_nil x)⟩
  | cons a t ih =>
    rw [List.foldl_cons]
    obtain ⟨ih1, ih2⟩ := ih (if a.2 < init.2 then a else init)
    have hstep : (if a.2 < init.2 then a else init).2 ≤ init.2 ∧
        (if a.2 < init.2 then a else init).2 ≤ a.2 := by
      by_cases hc : a.2 < init.2
      · rw [if_pos hc]
        exact ⟨le_of_lt hc, le_refl _⟩
      · rw [if_neg hc]
        exact ⟨le_refl _, le_of_not_lt hc⟩
    refine ⟨le_trans ih1 hstep.1, ?_⟩
    intro x hx
    rcases List.mem_cons.mp hx with rfl | hx
    · exact le_trans ih1 hstep.2
    · exact ih2 x hx

theorem foldl_smin_le (l : List Edge) (init : Edge) :
    (l.foldl (fun b x => if x.score < b.score then x else b) init).score ≤
      init.score ∧
    ∀ x ∈ l, (l.foldl (fun b x => if x.score < b.score then x else b)
      init).score ≤ x.score := by
  induction l generalizing init with
  | nil => exact ⟨le_refl _, fun x hx => absurd hx (List.not_mem_nil x)⟩
  | cons a t ih =>
    rw [List.foldl_cons]
    obtain ⟨ih1, ih2⟩ := ih (if a.score < init.score then a else init)
    have hstep : (if a.score < init.score then a else init).score ≤ init.score ∧
        (if a.score < init.score then a else init).score ≤ a.score := by
      by_cases hc : a.score < init.score
      · rw [if_pos hc]
        exact ⟨le_of_lt hc, le_refl _⟩
      · rw [if_neg hc]
        exact ⟨le_refl _, le_of_not_lt hc⟩
    refine ⟨le_trans ih1 hstep.1, ?_⟩
    intro x hx
    rcases List.mem_cons.mp hx with rfl | hx
    · exact le_trans ih1 hstep.2
    · exact ih2 x hx

theorem kpop_spec (ag : List (RankedEdge × ℚ)) (e : RankedEdge × ℚ)
    (rest : List (RankedEdge × ℚ)) (h : kpop ag = some (e, rest)) :
    e ∈ ag ∧ (∀ x ∈ ag, e.2 ≤ x.2) ∧
    rest = ag.eraseP (fun p => decide (p.1 = e.1)) := by
  cases ag with
  | nil => exact Option.noConfusion h
  | cons a t =>
    unfold kpop at h
    have hpair := Option.some.inj h
    have h1 : (a :: t).foldl (fun b p => if p.2 < b.2 then p else b) a = e :=
      congrArg Prod.fst hpair
    have h2 := congrArg Prod.snd hpair
    have hmem : e ∈ a :: t := by
      rcases foldl_choice_mem (a :: t)
          (fun b p => if p.2 < b.2 then p else b)
          (fun b x => by by_cases hc : x.2 < b.2 <;> simp [hc]) a with hh | hh
      · rw [← h1, hh]
        exact List.mem_cons_self a t
      · rw [← h1]
        exact hh
    refine ⟨hmem, ?_, ?_⟩
    · intro x hx
      rw [← h1]
      exact (foldl_vmin_le (a :: t) a).2 x hx
    · dsimp only at h2
      rw [← h2, h1]

theorem eminExtract_spec (es : List Edge) (e : Edge) (rest : List Edge)
    (h : eminExtract es = some (e, rest)) :
    e ∈ es ∧ (∀ x ∈ es, e.score ≤ x.score) ∧
    rest = es.eraseP (fun x => decide (x = e)) := by
  cases es with
  | nil => exact Option.noConfusion h
  | cons a t =>
    unfold eminExtract at h
    have hpair := Option.some.inj h
    have h1 : (a :: t).foldl (fun b x => if x.score < b.score then x else b) a
        = e := congrArg Prod.fst hpair
    have h2 := congrArg Prod.snd hpair
    have hmem : e ∈ a :: t := by
      rcases foldl_choice_mem (a :: t)
          (fun b x => if x.score < b.score then x else b)
          (fun b x => by by_cases hc : x.score < b.score <;> simp [hc]) a with
          hh | hh
      · rw [← h1, hh]
        exact List.mem_cons_self a t
      · rw [← h1]
        exact hh
    refine ⟨hmem, ?_, ?_⟩
    · intro x hx
      rw [← h1]
      exact (foldl_smin_le (a :: t) a).2 x hx
    · dsimp only at h2
      rw [← h2, h1]

theorem not_mem_eraseP_self {α : Type} [DecidableEq α] (es : List α) (e : α)
    (h : es.Nodup) : e ∉ es.eraseP (fun x => decide (x = e)) := by
  induction es with
  | nil => exact List.not_mem_nil e
  | cons a t ih =>
    rw [List.eraseP_cons]
    by_cases ha : a = e
    · rw [decide_eq_true ha]
      simp only [cond_true]
      rw [← ha]
      exact (List.nodup_cons.mp h).1
    · rw [decide_eq_false ha]
      simp only [cond_false]
      intro hmem
      rcases List.mem_cons.mp hmem with he | he
      · exact ha he.symm
      · exact ih (List.nodup_cons.mp h).2 he

theorem not_mem_keys_eraseP (ag : List (RankedEdge × ℚ)) (kk : RankedEdge)
    (h : (ag.map Prod.fst).Nodup) :
    kk ∉ (ag.eraseP (fun p => decide (p.1 = kk))).map Prod.fst := by
  induction ag with
  | nil => exact List.not_mem_nil kk
  | cons a t ih =>
    rw [List.eraseP_cons]
    rw [List.map_cons, List.nodup_cons] at h
    by_cases ha : a.1 = kk
    · rw [decide_eq_true ha]
      simp only [cond_true]
      rw [← ha]
      intro hmem
      exact h.1 (ha ▸ hmem)
    · rw [decide_eq_false ha]
      simp only [cond_false, List.map_cons]
      intro hmem
      rcases List.mem_cons.mp hmem with he | he
      · exact ha he.symm
      · exact ih h.2 he

theorem nsmallest_sub (k : Nat) (es : List Edge) :
    ∀ x ∈ nsmallest k es, x ∈ es := by
  induction k generalizing es with
  | zero => exact fun x hx => absurd hx (List.not_mem_nil x)
  | succ k ih =>
    intro x hx
    rw [nsmallest] at hx
    cases hext : eminExtract es with
    | none => rw [hext] at hx; exact absurd hx (List.not_mem_nil x)
    | some p =>
      rw [hext] at hx
      obtain ⟨hmem, _, hrest⟩ := eminExtract_spec es p.1 p.2 (by rw [hext])
      rcases List.mem_cons.mp hx with rfl | hx
      · exact hmem
      · exact (hrest ▸ List.eraseP_sublist es).mem (ih p.2 x hx)

theorem nsmallest_nodup (k : Nat) (es : List Edge) (h : es.Nodup) :
    (nsmallest k es).Nodup := by
  induction k generalizing es with
  | zero => exact List.nodup_nil
  | succ k ih =>
    rw [nsmallest]
    cases hext : eminExtract es with
    | none => exact List.nodup_nil
    | some p =>
      obtain ⟨hmem, _, hrest⟩ := eminExtract_spec es p.1 p.2 (by rw [hext])
      refine List.nodup_cons.mpr ⟨?_, ih p.2 (hrest ▸ (List.eraseP_sublist es).nodup h)⟩
      intro hx
      have := nsmallest_sub k p.2 p.1 hx
      rw [hrest] at this
      exact not_mem_eraseP_self es p.1 h this

theorem gc_mem (chart : KChart) (v : SmallChartItem) (k : Nat)
    (p : RankedEdge × ℚ) (hp : p ∈ getcandidates chart v k) :
    p.1.head = v ∧ p.1.edge ∈ chartEdges chart v ∧ p.1.left = 0 ∧
    p.1.right = (if p.1.edge.right.label ≠ 0 then 0 else -1) ∧
    p.2 = p.1.edge.inside := by
  unfold getcandidates at hp
  cases hl : alookup chart v with
  | none => rw [hl] at hp; exact absurd hp (List.not_mem_nil p)
  | some es =>
    rw [hl] at hp
    obtain ⟨el, hel, heq⟩ := List.mem_map.mp hp
    have hmem := nsmallest_sub k es el hel
    rw [← heq]
    exact ⟨rfl, by rw [chartEdges, hl]; exact hmem, rfl, rfl, rfl⟩

theorem gc_keys_nodup (chart : KChart) (v : SmallChartItem) (k : Nat)
    (hnd : (chartEdges chart v).Nodup) :
    ((getcandidates chart v k).map Prod.fst).Nodup := by
  unfold getcandidates
  cases hl : alookup chart v with
  | none => exact List.nodup_nil
  | some es =>
    rw [List.map_map]
    refine List.Nodup.map ?_ (nsmallest_nodup k es (by rwa [chartEdges, hl] at hnd))
    intro a b hab
    have := congrArg RankedEdge.edge hab
    exact this

theorem minInside_fold (chart : KChart) (v : SmallChartItem) (a : Edge)
    (t : List Edge) (hl : alookup chart v = some (a :: t)) :
    minInside chart v =
      ((a :: t).foldl (fun b x => if x.score < b.score then x else b) a).inside := by
  unfold minInside
  rw [hl]

theorem minInside_le_inside (chart : KChart) (v : SmallChartItem)
    (hsc : ∀ x ∈ chartEdges chart v, x.score = x.inside) :
    ∀ x ∈ chartEdges chart v, minInside chart v ≤ x.inside := by
  intro x hx
  unfold chartEdges at hx hsc
  cases hl : alookup chart v with
  | none => rw [hl] at hx; exact absurd hx (List.not_mem_nil x)
  | some es =>
    rw [hl] at hx hsc
    cases es with
    | nil => exact absurd hx (List.not_mem_nil x)
    | cons a t =>
      rw [minInside_fold chart v a t hl]
      have hfold := foldl_smin_le (a :: t) a
      have hfmem : ((a :: t).foldl (fun b x => if x.score < b.score then x else b)
          a) ∈ a :: t := by
        rcases foldl_choice_mem (a :: t)
            (fun b x => if x.score < b.score then x else b)
            (fun b x => by by_cases hc : x.score < b.score <;> simp [hc]) a with
            hh | hh
        · rw [hh]; exact List.mem_cons_self a t
        · exact hh
      calc ((a :: t).foldl (fun b x => if x.score < b.score then x else b)
            a).inside
          = ((a :: t).foldl (fun b x => if x.score < b.score then x else b)
            a).score := (hsc _ hfmem).symm
        _ ≤ x.score := hfold.2 x hx
        _ = x.inside := hsc x hx

theorem kpop_seed_min (chart : KChart) (v : SmallChartItem) (k : Nat)
    (hsc : ∀ x ∈ chartEdges chart v, x.score = x.inside)
    (p : RankedEdge × ℚ) (rest : List (RankedEdge × ℚ))
    (h : kpop (getcandidates chart v k) = some (p, rest)) :
    p.2 = minInside chart v := by
  obtain ⟨hmem, hmin, _⟩ := kpop_spec _ _ _ h
  obtain ⟨_, hedge, _, _, hval⟩ := gc_mem chart v k p hmem
  refine le_antisymm ?_ ?_
  · -- p.2 ≤ value of the first seed = inside of the extracted minimum
    cases hgc : getcandidates chart v k with
    | nil => rw [hgc] at hmem; exact absurd hmem (List.not_mem_nil p)
    | cons s t =>
      have hs := hmin s (by rw [hgc]; exact List.mem_cons_self s t)
      -- s is the first seed: its value is the inside of the extracted min
      unfold getcandidates at hgc
      cases hl : alookup chart v with
      | none => rw [hl] at hgc; exact absurd hgc (by simp)
      | some es =>
        rw [hl] at hgc
        cases k with
        | zero => simp only [nsmallest] at hgc; exact absurd hgc (by simp)
        | succ k =>
          simp only [nsmallest] at hgc
          cases hext : eminExtract es with
          | none => rw [hext] at hgc; exact absurd hgc (by simp)
          | some q =>
            rw [hext] at hgc
            obtain ⟨hqmem, hqmin, _⟩ := eminExtract_spec es q.1 q.2 (by rw [hext])
            have hs2 : s.2 = q.1.inside := by
              have := congrArg (fun (l : List (RankedEdge × ℚ)) =>
                l.headD dummyRE) hgc
              simp only [List.map_cons, List.headD_cons] at this
              rw [← this]
            rw [hs2] at hs
            -- q.1.inside = minInside
            cases es with
            | nil => exact absurd hqmem (List.not_mem_nil q.1)
            | cons a t2 =>
              have : q.1 = (a :: t2).foldl
                  (fun b x => if x.score < b.score then x else b) a := by
                unfold eminExtract at hext
                exact (congrArg Prod.fst (Option.some.inj hext)).symm
              rw [minInside_fold chart v a t2 hl, ← this]
              exact hs
  · rw [hval]
    exact minInside_le_inside chart v hsc p.1.edge hedge

theorem acontains_false_alookup {α β : Type} [DecidableEq α]
    (l : List (α × β)) (k : α) (h : acontains l k = false) :
    alookup l k = none := by
  cases hl : alookup l k with
  | none => rfl
  | some v =>
    rw [alookup_some_acontains l k v hl] at h
    exact Bool.noConfusion h

theorem pairwise_le_getD (es : List (RankedEdge × ℚ)) (i j : Nat)
    (hp : List.Pairwise (fun a b => a.2 ≤ b.2) es)
    (hij : i ≤ j) (hj : j < es.length) :
    (es.getD i dummyRE).2 ≤ (es.getD j dummyRE).2 := by
  rcases Nat.eq_or_lt_of_le hij with rfl | hlt
  · exact le_refl _
  · have hi : i < es.length := lt_trans hlt hj
    rw [List.getD_eq_getElem?_getD, List.getD_eq_getElem?_getD,
      List.getElem?_eq_getElem hi, List.getElem?_eq_getElem hj]
    exact List.pairwise_iff_getElem.mp hp i j hi hj hlt

theorem pairwise_le_getLast (es : List (RankedEdge × ℚ))
    (x : RankedEdge × ℚ) (hp : List.Pairwise (fun a b => a.2 ≤ b.2) es)
    (hx : es.getLast? = some x) : ∀ a ∈ es, a.2 ≤ x.2 := by
  induction es with
  | nil => exact fun a ha => absurd ha (List.not_mem_nil a)
  | cons b t ih =>
    intro a ha
    cases t with
    | nil =>
      rw [List.getLast?_singleton] at hx
      rcases List.mem_singleton.mp ha with rfl
      rw [Option.some.inj hx]
    | cons c t2 =>
      have hx2 : (c :: t2).getLast? = some x := by
        rw [← hx, List.getLast?_cons_cons]
      rcases List.mem_cons.mp ha with rfl | ha2
      · exact le_trans
          ((List.pairwise_cons.mp hp).1 c (List.mem_cons_self c t2))
          (ih (List.pairwise_cons.mp hp).2 hx2 c (List.mem_cons_self c t2))
      · exact ih (List.pairwise_cons.mp hp).2 hx2 a ha2

/-- Well-formedness of a ranked entry `(key, value)` stored for vertex `v`
against the chart and the current ranked chart `D`: the key belongs to the
vertex and one of its chart edges, its rank vector shape matches the
edge's arity, referenced ranks exist (or are the rank-0 chart fallback),
and the stored value is the seed inside score or the `getprob` priority. -/
def EntOK (chart : KChart) (D : DMap) (v : SmallChartItem)
    (e : RankedEdge × ℚ) : Prop :=
  e.1.head = v ∧
  e.1.edge ∈ chartEdges chart v ∧
  (e.1.right = -1 ∨ 0 ≤ e.1.right) ∧
  (e.1.right = -1 ↔ e.1.edge.right.label = 0) ∧
  (e.1.left = 0 ∨ (acontains D e.1.edge.left = true ∧
    e.1.left < (entsOf D e.1.edge.left).length)) ∧
  (e.1.right ≤ 0 ∨ (acontains D e.1.edge.right = true ∧
    e.1.right < ((entsOf D e.1.edge.right).length : Int))) ∧
  (e.1.left = 0 ∧ e.1.right ≤ 0 → e.2 = e.1.edge.inside) ∧
  (¬ (e.1.left = 0 ∧ e.1.right ≤ 0) → e.2 = getprob chart D e.1)

/-- The k-best run invariant: every stored entry is well-formed; each
`D[v]` is nondecreasing by value and bounded by every candidate value;
keys are globally distinct per vertex; every non-seed key has been
explored; `D[v]` starts with the vertex's best inside score; a vertex in
`D` has a heap, and an unvisited vertex's heap is still its seed. -/
def KInv (chart : KChart) (k1 : Nat) (st : KState) : Prop :=
  (∀ v, ∀ e ∈ entsOf st.D v, EntOK chart st.D v e) ∧
  (∀ v, ∀ e ∈ entsOf st.cand v, EntOK chart st.D v e) ∧
  (∀ v, List.Pairwise (fun a b => a.2 ≤ b.2) (entsOf st.D v)) ∧
  (∀ v, ∀ a ∈ entsOf st.D v, ∀ b ∈ entsOf st.cand v, a.2 ≤ b.2) ∧
  (∀ v, ((entsOf st.D v).map Prod.fst ++
    (entsOf st.cand v).map Prod.fst).Nodup) ∧
  (∀ v, ∀ e ∈ entsOf st.D v, ¬ (e.1.left = 0 ∧ e.1.right ≤ 0) →
    e.1 ∈ st.explored) ∧
  (∀ v, ∀ e ∈ entsOf st.cand v, ¬ (e.1.left = 0 ∧ e.1.right ≤ 0) →
    e.1 ∈ st.explored) ∧
  (∀ v es, alookup st.D v = some es →
    ∃ h t, es = h :: t ∧ h.2 = minInside chart v) ∧
  (∀ v, acontains st.D v = true → acontains st.cand v = true) ∧
  (∀ v, acontains st.D v = false →
    alookup st.cand v = none ∨
    alookup st.cand v = some (getcandidates chart v k1))

/-- The chart hypotheses of the sortedness theorem: per-vertex edge lists
are duplicate-free (Python dict keys); scores are the (iscored) inside
scores; each edge's inside is its rule probability plus the best inside of
its children (the monotone-hypergraph docstring contract); and a rank
function witnesses acyclicity. -/
def ChartOK (chart : KChart) (rank : SmallChartItem → Nat) : Prop :=
  (∀ p ∈ chart, (p.2 : List Edge).Nodup) ∧
  (∀ p ∈ chart, ∀ e ∈ p.2, e.score = e.inside) ∧
  (∀ p ∈ chart, ∀ e ∈ p.2, e.inside = e.prob + minInside chart e.left +
    (if e.right.label ≠ 0 then minInside chart e.right else 0)) ∧
  (∀ p ∈ chart, ∀ e ∈ p.2, rank e.left < rank p.1 ∧
    (e.right.label ≠ 0 → rank e.right < rank p.1))

def callRank (rank : SmallChartItem → Nat) : KCall → Nat
  | .kth v _ => rank v
  | .loop v _ => rank v
  | .pop v _ => rank v
  | .next ej => rank ej.head
  | .next2 ej => rank ej.head

/-- Precondition of the lazynext chunks: the expanded key is the last
entry of its vertex's ranked list. -/
def CallOK (st : KState) : KCall → Prop
  | .next ej => ∃ val, (entsOf st.D ej.head).getLast? = some (ej, val)
  | .next2 ej => ∃ val, (entsOf st.D ej.head).getLast? = some (ej, val)
  | _ => True

theorem chartEdges_mem (chart : KChart) (v : SmallChartItem) (e : Edge)
    (h : e ∈ chartEdges chart v) : ∃ es, (v, es) ∈ chart ∧ e ∈ es := by
  unfold chartEdges at h
  cases hl : alookup chart v with
  | none => rw [hl] at h; exact absurd h (List.not_mem_nil e)
  | some es =>
    rw [hl] at h
    unfold alookup at hl
    cases hf : chart.find? (fun p => decide (p.1 = v)) with
    | none => rw [hf] at hl; exact Option.noConfusion hl
    | some p =>
      rw [hf] at hl
      have hp := List.find?_some hf
      have hpv : p.1 = v := of_decide_eq_true hp
      have hmem := List.mem_of_find?_eq_some hf
      refine ⟨es, ?_, h⟩
      have : p.2 = es := Option.some.inj hl
      rw [← hpv, ← this]
      exact hmem

theorem kinv_init (chart : KChart) (k1 : Nat) :
    KInv chart k1 ⟨[], [], []⟩ := by
  refine ⟨?_, ?_, ?_, ?_, ?_, ?_, ?_, ?_, ?_, ?_⟩
  · intro v e he
    exact absurd he (List.not_mem_nil e)
  · intro v e he
    exact absurd he (List.not_mem_nil e)
  · intro v
    exact List.Pairwise.nil
  · intro v a ha
    exact absurd ha (List.not_mem_nil a)
  · intro v
    exact List.nodup_nil
  · intro v e he
    exact absurd he (List.not_mem_nil e)
  · intro v e he
    exact absurd he (List.not_mem_nil e)
  · intro v es hes
    exact Option.noConfusion hes
  · intro v hv
    exact Bool.noConfusion hv
  · intro v _
    exact Or.inl rfl

theorem alookup_none_acontains {α β : Type} [DecidableEq α]
    (l : List (α × β)) (k : α) (h : alookup l k = none) :
    acontains l k = false := by
  cases hc : acontains l k with
  | false => rfl
  | true =>
    obtain ⟨w, hw⟩ := acontains_ex l k hc
    rw [h] at hw
    exact Option.noConfusion hw

theorem entsOf_aset_self (D : DMap) (v : SmallChartItem)
    (xs : List (RankedEdge × ℚ)) : entsOf (aset D v xs) v = xs := by
  unfold entsOf
  rw [alookup_aset_self]
  rfl

theorem entsOf_aset_ne (D : DMap) (v w : SmallChartItem)
    (xs : List (RankedEdge × ℚ)) (h : w ≠ v) :
    entsOf (aset D v xs) w = entsOf D w := by
  unfold entsOf
  rw [alookup_aset_ne D v w xs h]

theorem lookupPartL_append (chart : KChart) (D : DMap) (v : SmallChartItem)
    (ne : RankedEdge × ℚ)
    (hnonempty : ∀ w es, alookup D w = some es → es ≠ [])
    (hmin : acontains D v = false → ne.2 = minInside chart v)
    (c : SmallChartItem) (i : Nat)
    (hI : i = 0 ∨ (acontains D c = true ∧ i < (entsOf D c).length)) :
    (match alookup (aset D v (entsOf D v ++ [ne])) c with
     | some es => (es.getD i dummyRE).2
     | none => if i = 0 then minInside chart c else 0) =
    (match alookup D c with
     | some es => (es.getD i dummyRE).2
     | none => if i = 0 then minInside chart c else 0) := by
  by_cases hc : c = v
  · subst hc
    rw [alookup_aset_self]
    cases hl : alookup D c with
    | some es =>
      have hes : entsOf D c = es := by
        unfold entsOf
        rw [hl]
        rfl
      rw [hes]
      have hilen : i < es.length := by
        rcases hI with h0 | ⟨_, hlen⟩
        · subst h0
          exact List.length_pos.mpr (hnonempty c es hl)
        · rwa [hes] at hlen
      dsimp only
      rw [List.getD_append es [ne] dummyRE i hilen]
    | none =>
      have hcf : acontains D c = false := alookup_none_acontains D c hl
      have h0 : i = 0 := by
        rcases hI with h0 | ⟨hc2, _⟩
        · exact h0
        · rw [hcf] at hc2
          exact Bool.noConfusion hc2
      subst h0
      have hes : entsOf D c = [] := by
        unfold entsOf
        rw [hl]
        rfl
      rw [hes]
      dsimp only
      simp only [List.nil_append, List.getD_cons_zero, if_pos rfl]
      exact hmin hcf
  · rw [alookup_aset_ne D v c (entsOf D v ++ [ne]) hc]

theorem lookupPartR_append (chart : KChart) (D : DMap) (v : SmallChartItem)
    (ne : RankedEdge × ℚ)
    (hnonempty : ∀ w es, alookup D w = some es → es ≠ [])
    (hmin : acontains D v = false → ne.2 = minInside chart v)
    (c : SmallChartItem) (i : Int) (hpos : 0 ≤ i)
    (hI : i ≤ 0 ∨ (acontains D c = true ∧ i < ((entsOf D c).length : Int))) :
    (match alookup (aset D v (entsOf D v ++ [ne])) c with
     | some es => (es.getD i.toNat dummyRE).2
     | none => if i = 0 then minInside chart c else 0) =
    (match alookup D c with
     | some es => (es.getD i.toNat dummyRE).2
     | none => if i = 0 then minInside chart c else 0) := by
  by_cases hc : c = v
  · subst hc
    rw [alookup_aset_self]
    cases hl : alookup D c with
    | some es =>
      have hes : entsOf D c = es := by
        unfold entsOf
        rw [hl]
        rfl
      rw [hes]
      have hilen : i.toNat < es.length := by
        rcases hI with h0 | ⟨_, hlen⟩
        · have : i = 0 := le_antisymm h0 hpos
          rw [this]
          exact List.length_pos.mpr (hnonempty c es hl)
        · rw [hes] at hlen
          omega
      dsimp only
      rw [List.getD_append es [ne] dummyRE i.toNat hilen]
    | none =>
      have hcf : acontains D c = false := alookup_none_acontains D c hl
      have h0 : i = 0 := by
        rcases hI with h0 | ⟨hc2, _⟩
        · exact le_antisymm h0 hpos
        · rw [hcf] at hc2
          exact Bool.noConfusion hc2
      subst h0
      have hes : entsOf D c = [] := by
        unfold entsOf
        rw [hl]
        rfl
      rw [hes]
      dsimp only
      simp only [List.nil_append, List.getD_cons_zero, if_pos rfl]
      exact hmin hcf
  · rw [alookup_aset_ne D v c (entsOf D v ++ [ne]) hc]

theorem getprob_append (chart : KChart) (D : DMap) (v : SmallChartItem)
    (ne : RankedEdge × ℚ)
    (hnonempty : ∀ w es, alookup D w = some es → es ≠ [])
    (hmin : acontains D v = false → ne.2 = minInside chart v)
    (ej : RankedEdge)
    (hL : ej.left = 0 ∨ (acontains D ej.edge.left = true ∧
      ej.left < (entsOf D ej.edge.left).length))
    (hR : ej.right ≤ 0 ∨ (acontains D ej.edge.right = true ∧
      ej.right < ((entsOf D ej.edge.right).length : Int))) :
    getprob chart (aset D v (entsOf D v ++ [ne])) ej = getprob chart D ej := by
  unfold getprob
  rw [lookupPartL_append chart D v ne hnonempty hmin ej.edge.left ej.left hL]
  by_cases hr : 0 ≤ ej.right
  · rw [if_pos hr, if_pos hr,
      lookupPartR_append chart D v ne hnonempty hmin ej.edge.right ej.right
        hr hR]
  · rw [if_neg hr, if_neg hr]

theorem acontains_aset_ne {α β : Type} [DecidableEq α] (l : List (α × β))
    (k k' : α) (v : β) (h : k' ≠ k) :
    acontains (aset l k v) k' = acontains l k' := by
  cases hc : acontains l k' with
  | false =>
    have h1 := acontains_false_alookup l k' hc
    have h2 : alookup (aset l k v) k' = none := by
      rw [alookup_aset_ne l k k' v h]
      exact h1
    exact alookup_none_acontains _ _ h2
  | true =>
    obtain ⟨w, hw⟩ := acontains_ex l k' hc
    exact alookup_some_acontains _ _ w
      (by rw [alookup_aset_ne l k k' v h]; exact hw)

theorem acontains_mem_keys {α β : Type} [DecidableEq α] (l : List (α × β))
    (k : α) (h : acontains l k = true) : k ∈ l.map Prod.fst := by
  obtain ⟨p, hp, hdec⟩ := List.any_eq_true.1 h
  exact List.mem_map.mpr ⟨p, hp, of_decide_eq_true hdec⟩

theorem keys_not_mem_acontains {α β : Type} [DecidableEq α]
    (l : List (α × β)) (k : α) (h : k ∉ l.map Prod.fst) :
    acontains l k = false := by
  cases hc : acontains l k with
  | false => rfl
  | true => exact absurd (acontains_mem_keys l k hc) h

theorem entsOf_ne_nil_acontains (D : DMap) (v : SmallChartItem)
    (h : entsOf D v ≠ []) : acontains D v = true := by
  unfold entsOf at h
  cases hl : alookup D v with
  | none => rw [hl] at h; exact absurd rfl h
  | some es => exact alookup_some_acontains D v es hl

theorem chartEdges_nodup (chart : KChart) (v : SmallChartItem)
    (hnd : ∀ p ∈ chart, (p.2 : List Edge).Nodup) :
    (chartEdges chart v).Nodup := by
  unfold chartEdges
  cases hl : alookup chart v with
  | none => exact List.nodup_nil
  | some es =>
    unfold alookup at hl
    cases hf : chart.find? (fun p => decide (p.1 = v)) with
    | none => rw [hf] at hl; exact Option.noConfusion hl
    | some p =>
      rw [hf] at hl
      have : p.2 = es := Option.some.inj hl
      rw [← this]
      exact hnd p (List.mem_of_find?_eq_some hf)

theorem chartEdges_score (chart : KChart) (v : SmallChartItem)
    (hsc : ∀ p ∈ chart, ∀ e ∈ p.2, e.score = e.inside) :
    ∀ x ∈ chartEdges chart v, x.score = x.inside := by
  intro x hx
  obtain ⟨es, hmem, hxs⟩ := chartEdges_mem chart v x hx
  exact hsc (v, es) hmem x hxs

theorem entok_append (chart : KChart) (D : DMap) (v : SmallChartItem)
    (ne : RankedEdge × ℚ)
    (hnonempty : ∀ w es, alookup D w = some es → es ≠ [])
    (hmin : acontains D v = false → ne.2 = minInside chart v)
    (w : SmallChartItem) (e : RankedEdge × ℚ)
    (h : EntOK chart D w e) :
    EntOK chart (aset D v (entsOf D v ++ [ne])) w e := by
  obtain ⟨h1, h2, h3, h4, h5, h6, h7, h8⟩ := h
  refine ⟨h1, h2, h3, h4, ?_, ?_, h7, ?_⟩
  · rcases h5 with h0 | ⟨hc, hlen⟩
    · exact Or.inl h0
    · refine Or.inr ⟨acontains_aset_mono _ _ _ _ hc, ?_⟩
      by_cases hcv : e.1.edge.left = v
      · rw [hcv, entsOf_aset_self]
        rw [hcv] at hlen
        rw [List.length_append]
        omega
      · rw [entsOf_aset_ne D v _ _ hcv]
        exact hlen
  · rcases h6 with h0 | ⟨hc, hlen⟩
    · exact Or.inl h0
    · refine Or.inr ⟨acontains_aset_mono _ _ _ _ hc, ?_⟩
      by_cases hcv : e.1.edge.right = v
      · rw [hcv, entsOf_aset_self]
        rw [hcv] at hlen
        rw [List.length_append]
        push_cast
        omega
      · rw [entsOf_aset_ne D v _ _ hcv]
        exact hlen
  · intro hns
    rw [h8 hns]
    exact (getprob_append chart D v ne hnonempty hmin e.1 h5 h6).symm

theorem kinv_seed (chart : KChart) (k1 : Nat) (st : KState)
    (v : SmallChartItem)
    (hnd : ∀ p ∈ chart, (p.2 : List Edge).Nodup)
    (h : KInv chart k1 st) :
    KInv chart k1 (seedIfAbsent chart k1 st v) := by
  obtain ⟨i1, i2, i3, i4, i5, i6, i7, i8, i9, i10⟩ := h
  unfold seedIfAbsent
  split
  · exact ⟨i1, i2, i3, i4, i5, i6, i7, i8, i9, i10⟩
  · next hnc =>
    have hncf : acontains st.cand v = false := by
      cases hc : acontains st.cand v
      · rfl
      · exact absurd hc hnc
    have hDf : acontains st.D v = false := by
      cases hc : acontains st.D v
      · rfl
      · rw [i9 v hc] at hncf
        exact Bool.noConfusion hncf
    have hDe : entsOf st.D v = [] := by
      unfold entsOf
      rw [acontains_false_alookup st.D v hDf]
      rfl
    refine ⟨i1, ?_, i3, ?_, ?_, i6, ?_, i8, ?_, ?_⟩
    · intro w e he
      by_cases hw : w = v
      · subst hw
        rw [entsOf_aset_self] at he
        obtain ⟨hh, hedge, hl0, hrsh, hval⟩ := gc_mem chart w k1 e he
        refine ⟨hh, hedge, ?_, ?_, Or.inl hl0, ?_, fun _ => hval, ?_⟩
        · rw [hrsh]
          split
          · exact Or.inr (by omega)
          · exact Or.inl rfl
        · rw [hrsh]
          constructor
          · intro hm
            split at hm
            · exact absurd hm (by omega)
            · next hlab => exact of_not_not (fun hc => hlab hc)
          · intro hlab
            rw [if_neg (fun hc => hc hlab)]
        · rw [hrsh]
          split <;> [exact Or.inl (by omega); exact Or.inl (by omega)]
        · intro hns
          exact absurd ⟨hl0, by rw [hrsh]; split <;> omega⟩ hns
      · rw [entsOf_aset_ne st.cand v w _ hw] at he
        exact i2 w e he
    · intro w a ha b hb
      by_cases hw : w = v
      · subst hw
        rw [hDe] at ha
        exact absurd ha (List.not_mem_nil a)
      · rw [entsOf_aset_ne st.cand v w _ hw] at hb
        exact i4 w a ha b hb
    · intro w
      by_cases hw : w = v
      · subst hw
        rw [entsOf_aset_self, hDe]
        simp only [List.map_nil, List.nil_append]
        exact gc_keys_nodup chart w k1 (chartEdges_nodup chart w hnd)
      · rw [entsOf_aset_ne st.cand v w _ hw]
        exact i5 w
    · intro w e he hns
      by_cases hw : w = v
      · subst hw
        rw [entsOf_aset_self] at he
        obtain ⟨_, _, hl0, hrsh, _⟩ := gc_mem chart w k1 e he
        exact absurd ⟨hl0, by rw [hrsh]; split <;> omega⟩ hns
      · rw [entsOf_aset_ne st.cand v w _ hw] at he
        exact i7 w e he hns
    · intro w hw
      by_cases hwv : w = v
      · subst hwv
        exact acontains_aset_self st.cand w _
      · rw [acontains_aset_ne st.cand v w _ hwv]
        exact i9 w hw
    · intro w hw
      by_cases hwv : w = v
      · subst hwv
        exact Or.inr (alookup_aset_self st.cand w _)
      · rw [alookup_aset_ne st.cand v w _ hwv]
        exact i10 w hw

theorem kinv_nonempty (chart : KChart) (k1 : Nat) (st : KState)
    (h : KInv chart k1 st) :
    ∀ w es, alookup st.D w = some es → es ≠ [] := by
  intro w es hw
  obtain ⟨hh, tt, heq, _⟩ := h.2.2.2.2.2.2.2.1 w es hw
  rw [heq]
  exact List.cons_ne_nil hh tt

theorem kinv_pop (chart : KChart) (k1 : Nat) (st : KState)
    (v : SmallChartItem) (st2 : KState)
    (hsc : ∀ p ∈ chart, ∀ e ∈ p.2, e.score = e.inside)
    (h : KInv chart k1 st) (hpop : popAppend st v = some st2) :
    KInv chart k1 st2 ∧
    st2.D = aset st.D v (entsOf st.D v ++
      [((kpop (entsOf st.cand v)).getD (dummyRE, [])).1]) ∧
    (∀ w, w ≠ v → alookup st2.D w = alookup st.D w ∧
      alookup st2.cand w = alookup st.cand w) ∧
    st2.explored = st.explored := by
  have hne := kinv_nonempty chart k1 st h
  obtain ⟨i1, i2, i3, i4, i5, i6, i7, i8, i9, i10⟩ := h
  unfold popAppend at hpop
  cases hk : kpop (entsOf st.cand v) with
  | none =>
    rw [hk] at hpop
    exact Option.noConfusion hpop
  | some p =>
    rw [hk] at hpop
    obtain rfl := (Option.some.inj hpop).symm
    have hk2 : kpop (entsOf st.cand v) = some (p.1, p.2) := hk
    obtain ⟨hmem, hminv, hrest⟩ := kpop_spec _ p.1 p.2 hk2
    have hminne : acontains st.D v = false → p.1.2 = minInside chart v := by
      intro hDf
      rcases i10 v hDf with hnone | hseed
      · rw [show entsOf st.cand v = [] by unfold entsOf; rw [hnone]; rfl] at hk2
        exact Option.noConfusion hk2
      · rw [show entsOf st.cand v = getcandidates chart v k1 by
          unfold entsOf; rw [hseed]; rfl] at hk2
        exact kpop_seed_min chart v k1 (chartEdges_score chart v hsc) p.1 p.2 hk2
    have hrsub : ∀ x ∈ p.2, x ∈ entsOf st.cand v := by
      intro x hx
      rw [hrest] at hx
      exact (List.eraseP_sublist _).subset hx
    have hDeq : entsOf (aset st.D v (entsOf st.D v ++ [p.1])) v =
        entsOf st.D v ++ [p.1] := entsOf_aset_self st.D v _
    refine ⟨⟨?_, ?_, ?_, ?_, ?_, ?_, ?_, ?_, ?_, ?_⟩, ?_, ?_, rfl⟩
    · -- 1: D entries well-formed
      intro w e he
      by_cases hw : w = v
      · subst hw
        rw [hDeq] at he
        rcases List.mem_append.mp he with hold | hnew
        · exact entok_append chart st.D w p.1 hne hminne w e (i1 w e hold)
        · rw [List.mem_singleton.mp hnew]
          exact entok_append chart st.D w p.1 hne hminne w p.1
            (i2 w p.1 hmem)
      · rw [entsOf_aset_ne st.D v w _ hw] at he
        exact entok_append chart st.D v p.1 hne hminne w e (i1 w e he)
    · -- 2: cand entries well-formed
      intro w e he
      by_cases hw : w = v
      · subst hw
        rw [entsOf_aset_self] at he
        exact entok_append chart st.D w p.1 hne hminne w e
          (i2 w e (hrsub e he))
      · rw [entsOf_aset_ne st.cand v w _ hw] at he
        exact entok_append chart st.D v p.1 hne hminne w e (i2 w e he)
    · -- 3: sorted
      intro w
      by_cases hw : w = v
      · subst hw
        rw [hDeq]
        rw [List.pairwise_append]
        refine ⟨i3 w, List.pairwise_singleton _ _, ?_⟩
        intro a ha b hb
        rw [List.mem_singleton.mp hb]
        exact i4 w a ha p.1 hmem
      · rw [entsOf_aset_ne st.D v w _ hw]
        exact i3 w
    · -- 4: D values below cand values
      intro w a ha b hb
      by_cases hw : w = v
      · subst hw
        rw [hDeq] at ha
        rw [entsOf_aset_self] at hb
        rcases List.mem_append.mp ha with hold | hnew
        · exact i4 w a hold b (hrsub b hb)
        · rw [List.mem_singleton.mp hnew]
          exact hminv b (hrsub b hb)
      · rw [entsOf_aset_ne st.D v w _ hw] at ha
        rw [entsOf_aset_ne st.cand v w _ hw] at hb
        exact i4 w a ha b hb
    · -- 5: distinct keys
      intro w
      by_cases hw : w = v
      · subst hw
        rw [hDeq, entsOf_aset_self]
        have old5 := i5 w
        obtain ⟨dkN, ckN, disj⟩ := List.nodup_append.mp old5
        have he1ck : p.1.1 ∈ (entsOf st.cand w).map Prod.fst :=
          List.mem_map.mpr ⟨p.1, hmem, rfl⟩
        have he1dk : p.1.1 ∉ (entsOf st.D w).map Prod.fst :=
          fun hd => disj hd he1ck
        have hrkN : ((p.2).map Prod.fst).Nodup := by
          refine List.Nodup.sublist ?_ ckN
          rw [hrest]
          exact List.Sublist.map Prod.fst (List.eraseP_sublist _)
        have he1rk : p.1.1 ∉ (p.2).map Prod.fst := by
          rw [hrest]
          exact not_mem_keys_eraseP _ _ ckN
        have hrk_sub : ∀ a, a ∈ (p.2).map Prod.fst →
            a ∈ (entsOf st.cand w).map Prod.fst := by
          intro a ha
          obtain ⟨q, hq, rfl⟩ := List.mem_map.mp ha
          exact List.mem_map.mpr ⟨q, hrsub q hq, rfl⟩
        rw [List.map_append]
        refine List.nodup_append.mpr ⟨?_, hrkN, ?_⟩
        · refine List.nodup_append.mpr ⟨dkN, List.nodup_singleton _, ?_⟩
          intro a ha hb
          rw [List.mem_singleton.mp hb] at ha
          exact he1dk ha
        · intro a ha hb
          rcases List.mem_append.mp ha with ha2 | ha2
          · exact disj ha2 (hrk_sub a hb)
          · rw [List.mem_singleton.mp ha2] at hb
            exact he1rk hb
      · rw [entsOf_aset_ne st.D v w _ hw, entsOf_aset_ne st.cand v w _ hw]
        exact i5 w
    · -- 6: non-seed D keys explored
      intro w e he hns
      by_cases hw : w = v
      · subst hw
        rw [hDeq] at he
        rcases List.mem_append.mp he with hold | hnew
        · exact i6 w e hold hns
        · rw [List.mem_singleton.mp hnew] at hns ⊢
          exact i7 w p.1 hmem hns
      · rw [entsOf_aset_ne st.D v w _ hw] at he
        exact i6 w e he hns
    · -- 7: non-seed cand keys explored
      intro w e he hns
      by_cases hw : w = v
      · subst hw
        rw [entsOf_aset_self] at he
        exact i7 w e (hrsub e he) hns
      · rw [entsOf_aset_ne st.cand v w _ hw] at he
        exact i7 w e he hns
    · -- 8: head is the best inside
      intro w es hes
      by_cases hw : w = v
      · subst hw
        rw [alookup_aset_self] at hes
        have hes2 := Option.some.inj hes
        cases hDv : alookup st.D w with
        | none =>
          have : entsOf st.D w = [] := by
            unfold entsOf
            rw [hDv]
            rfl
          rw [this] at hes2
          refine ⟨p.1, [], by rw [← hes2]; rfl, ?_⟩
          exact hminne (alookup_none_acontains st.D w hDv)
        | some es0 =>
          obtain ⟨hh, tt, heq0, hmin0⟩ := i8 w es0 hDv
          have : entsOf st.D w = es0 := by
            unfold entsOf
            rw [hDv]
            rfl
          rw [this, heq0] at hes2
          exact ⟨hh, tt ++ [p.1], by rw [← hes2]; rfl, hmin0⟩
      · rw [alookup_aset_ne st.D v w _ hw] at hes
        exact i8 w es hes
    · -- 9: D keys have heaps
      intro w hw
      by_cases hwv : w = v
      · subst hwv
        exact acontains_aset_self st.cand w _
      · rw [acontains_aset_ne st.D v w _ hwv] at hw
        rw [acontains_aset_ne st.cand v w _ hwv]
        exact i9 w hw
    · -- 10: unvisited heaps are seeds
      intro w hw
      by_cases hwv : w = v
      · subst hwv
        rw [acontains_aset_self st.D w _] at hw
        exact Bool.noConfusion hw
      · rw [acontains_aset_ne st.D v w _ hwv] at hw
        rw [alookup_aset_ne st.cand v w _ hwv]
        exact i10 w hw
    · -- shape of the new D
      rfl
    · -- untouched other vertices
      intro w hwv
      exact ⟨alookup_aset_ne st.D v w _ hwv,
        alookup_aset_ne st.cand v w _ hwv⟩

theorem getprob_succ0_ge (chart : KChart) (rank : SmallChartItem → Nat)
    (D : DMap) (ej : RankedEdge) (ejval : ℚ)
    (HC : ChartOK chart rank)
    (hsort : ∀ v, List.Pairwise (fun a b => a.2 ≤ b.2) (entsOf D v))
    (hhead : ∀ v es, alookup D v = some es →
      ∃ h t, es = h :: t ∧ h.2 = minInside chart v)
    (hok : EntOK chart D ej.head (ej, ejval))
    (hguard : acontains D ej.edge.left = true ∧
      ej.left + 1 < (entsOf D ej.edge.left).length) :
    ejval ≤ getprob chart D (mkSucc0 ej) := by
  obtain ⟨hcl, hlen⟩ := hguard
  obtain ⟨esl, hll⟩ := acontains_ex D ej.edge.left hcl
  have hesl : entsOf D ej.edge.left = esl := by
    unfold entsOf
    rw [hll]
    rfl
  have hsortl := hsort ej.edge.left
  rw [hesl] at hsortl
  rw [hesl] at hlen
  obtain ⟨_, hedge, h3, h4, h5, h6, h7, h8⟩ := hok
  dsimp only at hedge h3 h4 h5 h6 h7 h8
  by_cases hseed : ej.left = 0 ∧ ej.right ≤ 0
  · have hval : ejval = ej.edge.inside := h7 hseed
    obtain ⟨es0, hmemc, hedge0⟩ := chartEdges_mem chart ej.head ej.edge hedge
    have hH1 := HC.2.2.1 (ej.head, es0) hmemc ej.edge hedge0
    obtain ⟨hh, tt, heq, hmin⟩ := hhead ej.edge.left esl hll
    have hA0 : (esl.getD 0 dummyRE).2 ≤ (esl.getD (ej.left + 1) dummyRE).2 :=
      pairwise_le_getD esl 0 (ej.left + 1) hsortl (by omega) hlen
    have hGet0 : (esl.getD 0 dummyRE).2 = minInside chart ej.edge.left := by
      rw [heq, List.getD_cons_zero]
      exact hmin
    have hA : minInside chart ej.edge.left ≤
        (esl.getD (ej.left + 1) dummyRE).2 := by
      rw [← hGet0]
      exact hA0
    rw [hval, hH1]
    unfold getprob
    dsimp only [mkSucc0]
    rw [hll]
    dsimp only
    rcases h3 with hr1 | hr0
    · rw [hr1]
      rw [if_neg (show ¬ (0 : Int) ≤ -1 by omega)]
      have hlab : ej.edge.right.label = 0 := h4.mp hr1
      rw [if_neg (not_not_intro hlab)]
      linarith [hA]
    · have hr00 : ej.right = 0 := le_antisymm hseed.2 hr0
      rw [hr00]
      rw [if_pos (le_refl (0 : Int))]
      have hlab : ej.edge.right.label ≠ 0 := by
        intro hl0
        have := h4.mpr hl0
        omega
      rw [if_pos hlab]
      have hB : (match alookup D ej.edge.right with
          | some es => (es.getD (0 : Int).toNat dummyRE).2
          | none => if (0 : Int) = 0 then minInside chart ej.edge.right
              else 0) = minInside chart ej.edge.right := by
        cases hlr : alookup D ej.edge.right with
        | none =>
          dsimp only
          rw [if_pos rfl]
        | some es2 =>
          obtain ⟨h2, t2, heq2, hm2⟩ := hhead ej.edge.right es2 hlr
          dsimp only
          rw [heq2]
          rw [show ((0 : Int).toNat) = 0 from rfl, List.getD_cons_zero]
          exact hm2
      rw [hB]
      linarith [hA]
  · have hval : ejval = getprob chart D ej := h8 hseed
    rw [hval]
    unfold getprob
    dsimp only [mkSucc0]
    rw [hll]
    dsimp only
    have hmono : (esl.getD ej.left dummyRE).2 ≤
        (esl.getD (ej.left + 1) dummyRE).2 :=
      pairwise_le_getD esl ej.left (ej.left + 1) hsortl (by omega) hlen
    refine add_le_add (add_le_add (le_refl _) hmono) (le_refl _)

theorem getprob_succ1_ge (chart : KChart) (rank : SmallChartItem → Nat)
    (D : DMap) (ej : RankedEdge) (ejval : ℚ)
    (HC : ChartOK chart rank)
    (hsort : ∀ v, List.Pairwise (fun a b => a.2 ≤ b.2) (entsOf D v))
    (hhead : ∀ v es, alookup D v = some es →
      ∃ h t, es = h :: t ∧ h.2 = minInside chart v)
    (hok : EntOK chart D ej.head (ej, ejval))
    (hr0 : 0 ≤ ej.right)
    (hguard : acontains D ej.edge.right = true ∧
      ej.right.toNat + 1 < (entsOf D ej.edge.right).length) :
    ejval ≤ getprob chart D (mkSucc1 ej) := by
  obtain ⟨hcr, hlen⟩ := hguard
  obtain ⟨esr, hlr⟩ := acontains_ex D ej.edge.right hcr
  have hesr : entsOf D ej.edge.right = esr := by
    unfold entsOf
    rw [hlr]
    rfl
  have hsortr := hsort ej.edge.right
  rw [hesr] at hsortr
  rw [hesr] at hlen
  obtain ⟨_, hedge, h3, h4, h5, h6, h7, h8⟩ := hok
  dsimp only at hedge h3 h4 h5 h6 h7 h8
  have htn : (ej.right + 1).toNat = ej.right.toNat + 1 := by omega
  by_cases hseed : ej.left = 0 ∧ ej.right ≤ 0
  · have hval : ejval = ej.edge.inside := h7 hseed
    have hr00 : ej.right = 0 := le_antisymm hseed.2 hr0
    obtain ⟨es0, hmemc, hedge0⟩ := chartEdges_mem chart ej.head ej.edge hedge
    have hH1 := HC.2.2.1 (ej.head, es0) hmemc ej.edge hedge0
    obtain ⟨hh, tt, heq, hmin⟩ := hhead ej.edge.right esr hlr
    have hA0 : (esr.getD 0 dummyRE).2 ≤ (esr.getD (ej.right.toNat + 1)
        dummyRE).2 :=
      pairwise_le_getD esr 0 (ej.right.toNat + 1) hsortr (by omega) hlen
    have hGet0 : (esr.getD 0 dummyRE).2 = minInside chart ej.edge.right := by
      rw [heq, List.getD_cons_zero]
      exact hmin
    have hlab : ej.edge.right.label ≠ 0 := by
      intro hl0
      have := h4.mpr hl0
      omega
    rw [hval, hH1]
    unfold getprob
    dsimp only [mkSucc1]
    rw [hlr]
    dsimp only
    rw [if_pos (show (0 : Int) ≤ ej.right + 1 by omega)]
    rw [if_pos hlab, htn]
    have hL : (match alookup D ej.edge.left with
        | some es => (es.getD ej.left dummyRE).2
        | none => if ej.left = 0 then minInside chart ej.edge.left
            else 0) = minInside chart ej.edge.left := by
      cases hll : alookup D ej.edge.left with
      | none =>
        dsimp only
        rw [if_pos hseed.1]
      | some es2 =>
        obtain ⟨h2, t2, heq2, hm2⟩ := hhead ej.edge.left es2 hll
        dsimp only
        rw [heq2, hseed.1, List.getD_cons_zero]
        exact hm2
    rw [hL]
    have : minInside chart ej.edge.right ≤
        (esr.getD (ej.right.toNat + 1) dummyRE).2 := by
      rw [← hGet0]
      exact hA0
    linarith [this]
  · have hval : ejval = getprob chart D ej := h8 hseed
    rw [hval]
    unfold getprob
    dsimp only [mkSucc1]
    rw [hlr]
    dsimp only
    rw [if_pos (show (0 : Int) ≤ ej.right + 1 by omega), if_pos hr0, htn]
    have hmono : (esr.getD ej.right.toNat dummyRE).2 ≤
        (esr.getD (ej.right.toNat + 1) dummyRE).2 :=
      pairwise_le_getD esr ej.right.toNat (ej.right.toNat + 1) hsortr
        (by omega) hlen
    refine add_le_add (le_refl _) hmono

theorem mkSucc0_head (ej : RankedEdge) : (mkSucc0 ej).head = ej.head := rfl

theorem mkSucc0_edge (ej : RankedEdge) : (mkSucc0 ej).edge = ej.edge := rfl

theorem mkSucc0_left (ej : RankedEdge) : (mkSucc0 ej).left = ej.left + 1 := rfl

theorem mkSucc0_right (ej : RankedEdge) : (mkSucc0 ej).right = ej.right := rfl

theorem mkSucc1_head (ej : RankedEdge) : (mkSucc1 ej).head = ej.head := rfl

theorem mkSucc1_edge (ej : RankedEdge) : (mkSucc1 ej).edge = ej.edge := rfl

theorem mkSucc1_left (ej : RankedEdge) : (mkSucc1 ej).left = ej.left := rfl

theorem mkSucc1_right (ej : RankedEdge) :
    (mkSucc1 ej).right = ej.right + 1 := rfl

theorem mem_of_getLast (es : List (RankedEdge × ℚ)) (x : RankedEdge × ℚ)
    (h : es.getLast? = some x) : x ∈ es := by
  induction es with
  | nil => exact Option.noConfusion h
  | cons a t ih =>
    cases t with
    | nil =>
      rw [List.getLast?_singleton] at h
      rw [← Option.some.inj h]
      exact List.mem_cons_self a []
    | cons b t2 =>
      rw [List.getLast?_cons_cons] at h
      exact List.mem_cons_of_mem a (ih h)

/-- Queue insertion of the successor stored for an accepted candidate:
invariant preservation plus the untouched-state facts. -/
theorem kinv_insert_core (chart : KChart)
    (k1 : Nat) (st : KState) (ej ej1 : RankedEdge) (ejval : ℚ)
    (h : KInv chart k1 st)
    (hlast : (entsOf st.D ej.head).getLast? = some (ej, ejval))
    (hhead : ej1.head = ej.head) (hedge1 : ej1.edge = ej.edge)
    (hns : ¬ (ej1.left = 0 ∧ ej1.right ≤ 0))
    (hshape3 : ej1.right = -1 ∨ 0 ≤ ej1.right)
    (hshape4 : ej1.right = -1 ↔ ej1.edge.right.label = 0)
    (hL1 : ej1.left = 0 ∨ (acontains st.D ej1.edge.left = true ∧
      ej1.left < (entsOf st.D ej1.edge.left).length))
    (hR1 : ej1.right ≤ 0 ∨ (acontains st.D ej1.edge.right = true ∧
      ej1.right < ((entsOf st.D ej1.edge.right).length : Int)))
    (hbound : ejval ≤ getprob chart st.D ej1)
    (hnexp : ej1 ∉ st.explored) :
    KInv chart k1 (insertCand chart st ej1) ∧
    (insertCand chart st ej1).D = st.D ∧
    (∀ w, w ≠ ej.head →
      alookup (insertCand chart st ej1).cand w = alookup st.cand w) ∧
    (insertCand chart st ej1).explored = st.explored ++ [ej1] := by
  obtain ⟨i1, i2, i3, i4, i5, i6, i7, i8, i9, i10⟩ := h
  have hejmem : (ej, ejval) ∈ entsOf st.D ej.head := mem_of_getLast _ _ hlast
  have hok := i1 ej.head (ej, ejval) hejmem
  have hnotkeyD : ej1 ∉ (entsOf st.D ej.head).map Prod.fst := by
    intro hmem
    obtain ⟨e, he, heq⟩ := List.mem_map.mp hmem
    refine hnexp ?_
    rw [← heq]
    exact i6 ej.head e he (by rw [heq]; exact hns)
  have hnotkeyC : ej1 ∉ (entsOf st.cand ej.head).map Prod.fst := by
    intro hmem
    obtain ⟨e, he, heq⟩ := List.mem_map.mp hmem
    refine hnexp ?_
    rw [← heq]
    exact i7 ej.head e he (by rw [heq]; exact hns)
  have hinner : acontains (entsOf st.cand ej.head) ej1 = false :=
    keys_not_mem_acontains _ _ hnotkeyC
  have hinner2 : aset (entsOf st.cand ej1.head) ej1
      (getprob chart st.D ej1) = entsOf st.cand ej.head ++
      [(ej1, getprob chart st.D ej1)] := by
    rw [hhead]
    exact aset_of_not_contains _ _ _ hinner
  unfold insertCand
  rw [hinner2, hhead]
  refine ⟨⟨i1, ?_, i3, ?_, ?_, ?_, ?_, i8, ?_, ?_⟩, rfl, ?_, rfl⟩
  · -- 2: cand entries well-formed
    intro w e he
    by_cases hw : w = ej.head
    · subst hw
      rw [entsOf_aset_self] at he
      rcases List.mem_append.mp he with hold | hnew
      · exact i2 ej.head e hold
      · rw [List.mem_singleton.mp hnew]
        refine ⟨hhead, by rw [hedge1]; exact hok.2.1, hshape3, hshape4,
          hL1, hR1, fun hc => absurd hc hns, fun _ => rfl⟩
    · rw [entsOf_aset_ne st.cand ej.head w _ hw] at he
      exact i2 w e he
  · -- 4: D values below cand values
    intro w a ha b hb
    by_cases hw : w = ej.head
    · subst hw
      rw [entsOf_aset_self] at hb
      rcases List.mem_append.mp hb with hold | hnew
      · exact i4 ej.head a ha b hold
      · rw [List.mem_singleton.mp hnew]
        exact le_trans (pairwise_le_getLast _ _ (i3 ej.head) hlast a ha) hbound
    · rw [entsOf_aset_ne st.cand ej.head w _ hw] at hb
      exact i4 w a ha b hb
  · -- 5: distinct keys
    intro w
    by_cases hw : w = ej.head
    · subst hw
      rw [entsOf_aset_self, List.map_append]
      obtain ⟨dkN, ckN, disj⟩ := List.nodup_append.mp (i5 ej.head)
      rw [← List.append_assoc]
      refine List.nodup_append.mpr
        ⟨List.nodup_append.mpr ⟨dkN, ckN, disj⟩, List.nodup_singleton _, ?_⟩
      intro a ha hb
      rw [List.mem_singleton.mp hb] at ha
      rcases List.mem_append.mp ha with ha2 | ha2
      · exact hnotkeyD ha2
      · exact hnotkeyC ha2
    · rw [entsOf_aset_ne st.cand ej.head w _ hw]
      exact i5 w
  · -- 6: non-seed D keys explored
    intro w e he hns2
    exact List.mem_append_left _ (i6 w e he hns2)
  · -- 7: non-seed cand keys explored
    intro w e he hns2
    by_cases hw : w = ej.head
    · subst hw
      rw [entsOf_aset_self] at he
      rcases List.mem_append.mp he with hold | hnew
      · exact List.mem_append_left _ (i7 ej.head e hold hns2)
      · rw [List.mem_singleton.mp hnew]
        exact List.mem_append_right _ (List.mem_singleton_self ej1)
    · rw [entsOf_aset_ne st.cand ej.head w _ hw] at he
      exact List.mem_append_left _ (i7 w e he hns2)
  · -- 9: D keys have heaps
    intro w hw
    by_cases hwv : w = ej.head
    · subst hwv
      exact acontains_aset_self st.cand ej.head _
    · rw [acontains_aset_ne st.cand ej.head w _ hwv]
      exact i9 w hw
  · -- 10: unvisited heaps are seeds
    intro w hw
    by_cases hwv : w = ej.head
    · subst hwv
      have : acontains st.D ej.head = true :=
        entsOf_ne_nil_acontains st.D ej.head
          (List.ne_nil_of_mem hejmem)
      rw [this] at hw
      exact Bool.noConfusion hw
    · rw [alookup_aset_ne st.cand ej.head w _ hwv]
      exact i10 w hw
  · -- untouched cand at other vertices
    intro w hwv
    exact alookup_aset_ne st.cand ej.head w _ hwv

theorem kinv_insStep0 (chart : KChart) (rank : SmallChartItem → Nat)
    (k1 : Nat) (st : KState) (ej : RankedEdge) (ejval : ℚ)
    (HC : ChartOK chart rank) (h : KInv chart k1 st)
    (hlast : (entsOf st.D ej.head).getLast? = some (ej, ejval)) :
    KInv chart k1 (insStep chart st (mkSucc0 ej) ej.edge.left
      (ej.left + 1)) ∧
    (insStep chart st (mkSucc0 ej) ej.edge.left (ej.left + 1)).D = st.D ∧
    (∀ w, w ≠ ej.head →
      alookup (insStep chart st (mkSucc0 ej) ej.edge.left
        (ej.left + 1)).cand w = alookup st.cand w) := by
  unfold insStep
  split
  · next hg =>
    obtain ⟨hg1, hg2, hg3⟩ := hg
    have hejmem := mem_of_getLast _ _ hlast
    have hok := h.1 ej.head (ej, ejval) hejmem
    obtain ⟨_, hedge, h3, h4, h5, h6, h7, h8⟩ := hok
    dsimp only at hedge h3 h4 h5 h6 h7 h8
    have hcore := kinv_insert_core chart k1 st ej (mkSucc0 ej) ejval h hlast
      (mkSucc0_head ej) (mkSucc0_edge ej)
      (by rw [mkSucc0_left]; intro hc; omega)
      (by rw [mkSucc0_right]; exact h3)
      (by rw [mkSucc0_right, mkSucc0_edge]; exact h4)
      (Or.inr (by rw [mkSucc0_left, mkSucc0_edge]; exact ⟨hg1, hg2⟩))
      (by rw [mkSucc0_right, mkSucc0_edge]; exact h6)
      (getprob_succ0_ge chart rank st.D ej ejval HC h.2.2.1
        h.2.2.2.2.2.2.2.1 (h.1 ej.head (ej, ejval) hejmem) ⟨hg1, hg2⟩)
      hg3
    exact ⟨hcore.1, hcore.2.1, hcore.2.2.1⟩
  · exact ⟨h, rfl, fun w _ => rfl⟩

theorem kinv_insStep1 (chart : KChart) (rank : SmallChartItem → Nat)
    (k1 : Nat) (st : KState) (ej : RankedEdge) (ejval : ℚ)
    (HC : ChartOK chart rank) (h : KInv chart k1 st)
    (hlast : (entsOf st.D ej.head).getLast? = some (ej, ejval))
    (hr0 : 0 ≤ ej.right) :
    KInv chart k1 (insStep chart st (mkSucc1 ej) ej.edge.right
      (ej.right.toNat + 1)) ∧
    (insStep chart st (mkSucc1 ej) ej.edge.right (ej.right.toNat + 1)).D
      = st.D ∧
    (∀ w, w ≠ ej.head →
      alookup (insStep chart st (mkSucc1 ej) ej.edge.right
        (ej.right.toNat + 1)).cand w = alookup st.cand w) := by
  unfold insStep
  split
  · next hg =>
    obtain ⟨hg1, hg2, hg3⟩ := hg
    have hejmem := mem_of_getLast _ _ hlast
    have hok := h.1 ej.head (ej, ejval) hejmem
    obtain ⟨_, hedge, h3, h4, h5, h6, h7, h8⟩ := hok
    dsimp only at hedge h3 h4 h5 h6 h7 h8
    have hcore := kinv_insert_core chart k1 st ej (mkSucc1 ej) ejval h hlast
      (mkSucc1_head ej) (mkSucc1_edge ej)
      (by rw [mkSucc1_right]; intro hc; omega)
      (by rw [mkSucc1_right]; exact Or.inr (by omega))
      (by
        rw [mkSucc1_right, mkSucc1_edge]
        constructor
        · intro hc
          exact absurd hc (by omega)
        · intro hlab
          exact absurd (h4.mpr hlab) (by omega))
      (by rw [mkSucc1_left, mkSucc1_edge]; exact h5)
      (Or.inr (by
        rw [mkSucc1_right, mkSucc1_edge]
        refine ⟨hg1, ?_⟩
        have hg2b : ej.right.toNat + 1 < (entsOf st.D ej.edge.right).length :=
          hg2
        omega))
      (getprob_succ1_ge chart rank st.D ej ejval HC h.2.2.1
        h.2.2.2.2.2.2.2.1 (h.1 ej.head (ej, ejval) hejmem) hr0 ⟨hg1, hg2⟩)
      hg3
    exact ⟨hcore.1, hcore.2.1, hcore.2.2.1⟩
  · exact ⟨h, rfl, fun w _ => rfl⟩

theorem kstep_inv (chart : KChart) (rank : SmallChartItem → Nat)
    (k1 : Nat) (HC : ChartOK chart rank) :
    ∀ fuel call st, KInv chart k1 st → CallOK st call →
      KInv chart k1 (kstep chart k1 fuel call st) ∧
      ∀ w, callRank rank call < rank w →
        alookup (kstep chart k1 fuel call st).D w = alookup st.D w ∧
        alookup (kstep chart k1 fuel call st).cand w =
          alookup st.cand w := by
  intro fuel
  induction fuel with
  | zero =>
    intro call st h _
    exact ⟨h, fun w _ => ⟨rfl, rfl⟩⟩
  | succ fuel ih =>
    intro call st h hcall
    cases call with
    | kth v k =>
      simp only [kstep]
      have hseedD : (seedIfAbsent chart k1 st v).D = st.D := by
        unfold seedIfAbsent
        split <;> rfl
      have hseedC : ∀ w, w ≠ v →
          alookup (seedIfAbsent chart k1 st v).cand w =
            alookup st.cand w := by
        intro w hw
        unfold seedIfAbsent
        split
        · rfl
        · exact alookup_aset_ne st.cand v w _ hw
      have h1 := kinv_seed chart k1 st v HC.1 h
      have hih := ih (.loop v k) (seedIfAbsent chart k1 st v) h1 True.intro
      refine ⟨hih.1, ?_⟩
      intro w hw
      have hne : w ≠ v := by
        intro hc
        subst hc
        exact absurd hw (lt_irrefl _)
      have hw2 := hih.2 w hw
      refine ⟨?_, ?_⟩
      · rw [hw2.1, hseedD]
      · rw [hw2.2, hseedC w hne]
    | loop v k =>
      simp only [kstep]
      by_cases hc : ¬ acontains st.D v = true ∨ lenD st v < k
      · rw [if_pos hc]
        cases hD : alookup st.D v with
        | none =>
          dsimp only
          exact ih (.pop v k) st h True.intro
        | some es =>
          dsimp only
          cases hL : es.getLast? with
          | none =>
            dsimp only
            exact ih (.pop v k) st h True.intro
          | some e =>
            dsimp only
            have hesD : entsOf st.D v = es := by
              unfold entsOf
              rw [hD]
              rfl
            have hmemE : e ∈ entsOf st.D v := by
              rw [hesD]
              exact mem_of_getLast es e hL
            have hEnt := h.1 v e hmemE
            have hhead : e.1.head = v := hEnt.1
            have hcall2 : CallOK st (.next e.1) := by
              refine ⟨e.2, ?_⟩
              show (entsOf st.D e.1.head).getLast? = some (e.1, e.2)
              rw [hhead, hesD]
              exact hL
            have hih1 := ih (.next e.1) st h hcall2
            have hih2 := ih (.pop v k)
              (kstep chart k1 fuel (.next e.1) st) hih1.1 True.intro
            refine ⟨hih2.1, ?_⟩
            intro w hw
            have hwv : rank e.1.head < rank w := by
              rw [hhead]
              exact hw
            have u1 := hih1.2 w hwv
            have u2 := hih2.2 w hw
            exact ⟨u2.1.trans u1.1, u2.2.trans u1.2⟩
      · rw [if_neg hc]
        exact ⟨h, fun w _ => ⟨rfl, rfl⟩⟩
    | pop v k =>
      simp only [kstep]
      cases hp : popAppend st v with
      | none =>
        exact ⟨h, fun w _ => ⟨rfl, rfl⟩⟩
      | some st2 =>
        obtain ⟨h2, _, hun, _⟩ := kinv_pop chart k1 st v st2 HC.2.1 h hp
        have hih := ih (.loop v k) st2 h2 True.intro
        refine ⟨hih.1, ?_⟩
        intro w hw
        have hne : w ≠ v := by
          intro hcw
          subst hcw
          exact absurd hw (lt_irrefl _)
        have u2 := hun w hne
        have u1 := hih.2 w hw
        exact ⟨u1.1.trans u2.1, u1.2.trans u2.2⟩
    | next ej =>
      simp only [kstep]
      obtain ⟨val, hlast⟩ := hcall
      have hmemE := mem_of_getLast _ _ hlast
      have hEnt := h.1 ej.head (ej, val) hmemE
      have hEdge : ej.edge ∈ chartEdges chart ej.head := hEnt.2.1
      obtain ⟨es2, hpmem, hemem⟩ := chartEdges_mem chart ej.head ej.edge hEdge
      have hrl := (HC.2.2.2 (ej.head, es2) hpmem ej.edge hemem).1
      have hih1 := ih (.kth ej.edge.left (ej.left + 2)) st h True.intro
      have hDh := (hih1.2 ej.head hrl).1
      have hlast1 : (entsOf (kstep chart k1 fuel
          (.kth ej.edge.left (ej.left + 2)) st).D ej.head).getLast? =
          some (ej, val) := by
        unfold entsOf
        rw [hDh]
        exact hlast
      obtain ⟨hI2, hD2eq, hc2un⟩ :=
        kinv_insStep0 chart rank k1 _ ej val HC hih1.1 hlast1
      have hcall2 : CallOK (insStep chart
          (kstep chart k1 fuel (.kth ej.edge.left (ej.left + 2)) st)
          (mkSucc0 ej) ej.edge.left (ej.left + 1)) (.next2 ej) := by
        refine ⟨val, ?_⟩
        show (entsOf (insStep chart
          (kstep chart k1 fuel (.kth ej.edge.left (ej.left + 2)) st)
          (mkSucc0 ej) ej.edge.left (ej.left + 1)).D ej.head).getLast? =
          some (ej, val)
        unfold entsOf
        rw [hD2eq]
        exact hlast1
      have hih2 := ih (.next2 ej) _ hI2 hcall2
      refine ⟨hih2.1, ?_⟩
      intro w hw
      have hwl : rank ej.edge.left < rank w := lt_trans hrl hw
      have hne : w ≠ ej.head := by
        intro hcw
        subst hcw
        exact absurd hw (lt_irrefl _)
      have u1 := hih1.2 w hwl
      have u3 := hih2.2 w hw
      refine ⟨?_, ?_⟩
      · rw [u3.1, hD2eq, u1.1]
      · rw [u3.2, hc2un w hne, u1.2]
    | next2 ej =>
      simp only [kstep]
      by_cases hr : 0 ≤ ej.right
      · rw [if_pos hr]
        obtain ⟨val, hlast⟩ := hcall
        have hmemE := mem_of_getLast _ _ hlast
        have hEnt := h.1 ej.head (ej, val) hmemE
        have hEdge : ej.edge ∈ chartEdges chart ej.head := hEnt.2.1
        obtain ⟨es2, hpmem, hemem⟩ :=
          chartEdges_mem chart ej.head ej.edge hEdge
        have hlab : ej.edge.right.label ≠ 0 := by
          intro hlab0
          have h4 : ej.right = -1 := hEnt.2.2.2.1.mpr hlab0
          omega
        have hrr := (HC.2.2.2 (ej.head, es2) hpmem ej.edge hemem).2 hlab
        have hih1 := ih (.kth ej.edge.right (ej.right.toNat + 2)) st h
          True.intro
        have hDh := (hih1.2 ej.head hrr).1
        have hlast1 : (entsOf (kstep chart k1 fuel
            (.kth ej.edge.right (ej.right.toNat + 2)) st).D
            ej.head).getLast? = some (ej, val) := by
          unfold entsOf
          rw [hDh]
          exact hlast
        obtain ⟨hI2, hD2eq, hc2un⟩ :=
          kinv_insStep1 chart rank k1 _ ej val HC hih1.1 hlast1 hr
        refine ⟨hI2, ?_⟩
        intro w hw
        have hwl : rank ej.edge.right < rank w := lt_trans hrr hw
        have hne : w ≠ ej.head := by
          intro hcw
          subst hcw
          exact absurd hw (lt_irrefl _)
        have u1 := hih1.2 w hwl
        refine ⟨?_, ?_⟩
        · rw [hD2eq, u1.1]
        · rw [hc2un w hne, u1.2]
      · rw [if_neg hr]
        exact ⟨h, fun w _ => ⟨rfl, rfl⟩⟩

theorem filterExplore_sublist (chart : KChart) :
    ∀ (es : List (RankedEdge × ℚ)) (D : DMap),
      (filterExplore chart es D).1.Sublist es := by
  intro es
  induction es with
  | nil =>
    intro D
    exact List.Sublist.refl []
  | cons e t ihx =>
    intro D
    unfold filterExplore
    cases hx : explorederivation chart 101 e.1 D with
    | mk b D1 =>
      cases b
      · dsimp only
        exact (ihx D1).trans (List.sublist_cons_self e t)
      · dsimp only
        exact List.Sublist.cons₂ e (ihx D1)

/-- C6: corrected.  For every finished chart that satisfies the monotone
acyclic-hypergraph contract (`ChartOK`: duplicate-free per-vertex edge
lists, score = inside, each inside = rule probability + best insides of
the children, a rank function witnessing acyclicity), whenever `lazykbest`
returns, its derivations list is sorted by weight ascending; the
underlying ranked entries kept from `D[goal]` are sorted and have pairwise
distinct ranked-edge keys, but the claim's "no duplicate entries" fails
for the rendered (string, weight) pairs themselves (see the
counterexample with two edges differing only in their rule number). -/
theorem lazykbest_sorted_entries_distinct (chart : KChart)
    (rank : SmallChartItem → Nat) (goal : SmallChartItem) (k : Nat)
    (tolabel : Nat → String) (fuel : Nat)
    (res : List (String × ℚ) × DMap)
    (HC : ChartOK chart rank)
    (hres : lazykbest chart goal k tolabel none fuel = some res) :
    List.Pairwise (fun a b => a.2 ≤ b.2) res.1 ∧
    ∃ keep D3,
      res.1 = keep.map (fun e =>
        (getderivation chart (aset D3 goal keep) tolabel none 101 e.1,
         e.2)) ∧
      List.Pairwise (fun a b => a.2 ≤ b.2) keep ∧
      (keep.map Prod.fst).Nodup := by
  unfold lazykbest at hres
  cases hDg : alookup (kstep chart k fuel (.kth goal k) ⟨[], [], []⟩).D
      goal with
  | none =>
    rw [hDg] at hres
    exact Option.noConfusion hres
  | some entries =>
    rw [hDg] at hres
    have hres2 := Option.some.inj hres
    have hK := (kstep_inv chart rank k HC fuel (.kth goal k) ⟨[], [], []⟩
      (kinv_init chart k) True.intro).1
    have hE : entsOf (kstep chart k fuel (.kth goal k) ⟨[], [], []⟩).D
        goal = entries := by
      unfold entsOf
      rw [hDg]
      rfl
    have hsorted : List.Pairwise (fun a b => a.2 ≤ b.2) entries := by
      rw [← hE]
      exact hK.2.2.1 goal
    have hnd : (entries.map Prod.fst).Nodup := by
      have h5 := hK.2.2.2.2.1 goal
      rw [hE] at h5
      exact List.Nodup.of_append_left h5
    have hsub := filterExplore_sublist chart entries
      (kstep chart k fuel (.kth goal k) ⟨[], [], []⟩).D
    have hksort : List.Pairwise (fun a b => a.2 ≤ b.2)
        (filterExplore chart entries
          (kstep chart k fuel (.kth goal k) ⟨[], [], []⟩).D).1 :=
      List.Pairwise.sublist hsub hsorted
    refine ⟨?_, (filterExplore chart entries
        (kstep chart k fuel (.kth goal k) ⟨[], [], []⟩).D).1,
      (filterExplore chart entries
        (kstep chart k fuel (.kth goal k) ⟨[], [], []⟩).D).2,
      ?_, hksort, ?_⟩
    · rw [← hres2]
      unfold lazykbestFinish
      dsimp only
      exact List.pairwise_map.mpr hksort
    · rw [← hres2]
      rfl
    · exact List.Nodup.sublist (List.Sublist.map Prod.fst hsub) hnd

/-- Witness: the concrete two-edge chart from the counterexample satisfies
`ChartOK` with the label as rank function, and the theorem applies to its
successful `lazykbest` run. -/
theorem lazykbest_sorted_entries_distinct_wit :
    ∃ res, lazykbest kbexChart ⟨1, 1⟩ 5
        (fun n => ["Epsilon", "V"].getD n "") none 30 = some res ∧
      (List.Pairwise (fun a b => a.2 ≤ b.2) res.1 ∧
       ∃ keep D3,
         res.1 = keep.map (fun e =>
           (getderivation kbexChart (aset D3 ⟨1, 1⟩ keep)
             (fun n => ["Epsilon", "V"].getD n "") none 101 e.1, e.2)) ∧
         List.Pairwise (fun a b => a.2 ≤ b.2) keep ∧
         (keep.map Prod.fst).Nodup) := by
  cases hres : lazykbest kbexChart ⟨1, 1⟩ 5
      (fun n => ["Epsilon", "V"].getD n "") none 30 with
  | none => exact absurd hres (by decide)
  | some res =>
    exact ⟨res, rfl, lazykbest_sorted_entries_distinct kbexChart
      (fun it => it.label) ⟨1, 1⟩ 5
      (fun n => ["Epsilon", "V"].getD n "") 30 res
      (by unfold ChartOK; decide) hres⟩

end DiscoDop
